import Mathlib

/-!
# Verification of the jsonic JSON compare / merge engine

This file embeds the diff/patch engine of `src/views/JsonCompareView.vue`
(functions `isDeepEqual`, `buildDiff`, `createEntry`, `createEmptyRoot`,
`setValueAtPath`, `removeValueAtPath`, `applyChange`) as Lean definitions and
proves properties of them.

Modelling notes.

* A parsed document value (`unknown` in the source) is the mutual inductive
  family `JVal` / `JArr` / `JObj`.  The JavaScript value `undefined` is the
  constructor `JVal.undef`: the source code manipulates `undefined` both as
  "absent" (missing object key, array index out of range) and as a value that
  can sit inside an array (a sparse-array hole read back through iteration),
  so it is part of the value type.  `JSON.parse` output never contains
  `JVal.undef`; the predicate `noUndef` characterises such values.
* Arrays are modelled as dense sequences (`JArr`).  A JavaScript sparse-array
  hole and an explicit `undefined` element are identified (both read back as
  `undefined`; the engine spreads every array it touches, which converts holes
  to `undefined` elements).  A non-index property of a JavaScript array
  (created e.g. by `arrayBase[key] = v` with a non-canonical-index `key`) is
  invisible to `JSON.stringify` — which the app applies to every merge result —
  and is not representable here: such writes are modelled as dropped.
* Objects are modelled as insertion-ordered association lists (`JObj`).
  JavaScript objects cannot carry duplicate keys; the predicate `wf` states
  that an embedded value has no duplicate keys anywhere.
* Numbers are modelled as `Int`: every number the claims exercise is an
  integer, and none of the claims depend on floating-point behaviour.
* `cloneDeep` (a `structuredClone`) is the identity on immutable values.
* The `id` field of a diff entry (a display key built from a global counter)
  plays no role in any claim and is omitted from `DiffEntry`.
-/

set_option autoImplicit false

namespace Jsonic

mutual
/-- A JSON-like runtime value of the engine, including JavaScript `undefined`. -/
inductive JVal where
  | undef
  | null
  | bool (b : Bool)
  | num (n : Int)
  | str (s : String)
  | arr (a : JArr)
  | obj (o : JObj)

/-- The elements of a JSON array, as a dense ordered sequence. -/
inductive JArr where
  | nil
  | cons (hd : JVal) (tl : JArr)

/-- The fields of a JSON object, as an insertion-ordered association list. -/
inductive JObj where
  | nil
  | cons (key : String) (val : JVal) (tl : JObj)
end

deriving instance DecidableEq for JVal
deriving instance Repr for JVal

/-- Convert a Lean list of values to a `JArr` (for writing concrete inputs). -/
def JArr.ofList : List JVal → JArr
  | [] => .nil
  | v :: rest => .cons v (JArr.ofList rest)

/-- Convert a Lean list of pairs to a `JObj` (for writing concrete inputs). -/
def JObj.ofList : List (String × JVal) → JObj
  | [] => .nil
  | (k, v) :: rest => .cons k v (JObj.ofList rest)

/-- Number of elements of an array. -/
def JArr.length : JArr → Nat
  | .nil => 0
  | .cons _ t => t.length + 1

/-- `a[i]` for an array: the element when `i` is in range, JS `undefined`
otherwise. -/
def JArr.getIdx : JArr → Nat → JVal
  | .nil, _ => .undef
  | .cons x _, 0 => x
  | .cons _ t, n + 1 => t.getIdx n

/-- `arrayBase[i] = v` on a dense array, as the engine performs it: in range it
replaces the element; past the end it pads with `undefined` (the JS write
creates holes, which the next spread turns into `undefined` elements). -/
def JArr.setPad : JArr → Nat → JVal → JArr
  | .cons _ t, 0, v => .cons v t
  | .cons x t, n + 1, v => .cons x (t.setPad n v)
  | .nil, 0, v => .cons v .nil
  | .nil, n + 1, v => .cons .undef (JArr.nil.setPad n v)

/-- `arrayBase.splice(i, 1)`: remove the element at `i`, shifting the rest. -/
def JArr.eraseIdx : JArr → Nat → JArr
  | .nil, _ => .nil
  | .cons _ t, 0 => t
  | .cons x t, n + 1 => .cons x (t.eraseIdx n)

/-- The keys of an object, in insertion order (`Object.keys`). -/
def JObj.keys : JObj → List String
  | .nil => []
  | .cons k _ t => k :: t.keys

/-- Number of fields of an object. -/
def JObj.length : JObj → Nat
  | .nil => 0
  | .cons _ _ t => t.length + 1

/-- `key in o` for an object. -/
def JObj.containsKey : JObj → String → Bool
  | .nil, _ => false
  | .cons k _ t, key => k == key || t.containsKey key

/-- `o[key]` for an object: the value of the first matching field, JS
`undefined` when the key is absent. -/
def JObj.getProp : JObj → String → JVal
  | .nil, _ => .undef
  | .cons k v t, key => if k == key then v else t.getProp key

/-- `objectBase[key] = v`: replace the value of an existing key in place,
append a fresh key at the end (JS property-assignment order semantics). -/
def JObj.setKey : JObj → String → JVal → JObj
  | .nil, key, v => .cons key v .nil
  | .cons k w t, key, v =>
      if k == key then .cons k v t else .cons k w (t.setKey key v)

/-- `const { [key]: _, ...rest } = objectBase`: drop the key, keep the others
in order. -/
def JObj.eraseKey : JObj → String → JObj
  | .nil, _ => .nil
  | .cons k v t, key =>
      if k == key then t.eraseKey key else .cons k v (t.eraseKey key)

/-- A path segment: an object key or an array index (`PathSegment` in the
source is `string | number`; the spec's `Path` model uses `Index(integer)`). -/
inductive PathSegment where
  | key (s : String)
  | idx (i : Int)
  deriving DecidableEq, Repr

/-- `String(segment)`: the string a segment coerces to when used as an object
property key. -/
def segToKey : PathSegment → String
  | .key s => s
  | .idx i => toString i

/-- Parse a non-empty list of decimal digits (kernel-computable, unlike
`String.toNat?`). -/
def digitsToNat? (cs : List Char) : Option Nat :=
  match cs with
  | [] => none
  | _ => go 0 cs
where
  go (acc : Nat) : List Char → Option Nat
    | [] => some acc
    | c :: rest => if '0' ≤ c ∧ c ≤ '9' then go (acc * 10 + (c.toNat - 48)) rest else none

/-- The canonical-array-index value of a string: `"2"` parses, `"02"`, `"-1"`
and `"a"` do not (a JS array treats exactly the canonical decimal strings as
indices; the `2^32 - 1` upper bound is not modelled). -/
def canonNat? (s : String) : Option Nat :=
  match s.data with
  | '0' :: _ :: _ => none
  | cs => digitsToNat? cs

/-- A decimal-integer reading of a string, as JS `ToNumber` produces for the
strings the engine can meet (`""` coerces to `0`; non-integer numeric forms
such as `"1.5"` or `"+3"` are outside the path model and map to `none`,
like the non-numeric strings whose `NaN` fails every range guard). -/
def strToInt? (s : String) : Option Int :=
  match s.data with
  | [] => some 0
  | '-' :: cs => (digitsToNat? cs).map (fun n => -(n : Int))
  | cs => (digitsToNat? cs).map (fun n => (n : Int))

/-- The array index a segment denotes when used as a JS array subscript:
a non-negative integer, or a canonical-index string (`"2"`, not `"02"` or
`"a"`).  Anything else addresses a non-index property of the array, which is
invisible to the JSON value model. -/
def arrIndex? : PathSegment → Option Nat
  | .idx i => if 0 ≤ i then some i.toNat else none
  | .key s => canonNat? s

/-- JS `ToNumber` of a segment, used by `removeValueAtPath`'s range guard
(`index >= 0 && index < length`). -/
def segToNumber : PathSegment → Option Int
  | .idx i => some i
  | .key s => strToInt? s

/-- `typeof` of an embedded value (note `typeof null === "object"`). -/
def typeofJ : JVal → String
  | .undef => "undefined"
  | .null => "object"
  | .bool _ => "boolean"
  | .num _ => "number"
  | .str _ => "string"
  | .arr _ => "object"
  | .obj _ => "object"

/-- JS strict equality `===` restricted to the cases the engine's recursion
relies on: equality of primitive values.  For two containers `===` is
reference equality, which on immutable structural values is subsumed by the
structural recursion that follows it in `isDeepEqual`. -/
def strictEq : JVal → JVal → Bool
  | .undef, .undef => true
  | .null, .null => true
  | .bool a, .bool b => a == b
  | .num a, .num b => a == b
  | .str a, .str b => a == b
  | _, _ => false

/-- `isObjectLike`: `typeof value === "object" && value !== null`. -/
def isObjectLike : JVal → Bool
  | .arr _ => true
  | .obj _ => true
  | _ => false

/-- `Array.isArray`. -/
def isArrayJ : JVal → Bool
  | .arr _ => true
  | _ => false

/-- `cloneDeep` (`structuredClone`): the identity on immutable structural
values. -/
def cloneDeep (v : JVal) : JVal := v

mutual
/-- `isDeepEqual` from the source: strict equality, then a `typeof` check,
then object-likeness and `Array.isArray` agreement, then `Object.keys`-driven
structural recursion. -/
def isDeepEqual (l r : JVal) : Bool :=
  if strictEq l r then true
  else if typeofJ l != typeofJ r then false
  else
    match l, r with
    | .arr xs, .arr ys => xs.length == ys.length && eqElems xs ys
    | .obj fs, .obj gs => fs.length == gs.length && eqProps gs fs
    | _, _ => false

/-- Positionwise comparison of two arrays of identical length (the
`keysLeft.every` loop specialised to array keys `0, 1, …`). -/
def eqElems : JArr → JArr → Bool
  | .nil, .nil => true
  | .cons x xs, .cons y ys => isDeepEqual x y && eqElems xs ys
  | _, _ => false

/-- The `keysLeft.every ((key) => key in right && isDeepEqual(left[key],
right[key]))` loop: iterate the left object's fields against `gs`. -/
def eqProps (gs : JObj) : JObj → Bool
  | .nil => true
  | .cons k v t => (gs.containsKey k && isDeepEqual v (gs.getProp k)) && eqProps gs t
end

/-- Diff status: `'added' | 'removed' | 'modified'`. -/
inductive DiffStatus where
  | added
  | removed
  | modified
  deriving DecidableEq, Repr

/-- A diff entry (`DiffEntry` in the source, minus the display-only `id`).
Absent values (`valueLeft` of an added entry, `valueRight` of a removed one)
are `JVal.undef`, exactly as in the source, where they are `undefined`. -/
structure DiffEntry where
  path : List PathSegment
  status : DiffStatus
  valueLeft : JVal
  valueRight : JVal
  deriving DecidableEq, Repr

/-- First-occurrence deduplication: the iteration order of
`new Set([...ks, ...ls])`. -/
def dedupFirst : List String → List String
  | [] => []
  | k :: rest => k :: dedupFirst (rest.filter (fun s => s ≠ k))
termination_by l => l.length
decreasing_by
  exact Nat.lt_succ_of_le (List.length_filter_le _ _)

/-- The key set `new Set([...Object.keys(left), ...Object.keys(right)])` in
iteration order. -/
def keysUnion (ks ls : List String) : List String := dedupFirst (ks ++ ls)

mutual
/-- `sizeOf`-style measure used for the termination of `buildDiff`. -/
def sizeJ : JVal → Nat
  | .undef => 1
  | .null => 1
  | .bool _ => 1
  | .num _ => 1
  | .str _ => 1
  | .arr a => sizeA a + 1
  | .obj o => sizeO o + 1

def sizeA : JArr → Nat
  | .nil => 1
  | .cons x t => sizeJ x + sizeA t + 1

def sizeO : JObj → Nat
  | .nil => 1
  | .cons _ v t => sizeJ v + sizeO t + 1
end

theorem sizeJ_pos (v : JVal) : 0 < sizeJ v := by
  cases v <;> simp only [sizeJ] <;> omega

theorem sizeA_pos (a : JArr) : 0 < sizeA a := by
  cases a <;> simp only [sizeA] <;> omega

theorem sizeO_pos (o : JObj) : 0 < sizeO o := by
  cases o <;> simp only [sizeO] <;> omega

theorem sizeJ_getIdx_lt : ∀ (xs : JArr) (i : Nat), sizeJ (xs.getIdx i) < sizeA xs + 1
  | .nil, i => by cases i <;> simp [JArr.getIdx, sizeJ, sizeA]
  | .cons x t, 0 => by
      simp only [JArr.getIdx, sizeA]; omega
  | .cons x t, n + 1 => by
      have := sizeJ_getIdx_lt t n
      simp only [JArr.getIdx, sizeA]; omega

theorem sizeJ_getProp_lt : ∀ (fs : JObj) (k : String), sizeJ (fs.getProp k) < sizeO fs + 1
  | .nil, k => by simp [JObj.getProp, sizeJ, sizeO]
  | .cons k' v t, k => by
      have := sizeJ_getProp_lt t k
      simp only [JObj.getProp, sizeO]
      split <;> omega

mutual
/-- `buildDiff` from the source: the recursive diff over a pair of values
under a path prefix. -/
def buildDiff (left right : JVal) (path : List PathSegment) : List DiffEntry :=
  if left = .undef ∧ right = .undef then []
  else if left = .undef then
    [⟨path, .added, left, cloneDeep right⟩]
  else if right = .undef then
    [⟨path, .removed, cloneDeep left, right⟩]
  else if isDeepEqual left right then []
  else
    match left, right with
    | .arr xs, .arr ys => diffElems xs ys path 0
    | .obj fs, .obj gs => diffProps (keysUnion fs.keys gs.keys) fs gs path
    | l, r => [⟨path, .modified, cloneDeep l, cloneDeep r⟩]
termination_by (2 * (sizeJ left + sizeJ right), 0)
decreasing_by
  · apply Prod.Lex.left
    simp only [sizeJ]; omega
  · apply Prod.Lex.left
    simp only [sizeJ]; omega

/-- The array case of `buildDiff`: the key union of two (dense) arrays is the
index range `0 … max(length) - 1` in ascending order; recurse positionwise,
out-of-range accesses reading `undefined`.  `i` is the index of the current
heads. -/
def diffElems (xs ys : JArr) (path : List PathSegment) (i : Nat) : List DiffEntry :=
  match xs, ys with
  | .nil, .nil => []
  | .cons x xt, .cons y yt =>
      buildDiff x y (path ++ [.idx i]) ++ diffElems xt yt path (i + 1)
  | .cons x xt, .nil =>
      buildDiff x .undef (path ++ [.idx i]) ++ diffElems xt .nil path (i + 1)
  | .nil, .cons y yt =>
      buildDiff .undef y (path ++ [.idx i]) ++ diffElems .nil yt path (i + 1)
termination_by (2 * (sizeA xs + sizeA ys) + 1, 0)
decreasing_by
  · apply Prod.Lex.left
    simp only [sizeA]; omega
  · apply Prod.Lex.left
    simp only [sizeA]; omega
  · apply Prod.Lex.left
    have := sizeA_pos xt
    simp only [sizeA, sizeJ]; omega
  · apply Prod.Lex.left
    simp only [sizeA]; omega
  · apply Prod.Lex.left
    have := sizeA_pos yt
    simp only [sizeA, sizeJ]; omega
  · apply Prod.Lex.left
    simp only [sizeA]; omega

/-- The object case of `buildDiff`: iterate the key union, recursing on each
key's pair of (possibly absent) values. -/
def diffProps (keys : List String) (fs gs : JObj) (path : List PathSegment) :
    List DiffEntry :=
  match keys with
  | [] => []
  | k :: rest =>
      buildDiff (fs.getProp k) (gs.getProp k) (path ++ [.key k]) ++
        diffProps rest fs gs path
termination_by (2 * (sizeO fs + sizeO gs) + 3, keys.length)
decreasing_by
  · apply Prod.Lex.left
    have h1 := sizeJ_getProp_lt fs k
    have h2 := sizeJ_getProp_lt gs k
    omega
  · apply Prod.Lex.right
    exact Nat.lt_succ_self _
end

/-- `createEmptyRoot` from the source: the container synthesized for a missing
or non-container node, chosen by the kind of the first path segment. -/
def createEmptyRoot : List PathSegment → JVal
  | [] => .obj .nil
  | .idx _ :: _ => .arr .nil
  | .key _ :: _ => .obj .nil

/-- `setValueAtPath` from the source.  An empty path replaces the whole root
with a clone of the value.  Otherwise the root is cloned when it is a
container and synthesized via `createEmptyRoot` when it is not, and the head
segment is written through JS subscript semantics: on an array a valid index
is assigned (padding past the end), a non-index segment is a non-index
property write, invisible to the JSON value model; on an object the segment
coerces to a string key. -/
def setValueAtPath (input : JVal) (path : List PathSegment) (value : JVal) : JVal :=
  match path with
  | [] => cloneDeep value
  | head :: rest =>
    let base := if isObjectLike input then cloneDeep input else createEmptyRoot (head :: rest)
    match base with
    | .arr xs =>
        match arrIndex? head with
        | some n =>
            let child :=
              if rest.length ≠ 0 then setValueAtPath (xs.getIdx n) rest value
              else cloneDeep value
            .arr (xs.setPad n child)
        | none => .arr xs
    | .obj fs =>
        let key := segToKey head
        let child :=
          if rest.length ≠ 0 then setValueAtPath (fs.getProp key) rest value
          else cloneDeep value
        .obj (fs.setKey key child)
    | other => other

/-- `removeValueAtPath` from the source.  An empty path collapses the root to
`null`; a non-container root is returned unchanged.  On an array the range
guard `index >= 0 && index < length` uses JS `ToNumber` of the segment
(`segToNumber`); in the recursive case the element subscript additionally
requires a genuine index (`arrIndex?`) — a numeric but non-canonical key such
as `"02"` passes the guard but reads/writes a non-index property, which is
invisible to the JSON value model, leaving the array unchanged.  On an object
the segment coerces to a string key; an absent key is a no-op. -/
def removeValueAtPath (input : JVal) (path : List PathSegment) : JVal :=
  match path with
  | [] => .null
  | head :: rest =>
    if ¬ isObjectLike input then input
    else
      match cloneDeep input with
      | .arr xs =>
          if rest.length = 0 then
            match segToNumber head with
            | some i =>
                if 0 ≤ i ∧ i < (xs.length : Int) then .arr (xs.eraseIdx i.toNat)
                else .arr xs
            | none => .arr xs
          else
            match arrIndex? head, segToNumber head with
            | some n, some i =>
                if 0 ≤ i ∧ i < (xs.length : Int) then
                  .arr (xs.setPad n (removeValueAtPath (xs.getIdx n) rest))
                else .arr xs
            | _, _ => .arr xs
      | .obj fs =>
          let key := segToKey head
          if ¬ fs.containsKey key then .obj fs
          else if rest.length = 0 then .obj (fs.eraseKey key)
          else .obj (fs.setKey key (removeValueAtPath (fs.getProp key) rest))
      | other => other

/-- Modelled from the spec: `getAtPath` is "a trivial accessor implementers
will add for testing" and is not part of the source; it reads the node a path
addresses using the same JS subscript semantics the source's writers use
(array: valid index or an out-of-model non-index property, which reads
`undefined`; object: segment coerced to string key; any access on a
non-container reads `undefined`). -/
def getAtPath (root : JVal) (path : List PathSegment) : JVal :=
  match path with
  | [] => root
  | head :: rest =>
    match root with
    | .arr xs =>
        match arrIndex? head with
        | some n => getAtPath (xs.getIdx n) rest
        | none => getAtPath .undef rest
    | .obj fs => getAtPath (fs.getProp (segToKey head)) rest
    | _ => getAtPath .undef rest

/-- The left-direction branch of `applyChange`: make left look like right at
the entry's path — `removeValueAtPath` for a removed entry, otherwise
`setValueAtPath` with the entry's right value. -/
def applyChangeLeft (left : JVal) (entry : DiffEntry) : JVal :=
  if entry.status = .removed then removeValueAtPath left entry.path
  else setValueAtPath left entry.path entry.valueRight

/-- The right-direction branch of `applyChange`: make right look like left at
the entry's path — `removeValueAtPath` for an added entry, otherwise
`setValueAtPath` with the entry's left value. -/
def applyChangeRight (right : JVal) (entry : DiffEntry) : JVal :=
  if entry.status = .added then removeValueAtPath right entry.path
  else setValueAtPath right entry.path entry.valueLeft

mutual
/-- Well-formedness of an embedded value: no object anywhere carries a
duplicate key.  Every value representable as a JavaScript object graph
satisfies this; it rules out association lists the JS runtime could never
produce. -/
def wf : JVal → Bool
  | .arr a => wfA a
  | .obj o => (o.keys : List String).Nodup && wfO o
  | _ => true

def wfA : JArr → Bool
  | .nil => true
  | .cons x t => wf x && wfA t

def wfO : JObj → Bool
  | .nil => true
  | .cons _ v t => wf v && wfO t
end

mutual
/-- The value contains no JS `undefined` anywhere (in particular it is not
`undefined` itself).  Every `JSON.parse` result satisfies this. -/
def noUndef : JVal → Bool
  | .undef => false
  | .arr a => noUndefA a
  | .obj o => noUndefO o
  | _ => true

def noUndefA : JArr → Bool
  | .nil => true
  | .cons x t => noUndef x && noUndefA t

def noUndefO : JObj → Bool
  | .nil => true
  | .cons _ v t => noUndef v && noUndefO t
end

/-! ## List views of `JArr` and `JObj`, and basic lemmas -/

/-- The elements of an array as a Lean list. -/
def JArr.toList : JArr → List JVal
  | .nil => []
  | .cons x t => x :: t.toList

/-- The fields of an object as a Lean list of pairs. -/
def JObj.toListO : JObj → List (String × JVal)
  | .nil => []
  | .cons k v t => (k, v) :: t.toListO

@[simp] theorem JArr.toList_ofList : ∀ l : List JVal, (JArr.ofList l).toList = l
  | [] => rfl
  | v :: rest => by simp [JArr.ofList, JArr.toList, JArr.toList_ofList rest]

@[simp] theorem JObj.toListO_ofList : ∀ l : List (String × JVal), (JObj.ofList l).toListO = l
  | [] => rfl
  | (k, v) :: rest => by simp [JObj.ofList, JObj.toListO, JObj.toListO_ofList rest]

theorem sizeJ_lt_of_mem_toList : ∀ (a : JArr) (x : JVal), x ∈ a.toList → sizeJ x < sizeA a
  | .nil, x, h => by simp [JArr.toList] at h
  | .cons y t, x, h => by
      rcases List.mem_cons.mp h with h | h
      · subst h; simp only [sizeA]; omega
      · have := sizeJ_lt_of_mem_toList t x h
        simp only [sizeA]; omega

theorem sizeJ_lt_of_mem_toListO :
    ∀ (o : JObj) (k : String) (v : JVal), (k, v) ∈ o.toListO → sizeJ v < sizeO o
  | .nil, _, _, h => by simp [JObj.toListO] at h
  | .cons k' v' t, k, v, h => by
      rcases List.mem_cons.mp h with h | h
      · cases h; simp only [sizeO]; omega
      · have := sizeJ_lt_of_mem_toListO t k v h
        simp only [sizeO]; omega

@[simp] theorem JArr.length_toList : ∀ a : JArr, a.toList.length = a.length
  | .nil => rfl
  | .cons x t => by simp [JArr.toList, JArr.length, JArr.length_toList t]

@[simp] theorem JObj.keys_toListO : ∀ o : JObj, o.toListO.map Prod.fst = o.keys
  | .nil => rfl
  | .cons k v t => by simp [JObj.toListO, JObj.keys, JObj.keys_toListO t]

theorem JObj.containsKey_iff_mem_keys :
    ∀ (o : JObj) (k : String), o.containsKey k = true ↔ k ∈ o.keys
  | .nil, k => by simp [JObj.containsKey, JObj.keys]
  | .cons k' v t, k => by
      simp only [JObj.containsKey, JObj.keys, Bool.or_eq_true, beq_iff_eq,
        List.mem_cons, JObj.containsKey_iff_mem_keys t k]
      constructor
      · rintro (h | h)
        · exact Or.inl h.symm
        · exact Or.inr h
      · rintro (h | h)
        · exact Or.inl h.symm
        · exact Or.inr h

theorem JObj.getProp_eq_undef_of_not_contains :
    ∀ (o : JObj) (k : String), o.containsKey k = false → o.getProp k = .undef
  | .nil, k, _ => rfl
  | .cons k' v t, k, h => by
      simp only [JObj.containsKey, Bool.or_eq_false_iff] at h
      simp only [JObj.getProp, h.1, if_false]
      exact JObj.getProp_eq_undef_of_not_contains t k h.2

theorem JObj.mem_toListO_getProp :
    ∀ (o : JObj) (k : String), o.containsKey k = true → (k, o.getProp k) ∈ o.toListO
  | .nil, k, h => by simp [JObj.containsKey] at h
  | .cons k' v t, k, h => by
      by_cases hk : k' = k
      · subst hk; simp [JObj.getProp, JObj.toListO]
      · have hk' : (k' == k) = false := by simp [hk]
        simp only [JObj.containsKey, hk', Bool.false_or] at h
        simp only [JObj.getProp, hk', if_false, JObj.toListO]
        exact List.mem_cons_of_mem _ (JObj.mem_toListO_getProp t k h)

theorem JObj.getProp_eq_of_mem_nodup :
    ∀ (o : JObj) (k : String) (v : JVal), o.keys.Nodup → (k, v) ∈ o.toListO →
      o.getProp k = v
  | .nil, _, _, _, h => by simp [JObj.toListO] at h
  | .cons k' v' t, k, v, hnd, h => by
      simp only [JObj.keys, List.nodup_cons] at hnd
      rcases List.mem_cons.mp h with h | h
      · cases h; simp [JObj.getProp]
      · have hk : k' ≠ k := by
          intro he; subst he
          exact hnd.1 (by
            have : k' ∈ t.toListO.map Prod.fst := List.mem_map_of_mem _ h
            simpa [JObj.keys_toListO] using this)
        simp only [JObj.getProp, show (k' == k) = false by simp [hk], if_false]
        exact JObj.getProp_eq_of_mem_nodup t k v hnd.2 h

theorem JObj.containsKey_of_mem :
    ∀ (o : JObj) (k : String) (v : JVal), (k, v) ∈ o.toListO → o.containsKey k = true
  | .nil, _, _, h => by simp [JObj.toListO] at h
  | .cons k' v' t, k, v, h => by
      rcases List.mem_cons.mp h with h | h
      · cases h; simp [JObj.containsKey]
      · simp [JObj.containsKey, JObj.containsKey_of_mem t k v h]

/-! ### setKey / eraseKey lemmas -/

@[simp] theorem JObj.getProp_setKey_self :
    ∀ (o : JObj) (k : String) (v : JVal), (o.setKey k v).getProp k = v
  | .nil, k, v => by simp [JObj.setKey, JObj.getProp]
  | .cons k' w t, k, v => by
      by_cases h : k' = k
      · subst h; simp [JObj.setKey, JObj.getProp]
      · simp [JObj.setKey, JObj.getProp, h, JObj.getProp_setKey_self t k v]

theorem JObj.getProp_setKey_ne :
    ∀ (o : JObj) (k k' : String) (v : JVal), k' ≠ k →
      (o.setKey k v).getProp k' = o.getProp k'
  | .nil, k, k', v, h => by
      have : (k == k') = false := by
        simp only [beq_eq_false_iff_ne, ne_eq]
        exact fun he => h he.symm
      simp [JObj.setKey, JObj.getProp, this]
  | .cons k0 w t, k, k', v, h => by
      by_cases h0 : k0 = k
      · subst h0
        have hne : (k0 == k') = false := by
          simp only [beq_eq_false_iff_ne, ne_eq]
          exact fun he => h he.symm
        simp [JObj.setKey, JObj.getProp, hne]
      · simp only [JObj.setKey, show (k0 == k) = false by simp [h0], if_false, JObj.getProp]
        by_cases h1 : k0 = k'
        · simp [h1]
        · simp [show (k0 == k') = false by simp [h1],
            JObj.getProp_setKey_ne t k k' v h]

@[simp] theorem JObj.getProp_eraseKey_self :
    ∀ (o : JObj) (k : String), (o.eraseKey k).getProp k = .undef
  | .nil, k => rfl
  | .cons k' v t, k => by
      by_cases h : k' = k
      · subst h; simp [JObj.eraseKey, JObj.getProp_eraseKey_self t]
      · simp [JObj.eraseKey, JObj.getProp, h, JObj.getProp_eraseKey_self t k]

theorem JObj.getProp_eraseKey_ne :
    ∀ (o : JObj) (k k' : String), k' ≠ k → (o.eraseKey k).getProp k' = o.getProp k'
  | .nil, k, k', h => rfl
  | .cons k0 v t, k, k', h => by
      by_cases h0 : k0 = k
      · subst h0
        have : (k0 == k') = false := by simp; exact fun he => h he.symm
        simp [JObj.eraseKey, JObj.getProp, this, JObj.getProp_eraseKey_ne t _ _ h]
      · simp only [JObj.eraseKey, show (k0 == k) = false by simp [h0], if_false, JObj.getProp]
        by_cases h1 : k0 = k'
        · simp [h1]
        · simp [show (k0 == k') = false by simp [h1], JObj.getProp_eraseKey_ne t _ _ h]

theorem JObj.keys_setKey_contains :
    ∀ (o : JObj) (k : String) (v : JVal), o.containsKey k = true →
      (o.setKey k v).keys = o.keys
  | .nil, k, v, h => by simp [JObj.containsKey] at h
  | .cons k' w t, k, v, h => by
      by_cases h0 : k' = k
      · subst h0; simp [JObj.setKey, JObj.keys]
      · have h0' : (k' == k) = false := by simp [h0]
        simp only [JObj.containsKey, h0', Bool.false_or] at h
        simp [JObj.setKey, h0', JObj.keys, JObj.keys_setKey_contains t k v h]

theorem JObj.keys_setKey_not_contains :
    ∀ (o : JObj) (k : String) (v : JVal), o.containsKey k = false →
      (o.setKey k v).keys = o.keys ++ [k]
  | .nil, k, v, _ => by simp [JObj.setKey, JObj.keys]
  | .cons k' w t, k, v, h => by
      simp only [JObj.containsKey, Bool.or_eq_false_iff] at h
      simp [JObj.setKey, h.1, JObj.keys, JObj.keys_setKey_not_contains t k v h.2]

theorem JObj.keys_eraseKey :
    ∀ (o : JObj) (k : String), (o.eraseKey k).keys = o.keys.filter (fun s => s ≠ k)
  | .nil, k => rfl
  | .cons k' v t, k => by
      by_cases h : k' = k
      · subst h; simp [JObj.eraseKey, JObj.keys, JObj.keys_eraseKey t]
      · simp [JObj.eraseKey, JObj.keys, h, JObj.keys_eraseKey t k,
          List.filter_cons, decide_eq_true_eq]

/-! ### JArr lemmas -/

theorem JArr.getIdx_of_length_le :
    ∀ (a : JArr) (i : Nat), a.length ≤ i → a.getIdx i = .undef
  | .nil, i, _ => by cases i <;> rfl
  | .cons x t, 0, h => by simp [JArr.length] at h
  | .cons x t, n + 1, h => by
      simp only [JArr.length] at h
      exact JArr.getIdx_of_length_le t n (by omega)

@[simp] theorem JArr.length_setPad :
    ∀ (a : JArr) (n : Nat) (v : JVal), (a.setPad n v).length = max a.length (n + 1)
  | .cons x t, 0, v => by simp only [JArr.setPad, JArr.length]; omega
  | .cons x t, n + 1, v => by
      simp only [JArr.setPad, JArr.length, JArr.length_setPad t n v]; omega
  | .nil, 0, v => by simp only [JArr.setPad, JArr.length]; omega
  | .nil, n + 1, v => by
      simp only [JArr.setPad, JArr.length, JArr.length_setPad .nil n v]; omega

@[simp] theorem JArr.getIdx_setPad_self :
    ∀ (a : JArr) (n : Nat) (v : JVal), (a.setPad n v).getIdx n = v
  | .cons x t, 0, v => rfl
  | .cons x t, n + 1, v => by
      simp [JArr.setPad, JArr.getIdx, JArr.getIdx_setPad_self t n v]
  | .nil, 0, v => rfl
  | .nil, n + 1, v => by
      simp [JArr.setPad, JArr.getIdx, JArr.getIdx_setPad_self .nil n v]

theorem JArr.getIdx_setPad_ne :
    ∀ (a : JArr) (n m : Nat) (v : JVal), m ≠ n → (a.setPad n v).getIdx m = a.getIdx m
  | .cons x t, 0, 0, v, h => absurd rfl h
  | .cons x t, 0, m + 1, v, _ => rfl
  | .cons x t, n + 1, 0, v, _ => rfl
  | .cons x t, n + 1, m + 1, v, h => by
      simp [JArr.setPad, JArr.getIdx, JArr.getIdx_setPad_ne t n m v (by omega)]
  | .nil, 0, 0, v, h => absurd rfl h
  | .nil, 0, m + 1, v, _ => by simp [JArr.setPad, JArr.getIdx]
  | .nil, n + 1, 0, v, _ => rfl
  | .nil, n + 1, m + 1, v, h => by
      simp [JArr.setPad, JArr.getIdx, JArr.getIdx_setPad_ne .nil n m v (by omega)]

theorem JArr.length_eraseIdx :
    ∀ (a : JArr) (n : Nat), n < a.length → (a.eraseIdx n).length = a.length - 1
  | .nil, n, h => by simp [JArr.length] at h
  | .cons x t, 0, _ => by simp [JArr.eraseIdx, JArr.length]
  | .cons x t, n + 1, h => by
      simp only [JArr.length] at h
      have ht : n < t.length := by omega
      have := JArr.length_eraseIdx t n ht
      simp only [JArr.eraseIdx, JArr.length, this]
      omega

theorem JArr.getIdx_eraseIdx_lt :
    ∀ (a : JArr) (n m : Nat), m < n → (a.eraseIdx n).getIdx m = a.getIdx m
  | .nil, n, m, _ => by simp [JArr.eraseIdx]
  | .cons x t, 0, m, h => by omega
  | .cons x t, n + 1, 0, h => rfl
  | .cons x t, n + 1, m + 1, h => by
      simp [JArr.eraseIdx, JArr.getIdx, JArr.getIdx_eraseIdx_lt t n m (by omega)]

theorem JArr.getIdx_eraseIdx_ge :
    ∀ (a : JArr) (n m : Nat), n ≤ m → (a.eraseIdx n).getIdx m = a.getIdx (m + 1)
  | .nil, n, m, _ => by simp [JArr.eraseIdx, JArr.getIdx]
  | .cons x t, 0, m, _ => rfl
  | .cons x t, n + 1, 0, h => by omega
  | .cons x t, n + 1, m + 1, h => by
      simp [JArr.eraseIdx, JArr.getIdx, JArr.getIdx_eraseIdx_ge t n m (by omega)]

/-! ### wf / noUndef projections -/

theorem wfA_mem : ∀ (a : JArr) (x : JVal), wfA a = true → x ∈ a.toList → wf x = true
  | .nil, x, _, hm => by simp [JArr.toList] at hm
  | .cons y t, x, hw, hm => by
      simp only [wfA, Bool.and_eq_true] at hw
      rcases List.mem_cons.mp hm with h | h
      · subst h; exact hw.1
      · exact wfA_mem t x hw.2 h

theorem wfO_mem :
    ∀ (o : JObj) (k : String) (v : JVal), wfO o = true → (k, v) ∈ o.toListO → wf v = true
  | .nil, _, _, _, hm => by simp [JObj.toListO] at hm
  | .cons k' w t, k, v, hw, hm => by
      simp only [wfO, Bool.and_eq_true] at hw
      rcases List.mem_cons.mp hm with h | h
      · cases h; exact hw.1
      · exact wfO_mem t k v hw.2 h

theorem noUndefA_mem :
    ∀ (a : JArr) (x : JVal), noUndefA a = true → x ∈ a.toList → noUndef x = true
  | .nil, x, _, hm => by simp [JArr.toList] at hm
  | .cons y t, x, hw, hm => by
      simp only [noUndefA, Bool.and_eq_true] at hw
      rcases List.mem_cons.mp hm with h | h
      · subst h; exact hw.1
      · exact noUndefA_mem t x hw.2 h

theorem noUndefO_mem :
    ∀ (o : JObj) (k : String) (v : JVal), noUndefO o = true → (k, v) ∈ o.toListO →
      noUndef v = true
  | .nil, _, _, _, hm => by simp [JObj.toListO] at hm
  | .cons k' w t, k, v, hw, hm => by
      simp only [noUndefO, Bool.and_eq_true] at hw
      rcases List.mem_cons.mp hm with h | h
      · cases h; exact hw.1
      · exact noUndefO_mem t k v hw.2 h

theorem noUndefA_getIdx :
    ∀ (a : JArr) (i : Nat), noUndefA a = true → i < a.length → noUndef (a.getIdx i) = true
  | .nil, i, _, hi => by simp [JArr.length] at hi
  | .cons x t, 0, h, _ => by
      simp only [noUndefA, Bool.and_eq_true] at h
      exact h.1
  | .cons x t, n + 1, h, hi => by
      simp only [noUndefA, Bool.and_eq_true] at h
      simp only [JArr.length] at hi
      exact noUndefA_getIdx t n h.2 (by omega)

theorem JArr.getIdx_mem_toList :
    ∀ (a : JArr) (i : Nat), i < a.length → a.getIdx i ∈ a.toList
  | .nil, i, hi => by simp [JArr.length] at hi
  | .cons x t, 0, _ => by simp [JArr.getIdx, JArr.toList]
  | .cons x t, n + 1, hi => by
      simp only [JArr.length] at hi
      exact List.mem_cons_of_mem _ (JArr.getIdx_mem_toList t n (by omega))

/-! ### isDeepEqual characterization -/

@[simp] theorem isDeepEqual_arr (xs ys : JArr) :
    isDeepEqual (.arr xs) (.arr ys) = (xs.length == ys.length && eqElems xs ys) := rfl

@[simp] theorem isDeepEqual_obj (fs gs : JObj) :
    isDeepEqual (.obj fs) (.obj gs) = (fs.length == gs.length && eqProps gs fs) := rfl

theorem eqElems_iff : ∀ xs ys : JArr,
    eqElems xs ys = true ↔
      (xs.length = ys.length ∧
        ∀ i, i < xs.length → isDeepEqual (xs.getIdx i) (ys.getIdx i) = true)
  | .nil, .nil => by simp [eqElems, JArr.length]
  | .nil, .cons y yt => by
      simp only [eqElems, JArr.length]
      constructor
      · intro h; exact absurd h (by simp)
      · intro h; omega
  | .cons x xt, .nil => by
      simp only [eqElems, JArr.length]
      constructor
      · intro h; exact absurd h (by simp)
      · intro h; omega
  | .cons x xt, .cons y yt => by
      simp only [eqElems, Bool.and_eq_true, eqElems_iff xt yt, JArr.length]
      constructor
      · rintro ⟨h1, h2, h3⟩
        refine ⟨by omega, fun i hi => ?_⟩
        cases i with
        | zero => exact h1
        | succ n => exact h3 n (by omega)
      · rintro ⟨h1, h2⟩
        exact ⟨h2 0 (by omega), by omega, fun i hi => h2 (i + 1) (by omega)⟩

theorem eqProps_iff : ∀ (gs fs : JObj),
    eqProps gs fs = true ↔
      ∀ k v, (k, v) ∈ fs.toListO →
        gs.containsKey k = true ∧ isDeepEqual v (gs.getProp k) = true
  | gs, .nil => by simp [eqProps, JObj.toListO]
  | gs, .cons k' v' t => by
      simp only [eqProps, Bool.and_eq_true, eqProps_iff gs t, JObj.toListO, List.mem_cons]
      constructor
      · rintro ⟨⟨h1, h2⟩, h3⟩ k v hm
        rcases hm with hm | hm
        · cases hm; exact ⟨h1, h2⟩
        · exact h3 k v hm
      · intro h
        exact ⟨⟨(h k' v' (Or.inl rfl)).1, (h k' v' (Or.inl rfl)).2,⟩,
          fun k v hm => h k v (Or.inr hm)⟩

/-- The runtime kind of a value, as the spec's six-kind classification (plus
JS `undefined`, its own kind). -/
inductive JKind where
  | undef
  | null
  | boolean
  | number
  | string
  | array
  | object
  deriving DecidableEq, Repr

/-- The kind of a value. -/
def kindOf : JVal → JKind
  | .undef => .undef
  | .null => .null
  | .bool _ => .boolean
  | .num _ => .number
  | .str _ => .string
  | .arr _ => .array
  | .obj _ => .object

theorem JObj.length_keys : ∀ o : JObj, o.keys.length = o.length
  | .nil => rfl
  | .cons k v t => by simp [JObj.keys, JObj.length, JObj.length_keys t]

theorem isDeepEqual_refl : ∀ (v : JVal), wf v = true → isDeepEqual v v = true
  | .undef, _ => by decide
  | .null, _ => by decide
  | .bool b, _ => by simp [isDeepEqual, strictEq]
  | .num n, _ => by simp [isDeepEqual, strictEq]
  | .str s, _ => by simp [isDeepEqual, strictEq]
  | .arr a, h => by
      have hw : wfA a = true := h
      simp only [isDeepEqual_arr, Bool.and_eq_true]
      refine ⟨by simp, ?_⟩
      rw [eqElems_iff]
      refine ⟨rfl, fun i hi => ?_⟩
      have hm : a.getIdx i ∈ a.toList := JArr.getIdx_mem_toList a i hi
      exact isDeepEqual_refl (a.getIdx i) (wfA_mem a _ hw hm)
  | .obj o, h => by
      simp only [wf, Bool.and_eq_true] at h
      simp only [isDeepEqual_obj, Bool.and_eq_true]
      refine ⟨by simp, ?_⟩
      rw [eqProps_iff]
      intro k v hm
      refine ⟨JObj.containsKey_of_mem o k v hm, ?_⟩
      rw [JObj.getProp_eq_of_mem_nodup o k v (by simpa using h.1) hm]
      exact isDeepEqual_refl v (wfO_mem o k v h.2 hm)
termination_by v _ => sizeJ v
decreasing_by
  · have h1 := sizeJ_lt_of_mem_toList a _ hm
    simp only [sizeJ]; omega
  · have h1 := sizeJ_lt_of_mem_toListO o k v hm
    simp only [sizeJ]; omega

theorem isDeepEqual_arr_iff (xs ys : JArr) :
    isDeepEqual (.arr xs) (.arr ys) = true ↔
      (xs.length = ys.length ∧
        ∀ i, i < xs.length → isDeepEqual (xs.getIdx i) (ys.getIdx i) = true) := by
  simp only [isDeepEqual_arr, Bool.and_eq_true, beq_iff_eq, eqElems_iff xs ys]
  constructor
  · rintro ⟨-, h⟩; exact h
  · rintro ⟨h1, h2⟩; exact ⟨h1, h1, h2⟩

theorem isDeepEqual_obj_iff (fs gs : JObj) (hf : fs.keys.Nodup) (hg : gs.keys.Nodup) :
    isDeepEqual (.obj fs) (.obj gs) = true ↔
      (fs.keys.toFinset = gs.keys.toFinset ∧
        ∀ k ∈ fs.keys, isDeepEqual (fs.getProp k) (gs.getProp k) = true) := by
  constructor
  · intro h
    simp only [isDeepEqual_obj, Bool.and_eq_true, beq_iff_eq] at h
    obtain ⟨hlen, hprops⟩ := h
    rw [eqProps_iff] at hprops
    have hsub : ∀ k, k ∈ fs.keys → k ∈ gs.keys := by
      intro k hk
      have hc := (JObj.containsKey_iff_mem_keys fs k).mpr hk
      have hm := JObj.mem_toListO_getProp fs k hc
      exact (JObj.containsKey_iff_mem_keys gs k).mp (hprops k _ hm).1
    have hcard : gs.keys.toFinset.card ≤ fs.keys.toFinset.card := by
      rw [List.toFinset_card_of_nodup hf, List.toFinset_card_of_nodup hg,
        JObj.length_keys, JObj.length_keys, hlen]
    have hsubF : fs.keys.toFinset ⊆ gs.keys.toFinset := by
      intro k hk
      rw [List.mem_toFinset] at hk ⊢
      exact hsub k hk
    refine ⟨Finset.eq_of_subset_of_card_le hsubF hcard, ?_⟩
    intro k hk
    have hc := (JObj.containsKey_iff_mem_keys fs k).mpr hk
    have hm := JObj.mem_toListO_getProp fs k hc
    exact (hprops k _ hm).2
  · rintro ⟨hset, hvals⟩
    simp only [isDeepEqual_obj, Bool.and_eq_true, beq_iff_eq]
    have hlen : fs.length = gs.length := by
      have hc := congrArg Finset.card hset
      rw [List.toFinset_card_of_nodup hf, List.toFinset_card_of_nodup hg] at hc
      rw [← JObj.length_keys, ← JObj.length_keys]
      exact hc
    refine ⟨hlen, ?_⟩
    rw [eqProps_iff]
    intro k v hm
    have hkmem : k ∈ fs.keys := by
      have : k ∈ fs.toListO.map Prod.fst := List.mem_map_of_mem _ hm
      simpa [JObj.keys_toListO] using this
    have hgmem : k ∈ gs.keys := by
      have hf' : k ∈ fs.keys.toFinset := List.mem_toFinset.mpr hkmem
      rw [hset] at hf'
      exact List.mem_toFinset.mp hf'
    refine ⟨(JObj.containsKey_iff_mem_keys gs k).mpr hgmem, ?_⟩
    rw [← JObj.getProp_eq_of_mem_nodup fs k v hf hm]
    exact hvals k hkmem

/-! ## Claim C4 -/

/-- Claim C4: the deep-equality predicate returns `false` for every pair of
values of different runtime kinds; two objects are equal iff they have exactly
the same key set (order irrelevant) and every shared key maps to deep-equal
values; and two arrays are equal iff they have the same length and equality
holds position-wise at every index (no element re-matching).  The object
characterization is stated for values a JavaScript runtime can represent
(no duplicate keys). -/
theorem claim_C4 :
    (∀ a b : JVal, kindOf a ≠ kindOf b → isDeepEqual a b = false)
    ∧ (∀ fs gs : JObj, fs.keys.Nodup → gs.keys.Nodup →
        (isDeepEqual (.obj fs) (.obj gs) = true ↔
          (fs.keys.toFinset = gs.keys.toFinset ∧
            ∀ k ∈ fs.keys, isDeepEqual (fs.getProp k) (gs.getProp k) = true)))
    ∧ (∀ xs ys : JArr,
        isDeepEqual (.arr xs) (.arr ys) = true ↔
          (xs.length = ys.length ∧
            ∀ i, i < xs.length → isDeepEqual (xs.getIdx i) (ys.getIdx i) = true)) := by
  refine ⟨?_, isDeepEqual_obj_iff, isDeepEqual_arr_iff⟩
  intro a b h
  cases a <;> cases b <;> first | (exact absurd rfl h) | rfl

/-- Witness for C4 at concrete inputs: a string and a number of "the same"
numeral are not deep-equal; two objects with the same fields in different
order are deep-equal; two arrays of different lengths are not. -/
theorem claim_C4_witness :
    isDeepEqual (.str "1") (.num 1) = false
    ∧ isDeepEqual (.obj (JObj.ofList [("a", .num 1), ("b", .num 2)]))
        (.obj (JObj.ofList [("b", .num 2), ("a", .num 1)])) = true
    ∧ isDeepEqual (.arr (JArr.ofList [.num 1])) (.arr .nil) = false := by
  refine ⟨claim_C4.1 (.str "1") (.num 1) (by decide), ?_, ?_⟩
  · apply (claim_C4.2.1 (JObj.ofList [("a", .num 1), ("b", .num 2)])
      (JObj.ofList [("b", .num 2), ("a", .num 1)]) (by decide) (by decide)).mpr
    refine ⟨by decide, ?_⟩
    decide
  · rw [Bool.eq_false_iff]
    intro h
    have := (claim_C4.2.2 (JArr.ofList [.num 1]) .nil).mp h
    revert this
    decide

/-! ## Claim C5 -/

/-- Claim C5: `diff([1,2,3], [0,1,2,3])` at the root produces exactly index 0
Modified (1 vs 0), index 1 Modified (2 vs 1), index 2 Modified (3 vs 2) and
index 3 Added (value 3), in this order — never a single inserted-at-front
entry. -/
theorem claim_C5 :
    buildDiff (.arr (JArr.ofList [.num 1, .num 2, .num 3]))
      (.arr (JArr.ofList [.num 0, .num 1, .num 2, .num 3])) [] =
      [⟨[.idx 0], .modified, .num 1, .num 0⟩,
       ⟨[.idx 1], .modified, .num 2, .num 1⟩,
       ⟨[.idx 2], .modified, .num 3, .num 2⟩,
       ⟨[.idx 3], .added, .undef, .num 3⟩] := by
  simp [buildDiff, diffElems, JArr.ofList, isDeepEqual, eqElems, strictEq,
    typeofJ, cloneDeep, JArr.length]

/-! ## Unfolding lemmas for `removeValueAtPath` -/

theorem segToNumber_of_arrIndex (s : PathSegment) (n : Nat) (h : arrIndex? s = some n) :
    segToNumber s = some (n : Int) := by
  cases s with
  | idx i =>
      simp only [arrIndex?] at h
      split at h
      · rename_i h0
        simp only [Option.some.injEq] at h
        simp only [segToNumber, Option.some.injEq]
        omega
      · exact Option.noConfusion h
  | key st =>
      simp only [arrIndex?] at h
      rw [canonNat?] at h
      split at h
      · exact Option.noConfusion h
      · simp only [segToNumber, strToInt?]
        split
        · rename_i heq
          rw [heq] at h
          simp [digitsToNat?] at h
        · rename_i cs heq
          rw [heq] at h
          simp only [digitsToNat?, digitsToNat?.go] at h
          rw [if_neg (by decide)] at h
          exact Option.noConfusion h
        · rw [h]
          rfl

theorem removeValueAtPath_nonContainer (v : JVal) (s : PathSegment)
    (p : List PathSegment) (h : isObjectLike v = false) :
    removeValueAtPath v (s :: p) = v := by
  simp [removeValueAtPath, h]

theorem removeValueAtPath_arr_final (xs : JArr) (s : PathSegment) (i : Int)
    (hs : segToNumber s = some i) (h0 : 0 ≤ i) (hlen : i < (xs.length : Int)) :
    removeValueAtPath (.arr xs) [s] = .arr (xs.eraseIdx i.toNat) := by
  simp only [removeValueAtPath, isObjectLike, Bool.not_eq_true', cloneDeep,
    List.length_nil, if_true, hs]
  simp [h0, hlen]

theorem removeValueAtPath_arr_rec (xs : JArr) (s : PathSegment)
    (t : List PathSegment) (n : Nat) (ht : t ≠ []) (hn : arrIndex? s = some n)
    (hlen : n < xs.length) :
    removeValueAtPath (.arr xs) (s :: t) =
      .arr (xs.setPad n (removeValueAtPath (xs.getIdx n) t)) := by
  have hnum := segToNumber_of_arrIndex s n hn
  have htlen : t.length ≠ 0 := by simpa using ht
  have hguard : (0 : Int) ≤ (n : Int) ∧ (n : Int) < (xs.length : Int) := by omega
  simp [removeValueAtPath, isObjectLike, cloneDeep, htlen, hn, hnum, hguard]

theorem removeValueAtPath_obj_absent (fs : JObj) (s : PathSegment)
    (p : List PathSegment) (h : fs.containsKey (segToKey s) = false) :
    removeValueAtPath (.obj fs) (s :: p) = .obj fs := by
  simp [removeValueAtPath, isObjectLike, cloneDeep, h]

theorem removeValueAtPath_obj_final (fs : JObj) (s : PathSegment)
    (h : fs.containsKey (segToKey s) = true) :
    removeValueAtPath (.obj fs) [s] = .obj (fs.eraseKey (segToKey s)) := by
  simp [removeValueAtPath, isObjectLike, cloneDeep, h]

theorem removeValueAtPath_obj_rec (fs : JObj) (s : PathSegment)
    (p : List PathSegment) (hp : p ≠ [])
    (h : fs.containsKey (segToKey s) = true) :
    removeValueAtPath (.obj fs) (s :: p) =
      .obj (fs.setKey (segToKey s) (removeValueAtPath (fs.getProp (segToKey s)) p)) := by
  have hplen : p.length ≠ 0 := by simpa using hp
  simp [removeValueAtPath, isObjectLike, cloneDeep, h, hplen]

/-! ## Claim C7 -/

/-- Claim C7: `removeAtPath` with an empty path returns Null; with a
non-empty path on a non-container root it returns the root unchanged; when
the parent of the target is an Array it removes the element at that index
(subsequent elements shift down); when the parent is an Object it deletes
that key if present and is a no-op (returning a tree deep-equal — here even
equal — to the root) when the key is absent.  The last two conjuncts record
that a longer path clones the spine and recurses into the addressed child. -/
theorem claim_C7 :
    (∀ v : JVal, removeValueAtPath v [] = .null)
    ∧ (∀ (v : JVal) (s : PathSegment) (p : List PathSegment),
        isObjectLike v = false → removeValueAtPath v (s :: p) = v)
    ∧ (∀ (xs : JArr) (i : Int), 0 ≤ i → i < (xs.length : Int) →
        removeValueAtPath (.arr xs) [.idx i] = .arr (xs.eraseIdx i.toNat))
    ∧ (∀ (fs : JObj) (s : PathSegment), fs.containsKey (segToKey s) = true →
        removeValueAtPath (.obj fs) [s] = .obj (fs.eraseKey (segToKey s)))
    ∧ (∀ (fs : JObj) (s : PathSegment), fs.containsKey (segToKey s) = false →
        removeValueAtPath (.obj fs) [s] = .obj fs
          ∧ (wf (.obj fs) = true →
              isDeepEqual (removeValueAtPath (.obj fs) [s]) (.obj fs) = true))
    ∧ (∀ (fs : JObj) (s : PathSegment) (p : List PathSegment), p ≠ [] →
        fs.containsKey (segToKey s) = true →
        removeValueAtPath (.obj fs) (s :: p) =
          .obj (fs.setKey (segToKey s)
            (removeValueAtPath (fs.getProp (segToKey s)) p)))
    ∧ (∀ (xs : JArr) (i : Int) (p : List PathSegment), p ≠ [] → 0 ≤ i →
        i < (xs.length : Int) →
        removeValueAtPath (.arr xs) (.idx i :: p) =
          .arr (xs.setPad i.toNat (removeValueAtPath (xs.getIdx i.toNat) p))) := by
  refine ⟨fun v => rfl, removeValueAtPath_nonContainer, ?_, ?_, ?_, ?_, ?_⟩
  · intro xs i h0 hlen
    exact removeValueAtPath_arr_final xs (.idx i) i rfl h0 hlen
  · intro fs s h
    exact removeValueAtPath_obj_final fs s h
  · intro fs s h
    refine ⟨removeValueAtPath_obj_absent fs s [] h, fun hw => ?_⟩
    rw [removeValueAtPath_obj_absent fs s [] h]
    exact isDeepEqual_refl _ hw
  · intro fs s p hp h
    exact removeValueAtPath_obj_rec fs s p hp h
  · intro xs i p hp h0 hlen
    have harr : arrIndex? (.idx i) = some i.toNat := by simp [arrIndex?, h0]
    exact removeValueAtPath_arr_rec xs (.idx i) p i.toNat hp harr (by omega)

/-- Witness for C7 at concrete inputs: removing the middle of `[1,2,3]`
shifts the tail; removing a present key deletes it; removing an absent key
and removing through a scalar root are no-ops. -/
theorem claim_C7_witness :
    removeValueAtPath (.num 7) [] = .null
    ∧ removeValueAtPath (.num 7) [.key "x"] = .num 7
    ∧ removeValueAtPath (.arr (JArr.ofList [.num 1, .num 2, .num 3])) [.idx 1]
        = .arr (JArr.ofList [.num 1, .num 3])
    ∧ removeValueAtPath (.obj (JObj.ofList [("a", .num 1), ("b", .num 2)])) [.key "a"]
        = .obj (JObj.ofList [("b", .num 2)])
    ∧ removeValueAtPath (.obj (JObj.ofList [("a", .num 1)])) [.key "z"]
        = .obj (JObj.ofList [("a", .num 1)]) := by
  refine ⟨claim_C7.1 (.num 7), claim_C7.2.1 (.num 7) (.key "x") [] (by decide), ?_, ?_, ?_⟩
  · rw [claim_C7.2.2.1 (JArr.ofList [.num 1, .num 2, .num 3]) 1 (by decide) (by decide)]
    decide
  · rw [claim_C7.2.2.2.1 (JObj.ofList [("a", .num 1), ("b", .num 2)]) (.key "a") (by decide)]
    decide
  · exact (claim_C7.2.2.2.2.1 (JObj.ofList [("a", .num 1)]) (.key "z") (by decide)).1

/-! ## Claim C10 -/

/-- Claim C10: removing at an out-of-range array index — negative or at least
the length — is a silent no-op returning the array unchanged (hence
deep-equal to the input), both when the index is the final segment and when
the removal recurses through it on a longer path. -/
theorem claim_C10 (xs : JArr) (i : Int) (p : List PathSegment)
    (h : i < 0 ∨ (xs.length : Int) ≤ i) :
    removeValueAtPath (.arr xs) (.idx i :: p) = .arr xs
    ∧ (wf (.arr xs) = true →
        isDeepEqual (removeValueAtPath (.arr xs) (.idx i :: p)) (.arr xs) = true) := by
  have hguard : ¬ (0 ≤ i ∧ i < (xs.length : Int)) := by omega
  have heq : removeValueAtPath (.arr xs) (.idx i :: p) = .arr xs := by
    cases p with
    | nil =>
        simp only [removeValueAtPath, isObjectLike, Bool.not_eq_true', cloneDeep]
        simp [segToNumber, hguard]
    | cons s p' =>
        simp only [removeValueAtPath, isObjectLike, Bool.not_eq_true', cloneDeep]
        rcases h with h | h
        · have : arrIndex? (.idx i) = none := by
            simp only [arrIndex?, if_neg (by omega : ¬ (0 : Int) ≤ i)]
          simp [this]
        · have : arrIndex? (.idx i) = some i.toNat := by
            simp [arrIndex?]; omega
          simp [this, segToNumber, hguard]
  refine ⟨heq, fun hw => ?_⟩
  rw [heq]
  exact isDeepEqual_refl _ hw

/-- Witness for C10: removing index 5 and index -1 of the two-element array
`[1,2]` both leave it unchanged. -/
theorem claim_C10_witness :
    removeValueAtPath (.arr (JArr.ofList [.num 1, .num 2])) [.idx 5]
      = .arr (JArr.ofList [.num 1, .num 2])
    ∧ removeValueAtPath (.arr (JArr.ofList [.num 1, .num 2])) [.idx (-1), .key "a"]
      = .arr (JArr.ofList [.num 1, .num 2]) := by
  exact ⟨(claim_C10 (JArr.ofList [.num 1, .num 2]) 5 [] (by decide)).1,
    (claim_C10 (JArr.ofList [.num 1, .num 2]) (-1) [.key "a"] (by decide)).1⟩

/-! ## Claim C3 -/

/-- Counterexample to C3 as stated: with an existing Object root and an Index
segment, `setValueAtPath` does NOT overwrite the object with a synthesized
empty Array — it writes the stringified index as a key into the existing
object. -/
theorem claim_C3_counterexample :
    setValueAtPath (.obj .nil) [.idx 0] (.num 42) = .obj (.cons "0" (.num 42) .nil)
    ∧ setValueAtPath (.obj .nil) [.idx 0] (.num 42) ≠ .arr (.cons (.num 42) .nil) := by
  decide

/-- Claim C3 (amended): `setValueAtPath` synthesizes a fresh container only
when the existing node is absent or not a container (an Index segment
synthesizes an empty Array, a Key segment an empty Object).  When the node is
a container of the "wrong" kind for the segment there is no overwrite:
the segment is coerced to the container's own addressing — an Index segment
on an Object writes the stringified index as a key into the existing object
(which stays an Object), and a Key segment on an Array writes an element only
when the key is a canonical array index, the write otherwise being a
non-index property invisible to the JSON value model, leaving the array
unchanged. -/
theorem claim_C3 :
    (∀ (v : JVal) (s : PathSegment) (t : List PathSegment) (val : JVal),
        isObjectLike v = false →
        setValueAtPath v (s :: t) val = setValueAtPath (createEmptyRoot (s :: t)) (s :: t) val)
    ∧ (∀ (i : Int) (t : List PathSegment), createEmptyRoot (.idx i :: t) = .arr .nil)
    ∧ (∀ (k : String) (t : List PathSegment), createEmptyRoot (.key k :: t) = .obj .nil)
    ∧ (∀ (fs : JObj) (i : Int) (val : JVal),
        setValueAtPath (.obj fs) [.idx i] val = .obj (fs.setKey (toString i) val))
    ∧ (∀ (fs : JObj) (i : Int) (rest : List PathSegment) (val : JVal),
        kindOf (setValueAtPath (.obj fs) (.idx i :: rest) val) = .object)
    ∧ (∀ (xs : JArr) (k : String) (rest : List PathSegment) (val : JVal),
        arrIndex? (.key k) = none →
        setValueAtPath (.arr xs) (.key k :: rest) val = .arr xs) := by
  refine ⟨?_, fun i t => rfl, fun k t => rfl, ?_, ?_, ?_⟩
  · intro v s t val h
    have hb : isObjectLike (createEmptyRoot (s :: t)) = true := by
      cases s <;> rfl
    conv_lhs => rw [setValueAtPath]
    conv_rhs => rw [setValueAtPath]
    simp only [h, hb, if_false, if_true, Bool.false_eq_true, cloneDeep]
  · intro fs i val
    simp [setValueAtPath, isObjectLike, cloneDeep, segToKey]
  · intro fs i rest val
    simp only [setValueAtPath, isObjectLike, if_true, cloneDeep]
    simp [kindOf]
  · intro xs k rest val h
    simp [setValueAtPath, isObjectLike, cloneDeep, h]

/-- Witness for C3 (amended) at concrete inputs: a scalar root is replaced by
a synthesized container chosen by the segment kind; an Index segment on an
existing Object writes key `"0"`; a non-index Key segment on an existing
Array leaves it unchanged. -/
theorem claim_C3_witness :
    setValueAtPath (.num 5) [.idx 0] (.num 42) = .arr (.cons (.num 42) .nil)
    ∧ setValueAtPath (.obj (.cons "a" (.num 1) .nil)) [.idx 0] (.num 42)
        = .obj (.cons "a" (.num 1) (.cons "0" (.num 42) .nil))
    ∧ setValueAtPath (.arr (.cons (.num 1) .nil)) [.key "x"] (.num 42)
        = .arr (.cons (.num 1) .nil) := by
  refine ⟨?_, ?_, ?_⟩
  · rw [claim_C3.1 (.num 5) (.idx 0) [] (.num 42) (by decide)]
    decide
  · rw [claim_C3.2.2.2.1 (.cons "a" (.num 1) .nil) 0 (.num 42)]
    decide
  · exact claim_C3.2.2.2.2.2 (.cons (.num 1) .nil) "x" [] (.num 42) (by decide)

/-! ## More structural lemmas -/

theorem JObj.setKey_setKey : ∀ (o : JObj) (k : String) (x y : JVal),
    (o.setKey k x).setKey k y = o.setKey k y
  | .nil, k, x, y => by simp [JObj.setKey]
  | .cons k' w t, k, x, y => by
      by_cases h : k' = k
      · subst h; simp [JObj.setKey]
      · simp [JObj.setKey, show (k' == k) = false by simp [h],
          JObj.setKey_setKey t k x y]

theorem JArr.setPad_setPad : ∀ (a : JArr) (n : Nat) (x y : JVal),
    (a.setPad n x).setPad n y = a.setPad n y
  | .cons z t, 0, x, y => rfl
  | .cons z t, n + 1, x, y => by simp [JArr.setPad, JArr.setPad_setPad t n x y]
  | .nil, 0, x, y => rfl
  | .nil, n + 1, x, y => by simp [JArr.setPad, JArr.setPad_setPad .nil n x y]

theorem JObj.containsKey_eraseKey_self :
    ∀ (o : JObj) (k : String), (o.eraseKey k).containsKey k = false
  | .nil, k => rfl
  | .cons k' v t, k => by
      by_cases h : k' = k
      · subst h; simp [JObj.eraseKey, JObj.containsKey_eraseKey_self t]
      · simp [JObj.eraseKey, JObj.containsKey, show (k' == k) = false by simp [h],
          JObj.containsKey_eraseKey_self t k]

theorem wf_getProp (fs : JObj) (k : String) (h : wf (.obj fs) = true) :
    wf (fs.getProp k) = true := by
  rcases hc : fs.containsKey k with _ | _
  · rw [JObj.getProp_eq_undef_of_not_contains fs k hc]; rfl
  · have hm := JObj.mem_toListO_getProp fs k hc
    simp only [wf, Bool.and_eq_true] at h
    exact wfO_mem fs k _ h.2 hm

theorem wf_getIdx (xs : JArr) (n : Nat) (h : wf (.arr xs) = true) :
    wf (xs.getIdx n) = true := by
  by_cases hn : n < xs.length
  · exact wfA_mem xs _ h (JArr.getIdx_mem_toList xs n hn)
  · rw [JArr.getIdx_of_length_le xs n (by omega)]; rfl

theorem JArr.eraseIdx_last_setPad : ∀ (xs : JArr) (n : Nat), n + 1 = xs.length →
    (xs.eraseIdx n).setPad n (xs.getIdx n) = xs
  | .nil, n, h => by simp [JArr.length] at h
  | .cons x t, 0, h => by
      simp only [JArr.length] at h
      cases t with
      | nil => rfl
      | cons y t' => simp [JArr.length] at h
  | .cons x t, n + 1, h => by
      simp only [JArr.length] at h
      simp only [JArr.eraseIdx, JArr.getIdx, JArr.setPad]
      rw [JArr.eraseIdx_last_setPad t n (by omega)]

/-! ## Machinery for C6: evaluation of `setValueAtPath` and `getAtPath` -/

/-- Unfolding: setting through an array with a valid index. -/
theorem setValueAtPath_arr_some (xs : JArr) (head : PathSegment)
    (rest : List PathSegment) (v : JVal) (n : Nat) (h : arrIndex? head = some n) :
    setValueAtPath (.arr xs) (head :: rest) v =
      .arr (xs.setPad n
        (if rest.length ≠ 0 then setValueAtPath (xs.getIdx n) rest v else v)) := by
  simp [setValueAtPath, isObjectLike, cloneDeep, h]

/-- Unfolding: setting through an array with a non-index segment is dropped. -/
theorem setValueAtPath_arr_none (xs : JArr) (head : PathSegment)
    (rest : List PathSegment) (v : JVal) (h : arrIndex? head = none) :
    setValueAtPath (.arr xs) (head :: rest) v = .arr xs := by
  simp [setValueAtPath, isObjectLike, cloneDeep, h]

/-- Unfolding: setting through an object coerces the segment to a key. -/
theorem setValueAtPath_obj (fs : JObj) (head : PathSegment)
    (rest : List PathSegment) (v : JVal) :
    setValueAtPath (.obj fs) (head :: rest) v =
      .obj (fs.setKey (segToKey head)
        (if rest.length ≠ 0 then setValueAtPath (fs.getProp (segToKey head)) rest v
         else v)) := by
  simp [setValueAtPath, isObjectLike, cloneDeep]

/-- Unfolding: setting through a non-container synthesizes a base container. -/
theorem setValueAtPath_scalar (root : JVal) (head : PathSegment)
    (rest : List PathSegment) (v : JVal) (h : isObjectLike root = false) :
    setValueAtPath root (head :: rest) v =
      setValueAtPath (createEmptyRoot (head :: rest)) (head :: rest) v := by
  have hb : isObjectLike (createEmptyRoot (head :: rest)) = true := by
    cases head <;> rfl
  conv_lhs => rw [setValueAtPath]
  conv_rhs => rw [setValueAtPath]
  simp only [h, hb, if_false, if_true, Bool.false_eq_true, cloneDeep]

@[simp] theorem getAtPath_nil (root : JVal) : getAtPath root [] = root := rfl

@[simp] theorem getAtPath_undef : ∀ q : List PathSegment, getAtPath .undef q = .undef
  | [] => rfl
  | _ :: q => getAtPath_undef q

theorem getAtPath_scalar (root : JVal) (s0 : PathSegment) (q : List PathSegment)
    (h : isObjectLike root = false) : getAtPath root (s0 :: q) = .undef := by
  cases root <;> simp [isObjectLike] at h ⊢ <;> simp [getAtPath, getAtPath_undef]

theorem getAtPath_arr_some (xs : JArr) (head : PathSegment) (q : List PathSegment)
    (n : Nat) (h : arrIndex? head = some n) :
    getAtPath (.arr xs) (head :: q) = getAtPath (xs.getIdx n) q := by
  simp [getAtPath, h]

theorem getAtPath_arr_none (xs : JArr) (head : PathSegment) (q : List PathSegment)
    (h : arrIndex? head = none) :
    getAtPath (.arr xs) (head :: q) = .undef := by
  simp [getAtPath, h, getAtPath_undef]

theorem getAtPath_obj (fs : JObj) (head : PathSegment) (q : List PathSegment) :
    getAtPath (.obj fs) (head :: q) = getAtPath (fs.getProp (segToKey head)) q := rfl

/-- The path can be traversed by `setValueAtPath` so that the written value is
addressable afterwards: every array node met along the way (including a
synthesized one) is subscripted by a genuine array index. -/
def setPathOkB (input : JVal) (path : List PathSegment) : Bool :=
  match path with
  | [] => true
  | head :: rest =>
    match (if isObjectLike input then input else createEmptyRoot (head :: rest)) with
    | .arr xs =>
        match arrIndex? head with
        | some n => setPathOkB (xs.getIdx n) rest
        | none => false
    | .obj fs => setPathOkB (fs.getProp (segToKey head)) rest
    | _ => false

/-- After a successful `setValueAtPath`, reading the same path gives back the
written value. -/
theorem getAtPath_setValueAtPath (p : List PathSegment) (root v : JVal)
    (h : setPathOkB root p = true) :
    getAtPath (setValueAtPath root p v) p = v := by
  induction p generalizing root with
  | nil => rfl
  | cons head rest ih =>
      by_cases hroot : isObjectLike root = true
      · cases root with
        | arr xs =>
            rcases hn : arrIndex? head with _ | n
            · rw [setPathOkB] at h
              simp only [isObjectLike, if_true, hn] at h
              exact Bool.noConfusion h
            · rw [setPathOkB] at h
              simp only [isObjectLike, if_true, hn] at h
              rw [setValueAtPath_arr_some xs head rest v n hn,
                getAtPath_arr_some _ head rest n hn, JArr.getIdx_setPad_self]
              cases rest with
              | nil => simp
              | cons s t =>
                  simp only [List.length_cons, ne_eq, Nat.succ_ne_zero,
                    not_false_iff, if_true]
                  exact ih _ h
        | obj fs =>
            rw [setPathOkB] at h
            simp only [isObjectLike, if_true] at h
            rw [setValueAtPath_obj, getAtPath_obj, JObj.getProp_setKey_self]
            cases rest with
            | nil => simp
            | cons s t =>
                simp only [List.length_cons, ne_eq, Nat.succ_ne_zero,
                  not_false_iff, if_true]
                exact ih _ h
        | _ => simp [isObjectLike] at hroot
      · have hroot' : isObjectLike root = false := by
          revert hroot; cases root <;> simp [isObjectLike]
        rw [setValueAtPath_scalar root head rest v hroot']
        have hok : setPathOkB (createEmptyRoot (head :: rest)) (head :: rest) = true := by
          rw [setPathOkB] at h ⊢
          have hb : isObjectLike (createEmptyRoot (head :: rest)) = true := by
            cases head <;> rfl
          simp only [hroot', if_false, Bool.false_eq_true] at h
          simp only [hb, if_true]
          exact h
        cases hb : createEmptyRoot (head :: rest) with
        | arr xs =>
            rw [hb] at hok
            rcases hn : arrIndex? head with _ | n
            · rw [setPathOkB] at hok
              simp only [isObjectLike, if_true, hn] at hok
              exact Bool.noConfusion hok
            · rw [setPathOkB] at hok
              simp only [isObjectLike, if_true, hn] at hok
              rw [setValueAtPath_arr_some xs head rest v n hn,
                getAtPath_arr_some _ head rest n hn, JArr.getIdx_setPad_self]
              cases rest with
              | nil => simp
              | cons s t =>
                  simp only [List.length_cons, ne_eq, Nat.succ_ne_zero,
                    not_false_iff, if_true]
                  exact ih _ hok
        | obj fs =>
            rw [hb] at hok
            rw [setPathOkB] at hok
            simp only [isObjectLike, if_true] at hok
            rw [setValueAtPath_obj, getAtPath_obj, JObj.getProp_setKey_self]
            cases rest with
            | nil => simp
            | cons s t =>
                simp only [List.length_cons, ne_eq, Nat.succ_ne_zero,
                  not_false_iff, if_true]
                exact ih _ hok
        | undef => exact absurd hb (by cases head <;> simp [createEmptyRoot])
        | null => exact absurd hb (by cases head <;> simp [createEmptyRoot])
        | bool b => exact absurd hb (by cases head <;> simp [createEmptyRoot])
        | num n => exact absurd hb (by cases head <;> simp [createEmptyRoot])
        | str s => exact absurd hb (by cases head <;> simp [createEmptyRoot])

/-- The JS address of a segment: its property-key coercion together with the
array index it denotes (if any).  Two segments with the same address read and
write the same slot of any container. -/
def segAddr (s : PathSegment) : String × Option Nat := (segToKey s, arrIndex? s)

/-- Two segments that certainly address different slots of every container:
their key coercions differ, and as array subscripts they denote different
indices or both denote none. -/
def segApartB (s t : PathSegment) : Bool :=
  (segToKey s != segToKey t) &&
    ((arrIndex? s != arrIndex? t) || ((arrIndex? s).isNone && (arrIndex? t).isNone))

/-- `q` leaves the spine of `p`: at the first position where the two paths'
segment addresses differ, the segments address different slots.  In
particular no node addressed by a prefix of `p` (the mutated spine) and no
node below `p` (the replaced subtree) qualifies. -/
def divergesB : List PathSegment → List PathSegment → Bool
  | ph :: pt, qh :: qt =>
      if segAddr ph = segAddr qh then divergesB pt qt else segApartB ph qh
  | _, _ => false

theorem getAtPath_arr_nil (qh : PathSegment) (qt : List PathSegment) :
    getAtPath (.arr .nil) (qh :: qt) = .undef := by
  rcases hm : arrIndex? qh with _ | m
  · exact getAtPath_arr_none _ _ _ hm
  · rw [getAtPath_arr_some _ _ _ _ hm]
    show getAtPath .undef qt = .undef
    exact getAtPath_undef qt

/-- Frame property of `setValueAtPath`: a path that leaves the mutated spine
reads the same value before and after the write. -/
theorem getAtPath_setValueAtPath_diverge (p : List PathSegment) (root v : JVal)
    (q : List PathSegment) (h : divergesB p q = true) :
    getAtPath (setValueAtPath root p v) q = getAtPath root q := by
  induction p generalizing root q with
  | nil => exact absurd h (by simp [divergesB])
  | cons ph pt ih =>
      cases q with
      | nil => exact absurd h (by simp [divergesB])
      | cons qh qt =>
        rw [divergesB] at h
        by_cases hroot : isObjectLike root = true
        · cases root with
          | arr xs =>
              rcases hn : arrIndex? ph with _ | n
              · rw [setValueAtPath_arr_none xs ph pt v hn]
              · rw [setValueAtPath_arr_some xs ph pt v n hn]
                by_cases haddr : segAddr ph = segAddr qh
                · simp only [haddr, if_true] at h
                  have hpt : pt ≠ [] := by
                    intro he; subst he; simp [divergesB] at h
                  have hq : arrIndex? qh = some n := by
                    have := congrArg Prod.snd haddr
                    simp only [segAddr] at this
                    rw [← this, hn]
                  rw [getAtPath_arr_some _ qh qt n hq,
                    getAtPath_arr_some _ qh qt n hq, JArr.getIdx_setPad_self]
                  have hlen : pt.length ≠ 0 := by simpa using hpt
                  simp only [hlen, ne_eq, not_false_iff, if_true]
                  exact ih (xs.getIdx n) qt h
                · simp only [haddr, if_false] at h
                  simp only [segApartB, Bool.and_eq_true, Bool.or_eq_true,
                    bne_iff_ne, ne_eq, Bool.and_eq_true] at h
                  rcases hm : arrIndex? qh with _ | m
                  · rw [getAtPath_arr_none _ qh qt hm, getAtPath_arr_none _ qh qt hm]
                  · have hmn : m ≠ n := by
                      rcases h.2 with h2 | h2
                      · intro he; subst he; rw [hn, hm] at h2; exact h2 rfl
                      · rw [hn] at h2; simp at h2
                    rw [getAtPath_arr_some _ qh qt m hm, getAtPath_arr_some _ qh qt m hm,
                      JArr.getIdx_setPad_ne xs n m _ hmn]
          | obj fs =>
              rw [setValueAtPath_obj fs ph pt v]
              rw [getAtPath_obj, getAtPath_obj]
              by_cases haddr : segAddr ph = segAddr qh
              · simp only [haddr, if_true] at h
                have hpt : pt ≠ [] := by
                  intro he; subst he; simp [divergesB] at h
                have hkeys : segToKey qh = segToKey ph := by
                  have := congrArg Prod.fst haddr
                  simp only [segAddr] at this
                  exact this.symm
                rw [hkeys, JObj.getProp_setKey_self]
                have hlen : pt.length ≠ 0 := by simpa using hpt
                simp only [hlen, ne_eq, not_false_iff, if_true]
                exact ih (fs.getProp (segToKey ph)) qt h
              · simp only [haddr, if_false] at h
                simp only [segApartB, Bool.and_eq_true, bne_iff_ne, ne_eq] at h
                rw [JObj.getProp_setKey_ne fs (segToKey ph) (segToKey qh) _
                  (fun he => h.1 he.symm)]
          | _ => simp [isObjectLike] at hroot
        · have hroot' : isObjectLike root = false := by
            revert hroot; cases root <;> simp [isObjectLike]
          rw [setValueAtPath_scalar root ph pt v hroot',
            getAtPath_scalar root qh qt hroot']
          cases ph with
          | idx j =>
              show getAtPath (setValueAtPath (.arr .nil) (.idx j :: pt) v) (qh :: qt) = .undef
              rcases hn : arrIndex? (.idx j) with _ | n
              · rw [setValueAtPath_arr_none _ _ pt v hn, getAtPath_arr_nil]
              · rw [setValueAtPath_arr_some _ _ pt v n hn]
                by_cases haddr : segAddr (.idx j) = segAddr qh
                · simp only [haddr, if_true] at h
                  have hpt : pt ≠ [] := by
                    intro he; subst he; simp [divergesB] at h
                  have hq : arrIndex? qh = some n := by
                    have := congrArg Prod.snd haddr
                    simp only [segAddr] at this
                    rw [← this, hn]
                  rw [getAtPath_arr_some _ qh qt n hq, JArr.getIdx_setPad_self]
                  have hlen : pt.length ≠ 0 := by simpa using hpt
                  simp only [hlen, ne_eq, not_false_iff, if_true]
                  have : (JArr.nil.getIdx n) = JVal.undef := by cases n <;> rfl
                  rw [this, ih .undef qt h, getAtPath_undef]
                · simp only [haddr, if_false] at h
                  simp only [segApartB, Bool.and_eq_true, Bool.or_eq_true,
                    bne_iff_ne, ne_eq, Bool.and_eq_true] at h
                  rcases hm : arrIndex? qh with _ | m
                  · rw [getAtPath_arr_none _ qh qt hm]
                  · have hmn : m ≠ n := by
                      rcases h.2 with h2 | h2
                      · intro he; subst he; rw [hn, hm] at h2; exact h2 rfl
                      · rw [hn] at h2; simp at h2
                    rw [getAtPath_arr_some _ qh qt m hm,
                      JArr.getIdx_setPad_ne _ n m _ hmn]
                    have : (JArr.nil.getIdx m) = JVal.undef := by cases m <;> rfl
                    rw [this, getAtPath_undef]
          | key s =>
              show getAtPath (setValueAtPath (.obj .nil) (.key s :: pt) v) (qh :: qt) = .undef
              rw [setValueAtPath_obj _ _ pt v, getAtPath_obj]
              by_cases haddr : segAddr (.key s) = segAddr qh
              · simp only [haddr, if_true] at h
                have hpt : pt ≠ [] := by
                  intro he; subst he; simp [divergesB] at h
                have hkeys : segToKey qh = segToKey (.key s) := by
                  have := congrArg Prod.fst haddr
                  simp only [segAddr] at this
                  exact this.symm
                rw [hkeys, JObj.getProp_setKey_self]
                have hlen : pt.length ≠ 0 := by simpa using hpt
                simp only [hlen, ne_eq, not_false_iff, if_true]
                have : (JObj.nil.getProp (segToKey (.key s))) = JVal.undef := rfl
                rw [this, ih .undef qt h, getAtPath_undef]
              · simp only [haddr, if_false] at h
                simp only [segApartB, Bool.and_eq_true, bne_iff_ne, ne_eq] at h
                rw [JObj.getProp_setKey_ne _ (segToKey (.key s)) (segToKey qh) _
                  (fun he => h.1 he.symm)]
                show getAtPath (JObj.nil.getProp (segToKey qh)) qt = .undef
                rw [show (JObj.nil.getProp (segToKey qh)) = JVal.undef from rfl,
                  getAtPath_undef]

/-! ## Claim C6 -/

/-- Counterexample to C6 as stated: with an Array root and a (non-index) Key
segment, `setValueAtPath` performs a JS non-index property write, which is
invisible to the JSON value model (the app's `JSON.stringify` drops it): the
resulting tree does not hold the written value at the path. -/
theorem claim_C6_counterexample :
    setValueAtPath (.arr (.cons (.num 1) .nil)) [.key "a"] (.num 2)
      = .arr (.cons (.num 1) .nil)
    ∧ isDeepEqual
        (getAtPath (setValueAtPath (.arr (.cons (.num 1) .nil)) [.key "a"] (.num 2))
          [.key "a"]) (.num 2) = false := by
  decide

/-- Claim C6 (amended): `setValueAtPath root p v` returns a clone of `v` when
`p` is empty; when every array node traversed (or synthesized) along `p` is
subscripted by a genuine array index (`setPathOkB` — the only excluded case
is a Key segment that is not a canonical index, or a negative Index, landing
on an Array, where the JS write creates a non-index property outside the JSON
value model), the resulting tree holds exactly `v` (hence a value deep-equal
to `v`) at `p`; and unconditionally, every path that leaves the mutated spine
reads the same value as in `root`. -/
theorem claim_C6 :
    (∀ root v : JVal, setValueAtPath root [] v = cloneDeep v)
    ∧ (∀ (root v : JVal) (p : List PathSegment), setPathOkB root p = true →
        getAtPath (setValueAtPath root p v) p = v
        ∧ (wf v = true →
            isDeepEqual (getAtPath (setValueAtPath root p v) p) v = true))
    ∧ (∀ (root v : JVal) (p q : List PathSegment), divergesB p q = true →
        getAtPath (setValueAtPath root p v) q = getAtPath root q) := by
  refine ⟨fun root v => rfl, ?_, fun root v p q h => getAtPath_setValueAtPath_diverge p root v q h⟩
  intro root v p h
  have heq := getAtPath_setValueAtPath p root v h
  exact ⟨heq, fun hw => by rw [heq]; exact isDeepEqual_refl v hw⟩

/-! ## Congruence lemmas for one-slot updates -/

/-- Replacing the value of a present key by a deep-equal value yields a
deep-equal object. -/
theorem isDeepEqual_obj_setKey (fs : JObj) (k : String) (Z : JVal)
    (hwf : wf (.obj fs) = true) (hc : fs.containsKey k = true)
    (hZ : isDeepEqual Z (fs.getProp k) = true) :
    isDeepEqual (.obj (fs.setKey k Z)) (.obj fs) = true := by
  have hnd : fs.keys.Nodup := by
    have h := hwf
    simp only [wf, Bool.and_eq_true] at h
    simpa using h.1
  have hkeys : (fs.setKey k Z).keys = fs.keys := JObj.keys_setKey_contains fs k Z hc
  rw [isDeepEqual_obj_iff _ _ (by rw [hkeys]; exact hnd) hnd]
  refine ⟨by rw [hkeys], ?_⟩
  intro k' hk'
  rw [hkeys] at hk'
  by_cases he : k' = k
  · subst he
    rw [JObj.getProp_setKey_self]
    exact hZ
  · rw [JObj.getProp_setKey_ne fs k k' Z he]
    exact isDeepEqual_refl _ (wf_getProp fs k' hwf)

/-- Replacing an in-range element by a deep-equal value yields a deep-equal
array. -/
theorem isDeepEqual_arr_setPad (xs : JArr) (n : Nat) (Z : JVal)
    (hwf : wf (.arr xs) = true) (hn : n < xs.length)
    (hZ : isDeepEqual Z (xs.getIdx n) = true) :
    isDeepEqual (.arr (xs.setPad n Z)) (.arr xs) = true := by
  rw [isDeepEqual_arr_iff]
  constructor
  · rw [JArr.length_setPad]; omega
  · intro i hi
    rw [JArr.length_setPad] at hi
    by_cases he : i = n
    · subst he
      rw [JArr.getIdx_setPad_self]
      exact hZ
    · rw [JArr.getIdx_setPad_ne xs n i Z he]
      exact isDeepEqual_refl _ (wf_getIdx xs i hwf)

/-- Deleting a present key and re-adding it with its old value yields a
deep-equal object (the key moves to the end of the insertion order, which
deep equality ignores). -/
theorem isDeepEqual_obj_eraseSet (fs : JObj) (k : String)
    (hwf : wf (.obj fs) = true) (hc : fs.containsKey k = true) :
    isDeepEqual (.obj ((fs.eraseKey k).setKey k (fs.getProp k))) (.obj fs) = true := by
  have hnd : fs.keys.Nodup := by
    have h := hwf
    simp only [wf, Bool.and_eq_true] at h
    simpa using h.1
  have hkeys : ((fs.eraseKey k).setKey k (fs.getProp k)).keys
      = fs.keys.filter (fun s => s ≠ k) ++ [k] := by
    rw [JObj.keys_setKey_not_contains _ k _ (JObj.containsKey_eraseKey_self fs k),
      JObj.keys_eraseKey]
  have hndA : (((fs.eraseKey k).setKey k (fs.getProp k)).keys).Nodup := by
    rw [hkeys]
    refine List.Nodup.append (hnd.filter _) (List.nodup_singleton k) ?_
    intro x hx hx'
    simp only [List.mem_singleton] at hx'
    subst hx'
    simp only [List.mem_filter, decide_eq_true_eq] at hx
    exact hx.2 rfl
  rw [isDeepEqual_obj_iff _ _ hndA hnd]
  constructor
  · rw [hkeys]
    ext x
    simp only [List.mem_toFinset, List.mem_append, List.mem_filter,
      List.mem_singleton, decide_eq_true_eq]
    constructor
    · rintro (⟨hx, -⟩ | he)
      · exact hx
      · rw [he]
        exact (JObj.containsKey_iff_mem_keys fs k).mp hc
    · intro hx
      by_cases he : x = k
      · exact Or.inr he
      · exact Or.inl ⟨hx, he⟩
  · intro k' hk'
    by_cases he : k' = k
    · subst he
      rw [JObj.getProp_setKey_self]
      exact isDeepEqual_refl _ (wf_getProp fs k' hwf)
    · rw [JObj.getProp_setKey_ne _ k k' _ he, JObj.getProp_eraseKey_ne fs k k' he]
      exact isDeepEqual_refl _ (wf_getProp fs k' hwf)

/-- Witness for C6: setting `b[2]` inside an object pads the synthesized
array and the value reads back; the sibling key `a` (an off-spine path) is
untouched. -/
theorem claim_C6_witness :
    getAtPath (setValueAtPath (.obj (.cons "a" (.num 1) .nil)) [.key "b", .idx 2] (.num 9))
        [.key "b", .idx 2] = .num 9
    ∧ getAtPath (setValueAtPath (.obj (.cons "a" (.num 1) .nil)) [.key "b", .idx 2] (.num 9))
        [.key "a"] = .num 1 := by
  constructor
  · exact (claim_C6.2.1 (.obj (.cons "a" (.num 1) .nil)) (.num 9) [.key "b", .idx 2]
      (by decide)).1
  · rw [claim_C6.2.2 (.obj (.cons "a" (.num 1) .nil)) (.num 9) [.key "b", .idx 2]
      [.key "a"] (by decide)]
    decide

/-! ## Claim C8 -/

/-- The path addresses an existing leaf (a present scalar) of the tree, and
every Array met on the way is traversed through an in-range index — the last
index of its parent when the removal happens there (the final segment). -/
def roundTripOkB (v : JVal) (p : List PathSegment) : Bool :=
  match v, p with
  | v, [] => !(isObjectLike v) && (v != .undef)
  | .obj fs, s :: t =>
      fs.containsKey (segToKey s) && roundTripOkB (fs.getProp (segToKey s)) t
  | .arr xs, [s] =>
      match arrIndex? s with
      | some n => (n + 1 == xs.length) && roundTripOkB (xs.getIdx n) []
      | none => false
  | .arr xs, s :: t =>
      match arrIndex? s with
      | some n => decide (n < xs.length) && roundTripOkB (xs.getIdx n) t
      | none => false
  | _, _ :: _ => false

/-- Counterexample to C8 as stated: for `T = [1,2]` and `p = [0]` (an
existing leaf), removing index 0 shifts element 2 down, and the subsequent
set overwrites it instead of re-inserting: the round trip loses an element. -/
theorem claim_C8_counterexample :
    getAtPath (.arr (.cons (.num 1) (.cons (.num 2) .nil))) [.idx 0] = .num 1
    ∧ isDeepEqual
        (setValueAtPath
          (removeValueAtPath (.arr (.cons (.num 1) (.cons (.num 2) .nil))) [.idx 0])
          [.idx 0]
          (getAtPath (.arr (.cons (.num 1) (.cons (.num 2) .nil))) [.idx 0]))
        (.arr (.cons (.num 1) (.cons (.num 2) .nil))) = false := by
  decide

/-- Claim C8 (amended): `setAtPath(removeAtPath(T, p), p, getAtPath(T, p))`
restores a tree deep-equal to `T`, provided `p` addresses an existing leaf of
`T` and, whenever the leaf's parent is an Array, the leaf is its last
element (`roundTripOkB`); for an earlier array element the removal shifts its
successors down and the set overwrites, so the round trip does not restore
`T`. -/
theorem claim_C8 (T : JVal) (p : List PathSegment) (hw : wf T = true)
    (h : roundTripOkB T p = true) :
    isDeepEqual (setValueAtPath (removeValueAtPath T p) p (getAtPath T p)) T = true := by
  induction p generalizing T with
  | nil => exact isDeepEqual_refl T hw
  | cons s t ih =>
      cases T with
      | obj fs =>
          rw [roundTripOkB] at h
          simp only [Bool.and_eq_true] at h
          obtain ⟨hc, hrest⟩ := h
          rw [getAtPath_obj]
          cases t with
          | nil =>
              rw [removeValueAtPath_obj_final fs s hc]
              rw [setValueAtPath_obj]
              simp only [List.length_nil, ne_eq, not_true_eq_false, if_false]
              exact isDeepEqual_obj_eraseSet fs (segToKey s) hw hc
          | cons s' t' =>
              rw [removeValueAtPath_obj_rec fs s (s' :: t') (by simp) hc]
              rw [setValueAtPath_obj]
              simp only [List.length_cons, ne_eq, Nat.succ_ne_zero, not_false_iff,
                if_true, JObj.getProp_setKey_self, JObj.setKey_setKey]
              exact isDeepEqual_obj_setKey fs (segToKey s) _ hw hc
                (ih _ (wf_getProp fs (segToKey s) hw) hrest)
      | arr xs =>
          cases t with
          | nil =>
              rw [roundTripOkB] at h
              rcases hn : arrIndex? s with _ | n
              · rw [hn] at h; exact Bool.noConfusion h
              · rw [hn] at h
                simp only [Bool.and_eq_true, beq_iff_eq] at h
                obtain ⟨hlen, -⟩ := h
                rw [getAtPath_arr_some xs s [] n hn]
                rw [removeValueAtPath_arr_final xs s (n : Int)
                  (segToNumber_of_arrIndex s n hn) (by omega) (by omega)]
                rw [setValueAtPath_arr_some _ s [] _ n hn]
                simp only [List.length_nil, ne_eq, not_true_eq_false, if_false]
                have : (n : Int).toNat = n := by omega
                rw [this, getAtPath_nil, JArr.eraseIdx_last_setPad xs n hlen]
                exact isDeepEqual_refl _ hw
          | cons s' t' =>
              rw [roundTripOkB] at h
              case x => simp
              rcases hn : arrIndex? s with _ | n
              · rw [hn] at h; exact Bool.noConfusion h
              · rw [hn] at h
                simp only [Bool.and_eq_true, decide_eq_true_eq] at h
                obtain ⟨hlen, hrest⟩ := h
                rw [getAtPath_arr_some xs s _ n hn]
                rw [removeValueAtPath_arr_rec xs s (s' :: t') n (by simp) hn hlen]
                rw [setValueAtPath_arr_some _ s _ _ n hn]
                simp only [List.length_cons, ne_eq, Nat.succ_ne_zero, not_false_iff,
                  if_true, JArr.getIdx_setPad_self, JArr.setPad_setPad]
                exact isDeepEqual_arr_setPad xs n _ hw hlen
                  (ih _ (wf_getIdx xs n hw) hrest)
      | undef => exact Bool.noConfusion h
      | null => exact Bool.noConfusion h
      | bool b => exact Bool.noConfusion h
      | num n => exact Bool.noConfusion h
      | str s0 => exact Bool.noConfusion h

/-- Witness for C8: the round trip at `p = ["b","c"]` inside
`{a:1, b:{c:2}}` (an object leaf) and at `p = [1]` inside `[1,2]` (the last
array element) both restore deep-equal trees. -/
theorem claim_C8_witness :
    isDeepEqual
      (setValueAtPath
        (removeValueAtPath
          (.obj (.cons "a" (.num 1) (.cons "b" (.obj (.cons "c" (.num 2) .nil)) .nil)))
          [.key "b", .key "c"])
        [.key "b", .key "c"]
        (getAtPath
          (.obj (.cons "a" (.num 1) (.cons "b" (.obj (.cons "c" (.num 2) .nil)) .nil)))
          [.key "b", .key "c"]))
      (.obj (.cons "a" (.num 1) (.cons "b" (.obj (.cons "c" (.num 2) .nil)) .nil))) = true
    ∧ isDeepEqual
        (setValueAtPath
          (removeValueAtPath (.arr (.cons (.num 1) (.cons (.num 2) .nil))) [.idx 1])
          [.idx 1]
          (getAtPath (.arr (.cons (.num 1) (.cons (.num 2) .nil))) [.idx 1]))
        (.arr (.cons (.num 1) (.cons (.num 2) .nil))) = true := by
  exact ⟨claim_C8 _ [.key "b", .key "c"] (by decide) (by decide),
    claim_C8 _ [.idx 1] (by decide) (by decide)⟩

/-! ## Path structure of `buildDiff` output -/

/-- Prepend a path to an entry's path (the relation between a recursive
`buildDiff` call under a prefix and the same call at the root). -/
def prependEntry (p : List PathSegment) (e : DiffEntry) : DiffEntry :=
  { e with path := p ++ e.path }

theorem prependEntry_prependEntry (p q : List PathSegment) (e : DiffEntry) :
    prependEntry p (prependEntry q e) = prependEntry (p ++ q) e := by
  simp [prependEntry, List.append_assoc]

mutual
/-- The path argument of `buildDiff` is only a prefix stamped onto every
entry. -/
theorem buildDiff_prep : ∀ (l r : JVal) (p q : List PathSegment),
    buildDiff l r (p ++ q) = (buildDiff l r q).map (prependEntry p)
  | l, r, p, q => by
      rw [buildDiff.eq_def, buildDiff.eq_def l r q]
      split
      · rfl
      · split
        · simp [prependEntry]
        · split
          · simp [prependEntry]
          · split
            · rfl
            · split
              · exact diffElems_prep _ _ p q 0
              · exact diffProps_prep _ _ _ p q
              · simp [prependEntry]
termination_by l r _ _ => (2 * (sizeJ l + sizeJ r), 0)
decreasing_by
  all_goals
    apply Prod.Lex.left
    simp_all only [sizeJ]
    omega

theorem diffElems_prep : ∀ (xs ys : JArr) (p q : List PathSegment) (i : Nat),
    diffElems xs ys (p ++ q) i = (diffElems xs ys q i).map (prependEntry p)
  | .nil, .nil, p, q, i => by
      rw [diffElems.eq_def, diffElems.eq_def]
      simp
  | .cons x xt, .cons y yt, p, q, i => by
      rw [diffElems.eq_def, diffElems.eq_def]
      simp only [List.map_append, List.append_assoc]
      rw [buildDiff_prep x y p, diffElems_prep xt yt p q (i + 1)]
  | .cons x xt, .nil, p, q, i => by
      rw [diffElems.eq_def, diffElems.eq_def]
      simp only [List.map_append, List.append_assoc]
      rw [buildDiff_prep x .undef p, diffElems_prep xt .nil p q (i + 1)]
  | .nil, .cons y yt, p, q, i => by
      rw [diffElems.eq_def, diffElems.eq_def]
      simp only [List.map_append, List.append_assoc]
      rw [buildDiff_prep .undef y p, diffElems_prep .nil yt p q (i + 1)]
termination_by xs ys _ _ _ => (2 * (sizeA xs + sizeA ys) + 1, 0)
decreasing_by
  · apply Prod.Lex.left
    simp only [sizeA]; omega
  · apply Prod.Lex.left
    simp only [sizeA]; omega
  · apply Prod.Lex.left
    have := sizeA_pos xt
    simp only [sizeA, sizeJ]; omega
  · apply Prod.Lex.left
    simp only [sizeA]; omega
  · apply Prod.Lex.left
    have := sizeA_pos yt
    simp only [sizeA, sizeJ]; omega
  · apply Prod.Lex.left
    simp only [sizeA]; omega

theorem diffProps_prep : ∀ (keys : List String) (fs gs : JObj) (p q : List PathSegment),
    diffProps keys fs gs (p ++ q) = (diffProps keys fs gs q).map (prependEntry p)
  | [], fs, gs, p, q => by
      rw [diffProps.eq_def, diffProps.eq_def]
      simp
  | k :: rest, fs, gs, p, q => by
      rw [diffProps.eq_def, diffProps.eq_def]
      simp only [List.map_append, List.append_assoc]
      rw [buildDiff_prep (fs.getProp k) (gs.getProp k) p,
        diffProps_prep rest fs gs p q]
termination_by keys fs gs _ _ => (2 * (sizeO fs + sizeO gs) + 3, keys.length)
decreasing_by
  · apply Prod.Lex.left
    have h1 := sizeJ_getProp_lt fs k
    have h2 := sizeJ_getProp_lt gs k
    omega
  · apply Prod.Lex.right
    exact Nat.lt_succ_self _
end

/-- The root-path instance of `buildDiff_prep`. -/
theorem buildDiff_prep_nil (l r : JVal) (p : List PathSegment) :
    buildDiff l r p = (buildDiff l r []).map (prependEntry p) := by
  have h := buildDiff_prep l r p []
  simpa using h

/-! ## Case lemmas for `buildDiff` -/

theorem isDeepEqual_undef_left (r : JVal) (h : r ≠ .undef) :
    isDeepEqual .undef r = false := by
  cases r <;> first | (exact absurd rfl h) | rfl

theorem isDeepEqual_undef_right (l : JVal) (h : l ≠ .undef) :
    isDeepEqual l .undef = false := by
  cases l <;> first | (exact absurd rfl h) | rfl

theorem buildDiff_eq_nil (l r : JVal) (p : List PathSegment)
    (h : isDeepEqual l r = true) : buildDiff l r p = [] := by
  rw [buildDiff.eq_def]
  by_cases h1 : l = JVal.undef ∧ r = JVal.undef
  · simp [h1]
  · by_cases h2 : l = JVal.undef
    · exfalso
      subst h2
      have hr : r ≠ .undef := fun hu => h1 ⟨rfl, hu⟩
      rw [isDeepEqual_undef_left r hr] at h
      exact Bool.noConfusion h
    · by_cases h3 : r = JVal.undef
      · exfalso
        subst h3
        rw [isDeepEqual_undef_right l h2] at h
        exact Bool.noConfusion h
      · simp [h1, h2, h3, h]

theorem buildDiff_added (r : JVal) (p : List PathSegment) (h : r ≠ .undef) :
    buildDiff .undef r p = [⟨p, .added, .undef, r⟩] := by
  rw [buildDiff.eq_def]
  simp [h, cloneDeep]

theorem buildDiff_removed (l : JVal) (p : List PathSegment) (h : l ≠ .undef) :
    buildDiff l .undef p = [⟨p, .removed, l, .undef⟩] := by
  rw [buildDiff.eq_def]
  simp [h, cloneDeep]

theorem buildDiff_arr (xs ys : JArr) (p : List PathSegment)
    (h : isDeepEqual (.arr xs) (.arr ys) = false) :
    buildDiff (.arr xs) (.arr ys) p = diffElems xs ys p 0 := by
  rw [buildDiff.eq_def]
  simp [h]

theorem buildDiff_objs (fs gs : JObj) (p : List PathSegment)
    (h : isDeepEqual (.obj fs) (.obj gs) = false) :
    buildDiff (.obj fs) (.obj gs) p = diffProps (keysUnion fs.keys gs.keys) fs gs p := by
  rw [buildDiff.eq_def]
  simp [h]

theorem buildDiff_modified (l r : JVal) (p : List PathSegment)
    (h1 : l ≠ .undef) (h2 : r ≠ .undef) (h3 : isDeepEqual l r = false)
    (h4 : ∀ xs ys, ¬(l = .arr xs ∧ r = .arr ys))
    (h5 : ∀ fs gs, ¬(l = .obj fs ∧ r = .obj gs)) :
    buildDiff l r p = [⟨p, .modified, l, r⟩] := by
  rw [buildDiff.eq_def]
  cases l <;> cases r <;>
    first
      | (exact absurd rfl h1)
      | (exact absurd rfl h2)
      | (exact absurd ⟨rfl, rfl⟩ (h4 _ _))
      | (exact absurd ⟨rfl, rfl⟩ (h5 _ _))
      | (simp_all [cloneDeep])

/-! ## Membership decomposition for `buildDiff` output -/

theorem arrIndex?_idx_nat (j : Nat) : arrIndex? (.idx (j : Int)) = some j := by
  simp [arrIndex?]

theorem JObj.containsKey_of_getProp_ne (fs : JObj) (k : String)
    (h : fs.getProp k ≠ .undef) : fs.containsKey k = true := by
  rcases hc : fs.containsKey k with _ | _
  · exact absurd (JObj.getProp_eq_undef_of_not_contains fs k hc) h
  · rfl

theorem JArr.lt_length_of_getIdx_ne (xs : JArr) (j : Nat)
    (h : xs.getIdx j ≠ .undef) : j < xs.length := by
  by_contra hc
  exact h (JArr.getIdx_of_length_le xs j (by omega))

theorem mem_diffElems : ∀ (xs ys : JArr) (i : Nat) (e : DiffEntry),
    e ∈ diffElems xs ys [] i →
    ∃ (j : Nat) (e' : DiffEntry),
      e' ∈ buildDiff (xs.getIdx j) (ys.getIdx j) [] ∧
      e = { e' with path := .idx ((i + j : Nat) : Int) :: e'.path } ∧
      (j < xs.length ∨ j < ys.length)
  | .nil, .nil, i, e, h => by
      rw [diffElems.eq_def] at h
      simp at h
  | .cons x xt, .cons y yt, i, e, h => by
      rw [diffElems.eq_def] at h
      rw [List.mem_append] at h
      rcases h with h | h
      · rw [List.nil_append, buildDiff_prep_nil] at h
        obtain ⟨e', hmem, rfl⟩ := List.mem_map.mp h
        exact ⟨0, e', hmem, by simp [prependEntry], Or.inl (by simp [JArr.length])⟩
      · obtain ⟨j, e', hmem, hpath, hb⟩ := mem_diffElems xt yt (i + 1) e h
        refine ⟨j + 1, e', hmem, ?_, ?_⟩
        · rw [hpath]
          have harith : i + 1 + j = i + (j + 1) := by omega
          rw [harith]
        · simp only [JArr.length]
          rcases hb with hb | hb
          · exact Or.inl (by omega)
          · exact Or.inr (by omega)
  | .cons x xt, .nil, i, e, h => by
      rw [diffElems.eq_def] at h
      rw [List.mem_append] at h
      rcases h with h | h
      · rw [List.nil_append, buildDiff_prep_nil] at h
        obtain ⟨e', hmem, rfl⟩ := List.mem_map.mp h
        exact ⟨0, e', hmem, by simp [prependEntry], Or.inl (by simp [JArr.length])⟩
      · obtain ⟨j, e', hmem, hpath, hb⟩ := mem_diffElems xt .nil (i + 1) e h
        refine ⟨j + 1, e', hmem, ?_, ?_⟩
        · rw [hpath]
          have harith : i + 1 + j = i + (j + 1) := by omega
          rw [harith]
        · simp only [JArr.length]
          rcases hb with hb | hb
          · exact Or.inl (by omega)
          · simp [JArr.length] at hb
  | .nil, .cons y yt, i, e, h => by
      rw [diffElems.eq_def] at h
      rw [List.mem_append] at h
      rcases h with h | h
      · rw [List.nil_append, buildDiff_prep_nil] at h
        obtain ⟨e', hmem, rfl⟩ := List.mem_map.mp h
        exact ⟨0, e', hmem, by simp [prependEntry], Or.inr (by simp [JArr.length])⟩
      · obtain ⟨j, e', hmem, hpath, hb⟩ := mem_diffElems .nil yt (i + 1) e h
        refine ⟨j + 1, e', hmem, ?_, ?_⟩
        · rw [hpath]
          have harith : i + 1 + j = i + (j + 1) := by omega
          rw [harith]
        · simp only [JArr.length]
          rcases hb with hb | hb
          · simp [JArr.length] at hb
          · exact Or.inr (by omega)

theorem mem_diffProps : ∀ (keys : List String) (fs gs : JObj) (e : DiffEntry),
    e ∈ diffProps keys fs gs [] →
    ∃ (k : String) (e' : DiffEntry), k ∈ keys ∧
      e' ∈ buildDiff (fs.getProp k) (gs.getProp k) [] ∧
      e = { e' with path := .key k :: e'.path }
  | [], fs, gs, e, h => by
      rw [diffProps.eq_def] at h
      simp at h
  | k :: rest, fs, gs, e, h => by
      rw [diffProps.eq_def] at h
      rw [List.mem_append] at h
      rcases h with h | h
      · rw [List.nil_append, buildDiff_prep_nil] at h
        obtain ⟨e', hmem, rfl⟩ := List.mem_map.mp h
        exact ⟨k, e', List.mem_cons_self k rest, hmem, by simp [prependEntry]⟩
      · obtain ⟨k', e', hk, hmem, hpath⟩ := mem_diffProps rest fs gs e h
        exact ⟨k', e', List.mem_cons_of_mem k hk, hmem, hpath⟩

/-! ## Facts about every produced diff entry -/

/-- The path addresses an existing node: every spine step goes through a
present key or an in-range index of a matching container, and the node
itself is present. -/
def removePathB (v : JVal) (p : List PathSegment) : Bool :=
  match v, p with
  | v, [] => v != .undef
  | .obj fs, s :: t =>
      fs.containsKey (segToKey s) && removePathB (fs.getProp (segToKey s)) t
  | .arr xs, s :: t =>
      match arrIndex? s with
      | some n => decide (n < xs.length) && removePathB (xs.getIdx n) t
      | none => false
  | _, _ :: _ => false

/-- Every entry of `buildDiff l r []` satisfies the `DiffEntry` contract:
an added entry carries no left value and a present right value at a path
existing in `r`; a removed entry is the mirror; a modified entry carries
both values; the carried values are the sides' values at the entry's path;
the two sides are never deep-equal there; and the path navigates containers
of matching kind in both trees. -/
theorem diffEntry_facts : ∀ (l r : JVal) (e : DiffEntry), e ∈ buildDiff l r [] →
    (e.status = .added →
      e.valueLeft = .undef ∧ e.valueRight ≠ .undef ∧ removePathB r e.path = true)
    ∧ (e.status = .removed →
      e.valueRight = .undef ∧ e.valueLeft ≠ .undef ∧ removePathB l e.path = true)
    ∧ (e.status = .modified → e.valueLeft ≠ .undef ∧ e.valueRight ≠ .undef)
    ∧ e.valueLeft = getAtPath l e.path
    ∧ e.valueRight = getAtPath r e.path
    ∧ isDeepEqual (getAtPath l e.path) (getAtPath r e.path) = false
    ∧ setPathOkB l e.path = true
    ∧ setPathOkB r e.path = true
  | l, r, e, he => by
    by_cases h1 : l = JVal.undef ∧ r = JVal.undef
    · rw [h1.1, h1.2, buildDiff_eq_nil _ _ _ (by decide)] at he
      simp at he
    · by_cases h2 : l = JVal.undef
      · have hr : r ≠ .undef := fun hh => h1 ⟨h2, hh⟩
        subst h2
        rw [buildDiff_added r [] hr] at he
        rw [List.mem_singleton] at he
        subst he
        refine ⟨fun _ => ⟨rfl, hr, ?_⟩, fun hst => DiffStatus.noConfusion hst,
          fun hst => DiffStatus.noConfusion hst, rfl, rfl,
          isDeepEqual_undef_left r hr, rfl, rfl⟩
        rw [removePathB]
        simp [hr]
      · by_cases h3 : r = JVal.undef
        · subst h3
          rw [buildDiff_removed l [] h2] at he
          rw [List.mem_singleton] at he
          subst he
          refine ⟨fun hst => DiffStatus.noConfusion hst, fun _ => ⟨rfl, h2, ?_⟩,
            fun hst => DiffStatus.noConfusion hst, rfl, rfl,
            isDeepEqual_undef_right l h2, rfl, rfl⟩
          rw [removePathB]
          simp [h2]
        · by_cases h4 : isDeepEqual l r = true
          · rw [buildDiff_eq_nil l r [] h4] at he
            simp at he
          · have h4' : isDeepEqual l r = false := by
              rw [Bool.eq_false_iff]; exact h4
            by_cases harr : ∃ xs ys, l = JVal.arr xs ∧ r = JVal.arr ys
            · obtain ⟨xs, ys, rfl, rfl⟩ := harr
              rw [buildDiff_arr xs ys [] h4'] at he
              obtain ⟨j, e', hmem, hpath, hbound⟩ := mem_diffElems xs ys 0 e he
              have IH := diffEntry_facts (xs.getIdx j) (ys.getIdx j) e' hmem
              obtain ⟨ia, ir, im, ivl, ivr, ine, isl, isr⟩ := IH
              have hpth : e.path = PathSegment.idx (j : Int) :: e'.path := by
                rw [hpath]; simp
              have hst : e.status = e'.status := by rw [hpath]
              have hvl : e.valueLeft = e'.valueLeft := by rw [hpath]
              have hvr : e.valueRight = e'.valueRight := by rw [hpath]
              have hgl : getAtPath (JVal.arr xs) e.path = getAtPath (xs.getIdx j) e'.path := by
                rw [hpth, getAtPath_arr_some xs _ _ j (arrIndex?_idx_nat j)]
              have hgr : getAtPath (JVal.arr ys) e.path = getAtPath (ys.getIdx j) e'.path := by
                rw [hpth, getAtPath_arr_some ys _ _ j (arrIndex?_idx_nat j)]
              refine ⟨?_, ?_, ?_, ?_, ?_, ?_, ?_, ?_⟩
              · intro hs
                obtain ⟨o1, o2, o3⟩ := ia (hst ▸ hs)
                refine ⟨hvl.trans o1, fun hh => o2 (hvr ▸ hh), ?_⟩
                rw [hpth, removePathB]
                have hjr : j < ys.length := by
                  apply JArr.lt_length_of_getIdx_ne
                  intro hu
                  apply o2
                  rw [ivr, hu, getAtPath_undef]
                simp only [arrIndex?_idx_nat]
                simp [hjr, o3]
              · intro hs
                obtain ⟨o1, o2, o3⟩ := ir (hst ▸ hs)
                refine ⟨hvr.trans o1, fun hh => o2 (hvl ▸ hh), ?_⟩
                rw [hpth, removePathB]
                have hjl : j < xs.length := by
                  apply JArr.lt_length_of_getIdx_ne
                  intro hu
                  apply o2
                  rw [ivl, hu, getAtPath_undef]
                simp only [arrIndex?_idx_nat]
                simp [hjl, o3]
              · intro hs
                obtain ⟨o1, o2⟩ := im (hst ▸ hs)
                exact ⟨fun hh => o1 (hvl ▸ hh), fun hh => o2 (hvr ▸ hh)⟩
              · rw [hgl, hvl]; exact ivl
              · rw [hgr, hvr]; exact ivr
              · rw [hgl, hgr]; exact ine
              · rw [hpth, setPathOkB]
                simp only [isObjectLike, if_true, arrIndex?_idx_nat]
                exact isl
              · rw [hpth, setPathOkB]
                simp only [isObjectLike, if_true, arrIndex?_idx_nat]
                exact isr
            · by_cases hobj : ∃ fs gs, l = JVal.obj fs ∧ r = JVal.obj gs
              · obtain ⟨fs, gs, rfl, rfl⟩ := hobj
                rw [buildDiff_objs fs gs [] h4'] at he
                obtain ⟨k, e', hk, hmem, hpath⟩ :=
                  mem_diffProps (keysUnion fs.keys gs.keys) fs gs e he
                have IH := diffEntry_facts (fs.getProp k) (gs.getProp k) e' hmem
                obtain ⟨ia, ir, im, ivl, ivr, ine, isl, isr⟩ := IH
                have hpth : e.path = PathSegment.key k :: e'.path := by rw [hpath]
                have hst : e.status = e'.status := by rw [hpath]
                have hvl : e.valueLeft = e'.valueLeft := by rw [hpath]
                have hvr : e.valueRight = e'.valueRight := by rw [hpath]
                have hsk : segToKey (PathSegment.key k) = k := rfl
                have hgl : getAtPath (JVal.obj fs) e.path = getAtPath (fs.getProp k) e'.path := by
                  rw [hpth, getAtPath_obj, hsk]
                have hgr : getAtPath (JVal.obj gs) e.path = getAtPath (gs.getProp k) e'.path := by
                  rw [hpth, getAtPath_obj, hsk]
                refine ⟨?_, ?_, ?_, ?_, ?_, ?_, ?_, ?_⟩
                · intro hs
                  obtain ⟨o1, o2, o3⟩ := ia (hst ▸ hs)
                  refine ⟨hvl.trans o1, fun hh => o2 (hvr ▸ hh), ?_⟩
                  rw [hpth, removePathB, hsk]
                  have hcg : gs.containsKey k = true := by
                    apply JObj.containsKey_of_getProp_ne
                    intro hu
                    apply o2
                    rw [ivr, hu, getAtPath_undef]
                  simp [hcg, o3]
                · intro hs
                  obtain ⟨o1, o2, o3⟩ := ir (hst ▸ hs)
                  refine ⟨hvr.trans o1, fun hh => o2 (hvl ▸ hh), ?_⟩
                  rw [hpth, removePathB, hsk]
                  have hcf : fs.containsKey k = true := by
                    apply JObj.containsKey_of_getProp_ne
                    intro hu
                    apply o2
                    rw [ivl, hu, getAtPath_undef]
                  simp [hcf, o3]
                · intro hs
                  obtain ⟨o1, o2⟩ := im (hst ▸ hs)
                  exact ⟨fun hh => o1 (hvl ▸ hh), fun hh => o2 (hvr ▸ hh)⟩
                · rw [hgl, hvl]; exact ivl
                · rw [hgr, hvr]; exact ivr
                · rw [hgl, hgr]; exact ine
                · rw [hpth, setPathOkB]
                  simp only [isObjectLike, if_true, hsk]
                  exact isl
                · rw [hpth, setPathOkB]
                  simp only [isObjectLike, if_true, hsk]
                  exact isr
              · have h4arr : ∀ xs ys, ¬(l = JVal.arr xs ∧ r = JVal.arr ys) := by
                  intro xs ys hh
                  exact harr ⟨xs, ys, hh⟩
                have h5obj : ∀ fs gs, ¬(l = JVal.obj fs ∧ r = JVal.obj gs) := by
                  intro fs gs hh
                  exact hobj ⟨fs, gs, hh⟩
                rw [buildDiff_modified l r [] h2 h3 h4' h4arr h5obj] at he
                rw [List.mem_singleton] at he
                subst he
                exact ⟨fun hst => DiffStatus.noConfusion hst,
                  fun hst => DiffStatus.noConfusion hst,
                  fun _ => ⟨h2, h3⟩, rfl, rfl, h4', rfl, rfl⟩
termination_by l r _ _ => sizeJ l + sizeJ r
decreasing_by
  · subst_vars
    have hx := sizeJ_getIdx_lt xs j
    have hy := sizeJ_getIdx_lt ys j
    have ha : sizeJ (JVal.arr xs) = sizeA xs + 1 := rfl
    have hb : sizeJ (JVal.arr ys) = sizeA ys + 1 := rfl
    omega
  · subst_vars
    have hx := sizeJ_getProp_lt fs k
    have hy := sizeJ_getProp_lt gs k
    have ha : sizeJ (JVal.obj fs) = sizeO fs + 1 := rfl
    have hb : sizeJ (JVal.obj gs) = sizeO gs + 1 := rfl
    omega

/-! ## Claim C9 -/

/-- Claim C9: for every pair of inputs and every entry `diff` produces, an
Added entry carries no left value (absent — `undefined` — not null) and does
carry a right value; a Removed entry carries no right value; a Modified
entry carries both; and no entry is ever produced for a path at which the
two sides' values are deep-equal. -/
theorem claim_C9 (l r : JVal) (e : DiffEntry) (he : e ∈ buildDiff l r []) :
    (e.status = .added → e.valueLeft = .undef ∧ e.valueRight ≠ .undef)
    ∧ (e.status = .removed → e.valueRight = .undef ∧ e.valueLeft ≠ .undef)
    ∧ (e.status = .modified → e.valueLeft ≠ .undef ∧ e.valueRight ≠ .undef)
    ∧ isDeepEqual (getAtPath l e.path) (getAtPath r e.path) = false := by
  obtain ⟨ia, ir, im, -, -, ine, -, -⟩ := diffEntry_facts l r e he
  exact ⟨fun h => ⟨(ia h).1, (ia h).2.1⟩, fun h => ⟨(ir h).1, (ir h).2.1⟩, im, ine⟩

/-- Witness for C9 at the concrete pair `1` vs `2`: the single modified
entry carries both values, and the sides are not deep-equal at its path. -/
theorem claim_C9_witness :
    (⟨[], .modified, .num 1, .num 2⟩ : DiffEntry).valueLeft ≠ .undef
    ∧ isDeepEqual (getAtPath (.num 1) []) (getAtPath (.num 2) []) = false := by
  have hbd : buildDiff (.num 1) (.num 2) [] = [⟨[], .modified, .num 1, .num 2⟩] :=
    buildDiff_modified _ _ _ (by decide) (by decide) (by decide)
      (by rintro xs ys ⟨hh, -⟩; exact JVal.noConfusion hh)
      (by rintro fs gs ⟨hh, -⟩; exact JVal.noConfusion hh)
  have h := claim_C9 (.num 1) (.num 2) ⟨[], .modified, .num 1, .num 2⟩
    (by rw [hbd]; exact List.mem_singleton_self _)
  exact ⟨(h.2.2.1 rfl).1, h.2.2.2⟩

/-! ## Machinery for C1: removal empties the addressed slot -/

/-- The path addresses an existing node whose removal empties the slot: the
spine exists, and the final segment deletes at an Object parent, or at the
final index of its Array parent (an earlier array index would shift its
successors into the removed slot). -/
def removeLastOkB (v : JVal) (p : List PathSegment) : Bool :=
  match v, p with
  | _, [] => false
  | .obj fs, [s] => fs.containsKey (segToKey s)
  | .arr xs, [s] =>
      match arrIndex? s with
      | some n => n + 1 == xs.length
      | none => false
  | .obj fs, s :: t =>
      fs.containsKey (segToKey s) && removeLastOkB (fs.getProp (segToKey s)) t
  | .arr xs, s :: t =>
      match arrIndex? s with
      | some n => decide (n < xs.length) && removeLastOkB (xs.getIdx n) t
      | none => false
  | _, _ :: _ => false

theorem getAtPath_removeValueAtPath (p : List PathSegment) (v : JVal)
    (h : removeLastOkB v p = true) :
    getAtPath (removeValueAtPath v p) p = .undef := by
  induction p generalizing v with
  | nil => simp [removeLastOkB] at h
  | cons s t ih =>
      cases v with
      | obj fs =>
          cases t with
          | nil =>
              rw [removeLastOkB] at h
              rw [removeValueAtPath_obj_final fs s h, getAtPath_obj,
                JObj.getProp_eraseKey_self, getAtPath_nil]
          | cons s' t' =>
              rw [removeLastOkB] at h
              case x => simp
              simp only [Bool.and_eq_true] at h
              rw [removeValueAtPath_obj_rec fs s (s' :: t') (by simp) h.1,
                getAtPath_obj, JObj.getProp_setKey_self]
              exact ih _ h.2
      | arr xs =>
          cases t with
          | nil =>
              rw [removeLastOkB] at h
              rcases hn : arrIndex? s with _ | n
              · rw [hn] at h; exact Bool.noConfusion h
              · rw [hn] at h
                simp only [beq_iff_eq] at h
                rw [removeValueAtPath_arr_final xs s (n : Int)
                  (segToNumber_of_arrIndex s n hn) (by omega) (by omega)]
                rw [getAtPath_arr_some _ s [] n hn, getAtPath_nil]
                apply JArr.getIdx_of_length_le
                rw [show ((n : Int)).toNat = n by omega]
                rw [JArr.length_eraseIdx xs n (by omega)]
                omega
          | cons s' t' =>
              rw [removeLastOkB] at h
              case x => simp
              rcases hn : arrIndex? s with _ | n
              · rw [hn] at h; exact Bool.noConfusion h
              · rw [hn] at h
                simp only [Bool.and_eq_true, decide_eq_true_eq] at h
                rw [removeValueAtPath_arr_rec xs s (s' :: t') n (by simp) hn h.1,
                  getAtPath_arr_some _ s _ n hn, JArr.getIdx_setPad_self]
                exact ih _ h.2
      | undef => simp [removeLastOkB] at h
      | null => simp [removeLastOkB] at h
      | bool b => simp [removeLastOkB] at h
      | num n => simp [removeLastOkB] at h
      | str s0 => simp [removeLastOkB] at h

theorem wf_getAtPath (p : List PathSegment) (v : JVal) (h : wf v = true) :
    wf (getAtPath v p) = true := by
  induction p generalizing v with
  | nil => exact h
  | cons s t ih =>
      cases v with
      | arr xs =>
          rcases hn : arrIndex? s with _ | n
          · rw [getAtPath_arr_none xs s t hn]; rfl
          · rw [getAtPath_arr_some xs s t n hn]
            exact ih _ (wf_getIdx xs n h)
      | obj fs =>
          rw [getAtPath_obj]
          exact ih _ (wf_getProp fs (segToKey s) h)
      | undef => rw [getAtPath_scalar _ _ _ (by rfl)]; rfl
      | null => rw [getAtPath_scalar _ _ _ (by rfl)]; rfl
      | bool b => rw [getAtPath_scalar _ _ _ (by rfl)]; rfl
      | num n => rw [getAtPath_scalar _ _ _ (by rfl)]; rfl
      | str s0 => rw [getAtPath_scalar _ _ _ (by rfl)]; rfl

/-! ## Claim C1 -/

/-- Counterexample to C1's second sentence as stated: for `left = [1,2]` and
`right = []`, the first diff entry is Removed at index 0; merging it to the
left removes element 0, the former element 2 shifts into index 0, and the
left tree then holds a value at the entry's path although the right side has
none there. -/
theorem claim_C1_counterexample :
    (⟨[.idx 0], .removed, .num 1, .undef⟩ : DiffEntry) ∈
      buildDiff (.arr (JArr.ofList [.num 1, .num 2])) (.arr .nil) []
    ∧ applyChangeLeft (.arr (JArr.ofList [.num 1, .num 2]))
        ⟨[.idx 0], .removed, .num 1, .undef⟩ = .arr (JArr.ofList [.num 2])
    ∧ getAtPath (applyChangeLeft (.arr (JArr.ofList [.num 1, .num 2]))
        ⟨[.idx 0], .removed, .num 1, .undef⟩) [.idx 0] = .num 2
    ∧ getAtPath (.arr .nil) [.idx 0] = .undef := by
  refine ⟨?_, by decide, by decide, by decide⟩
  have hbd : buildDiff (.arr (JArr.ofList [.num 1, .num 2])) (.arr .nil) [] =
      [⟨[.idx 0], .removed, .num 1, .undef⟩, ⟨[.idx 1], .removed, .num 2, .undef⟩] := by
    simp [buildDiff, diffElems, JArr.ofList, isDeepEqual, eqElems, strictEq,
      typeofJ, cloneDeep, JArr.length]
  rw [hbd]
  simp

/-- Claim C1 (amended): merging an entry of `diff(left, right)` toward the
left uses `setValueAtPath` with the entry's right value for Added/Modified
and `removeValueAtPath` for Removed; toward the right is the mirror.  After
the operation the chosen side's tree holds, at the entry's path, a value
equal (hence deep-equal) to the other side's value there — except that for a
removal the emptying of the slot additionally requires the final segment to
delete at an Object parent or at the final index of its Array parent
(`removeLastOkB`): removing an earlier array element shifts its successors
into the removed slot, so the path can remain occupied. -/
theorem claim_C1 (l r : JVal) (e : DiffEntry) (he : e ∈ buildDiff l r [])
    (hwl : wf l = true) (hwr : wf r = true) :
    (e.status = .removed → applyChangeLeft l e = removeValueAtPath l e.path)
    ∧ (e.status ≠ .removed →
        applyChangeLeft l e = setValueAtPath l e.path e.valueRight)
    ∧ (e.status = .added → applyChangeRight r e = removeValueAtPath r e.path)
    ∧ (e.status ≠ .added →
        applyChangeRight r e = setValueAtPath r e.path e.valueLeft)
    ∧ (e.status ≠ .removed →
        getAtPath (applyChangeLeft l e) e.path = getAtPath r e.path
        ∧ isDeepEqual (getAtPath (applyChangeLeft l e) e.path)
            (getAtPath r e.path) = true)
    ∧ (e.status = .removed → removeLastOkB l e.path = true →
        getAtPath (applyChangeLeft l e) e.path = .undef
        ∧ getAtPath r e.path = .undef)
    ∧ (e.status ≠ .added →
        getAtPath (applyChangeRight r e) e.path = getAtPath l e.path
        ∧ isDeepEqual (getAtPath (applyChangeRight r e) e.path)
            (getAtPath l e.path) = true)
    ∧ (e.status = .added → removeLastOkB r e.path = true →
        getAtPath (applyChangeRight r e) e.path = .undef
        ∧ getAtPath l e.path = .undef) := by
  obtain ⟨ia, ir, im, ivl, ivr, ine, isl, isr⟩ := diffEntry_facts l r e he
  refine ⟨?_, ?_, ?_, ?_, ?_, ?_, ?_, ?_⟩
  · intro h; simp [applyChangeLeft, h]
  · intro h; simp [applyChangeLeft, h]
  · intro h; simp [applyChangeRight, h]
  · intro h; simp [applyChangeRight, h]
  · intro h
    have hset : applyChangeLeft l e = setValueAtPath l e.path e.valueRight := by
      simp [applyChangeLeft, h]
    have heq : getAtPath (applyChangeLeft l e) e.path = getAtPath r e.path := by
      rw [hset, ivr]
      exact getAtPath_setValueAtPath e.path l (getAtPath r e.path) isl
    exact ⟨heq, by rw [heq]; exact isDeepEqual_refl _ (wf_getAtPath e.path r hwr)⟩
  · intro h hok
    have hrem : applyChangeLeft l e = removeValueAtPath l e.path := by
      simp [applyChangeLeft, h]
    refine ⟨by rw [hrem]; exact getAtPath_removeValueAtPath e.path l hok, ?_⟩
    rw [← ivr]
    exact (ir h).1
  · intro h
    have hset : applyChangeRight r e = setValueAtPath r e.path e.valueLeft := by
      simp [applyChangeRight, h]
    have heq : getAtPath (applyChangeRight r e) e.path = getAtPath l e.path := by
      rw [hset, ivl]
      exact getAtPath_setValueAtPath e.path r (getAtPath l e.path) isr
    exact ⟨heq, by rw [heq]; exact isDeepEqual_refl _ (wf_getAtPath e.path l hwl)⟩
  · intro h hok
    have hrem : applyChangeRight r e = removeValueAtPath r e.path := by
      simp [applyChangeRight, h]
    refine ⟨by rw [hrem]; exact getAtPath_removeValueAtPath e.path r hok, ?_⟩
    rw [← ivl]
    exact (ia h).1

/-- Witness for C1 at concrete inputs: merging the single modified entry of
`diff(1, 2)` to the left makes the left root `2`; merging the removed entry
of `diff([5], [])` to the left (a removal at the final array index) empties
index 0. -/
theorem claim_C1_witness :
    getAtPath (applyChangeLeft (.num 1) ⟨[], .modified, .num 1, .num 2⟩) []
      = getAtPath (.num 2) []
    ∧ getAtPath (applyChangeLeft (.arr (JArr.ofList [.num 5]))
        ⟨[.idx 0], .removed, .num 5, .undef⟩) [.idx 0] = .undef := by
  constructor
  · have hbd : buildDiff (.num 1) (.num 2) [] = [⟨[], .modified, .num 1, .num 2⟩] :=
      buildDiff_modified _ _ _ (by decide) (by decide) (by decide)
        (by rintro xs ys ⟨hh, -⟩; exact JVal.noConfusion hh)
        (by rintro fs gs ⟨hh, -⟩; exact JVal.noConfusion hh)
    exact ((claim_C1 (.num 1) (.num 2) ⟨[], .modified, .num 1, .num 2⟩
      (by rw [hbd]; exact List.mem_singleton_self _) (by decide) (by decide)).2.2.2.2.1
      (by decide)).1
  · have hbd : buildDiff (.arr (JArr.ofList [.num 5])) (.arr .nil) [] =
        [⟨[.idx 0], .removed, .num 5, .undef⟩] := by
      simp [buildDiff, diffElems, JArr.ofList, isDeepEqual, eqElems, strictEq,
        typeofJ, cloneDeep, JArr.length]
    exact ((claim_C1 (.arr (JArr.ofList [.num 5])) (.arr .nil)
      ⟨[.idx 0], .removed, .num 5, .undef⟩
      (by rw [hbd]; exact List.mem_singleton_self _) (by decide) (by decide)).2.2.2.2.2.1
      rfl (by decide)).1

/-! ## Further structural lemmas, towards convergence (C2) -/

@[simp] theorem JObj.containsKey_setKey_self :
    ∀ (o : JObj) (k : String) (v : JVal), (o.setKey k v).containsKey k = true
  | .nil, k, v => by simp [JObj.setKey, JObj.containsKey]
  | .cons k' w t, k, v => by
      by_cases h : k' = k
      · subst h; simp [JObj.setKey, JObj.containsKey]
      · simp [JObj.setKey, JObj.containsKey, show (k' == k) = false by simp [h],
          JObj.containsKey_setKey_self t k v]

theorem JObj.containsKey_setKey_ne :
    ∀ (o : JObj) (k k' : String) (v : JVal), k' ≠ k →
      (o.setKey k v).containsKey k' = o.containsKey k'
  | .nil, k, k', v, h => by
      simp [JObj.setKey, JObj.containsKey,
        show (k == k') = false by simp; exact fun he => h he.symm]
  | .cons k0 w t, k, k', v, h => by
      by_cases h0 : k0 = k
      · subst h0
        simp [JObj.setKey, JObj.containsKey]
      · simp only [JObj.setKey, show (k0 == k) = false by simp [h0], if_false,
          JObj.containsKey]
        rw [JObj.containsKey_setKey_ne t k k' v h]

theorem JObj.containsKey_eraseKey_ne :
    ∀ (o : JObj) (k k' : String), k' ≠ k →
      (o.eraseKey k).containsKey k' = o.containsKey k'
  | .nil, k, k', h => rfl
  | .cons k0 w t, k, k', h => by
      by_cases h0 : k0 = k
      · subst h0
        have : (k0 == k') = false := by simp; exact fun he => h he.symm
        simp [JObj.eraseKey, JObj.containsKey, this,
          JObj.containsKey_eraseKey_ne t _ _ h]
      · simp only [JObj.eraseKey, show (k0 == k) = false by simp [h0], if_false,
          JObj.containsKey]
        rw [JObj.containsKey_eraseKey_ne t k k' h]

theorem JObj.setKey_getProp_self :
    ∀ (o : JObj) (k : String), o.containsKey k = true →
      o.setKey k (o.getProp k) = o
  | .nil, k, h => by simp [JObj.containsKey] at h
  | .cons k0 w t, k, h => by
      by_cases h0 : k0 = k
      · subst h0; simp [JObj.setKey, JObj.getProp]
      · have h0' : (k0 == k) = false := by simp [h0]
        simp only [JObj.containsKey, h0', Bool.false_or] at h
        simp [JObj.setKey, JObj.getProp, h0', JObj.setKey_getProp_self t k h]

theorem JArr.setPad_getIdx_self :
    ∀ (a : JArr) (i : Nat), i < a.length → a.setPad i (a.getIdx i) = a
  | .nil, i, h => by simp [JArr.length] at h
  | .cons x t, 0, _ => rfl
  | .cons x t, i + 1, h => by
      simp only [JArr.length] at h
      simp [JArr.setPad, JArr.getIdx, JArr.setPad_getIdx_self t i (by omega)]

theorem JObj.getProp_ne_undef_of_contains (fs : JObj) (k : String)
    (hn : noUndefO fs = true) (hc : fs.containsKey k = true) :
    fs.getProp k ≠ .undef := by
  intro hu
  have := noUndefO_mem fs k _ hn (JObj.mem_toListO_getProp fs k hc)
  rw [hu] at this
  exact Bool.noConfusion this

theorem JObj.containsKey_iff_getProp_ne (fs : JObj) (k : String)
    (hn : noUndefO fs = true) :
    fs.containsKey k = true ↔ fs.getProp k ≠ .undef := by
  constructor
  · exact JObj.getProp_ne_undef_of_contains fs k hn
  · intro h
    rcases hc : fs.containsKey k with _ | _
    · exact absurd (JObj.getProp_eq_undef_of_not_contains fs k hc) h
    · rfl

theorem eq_undef_of_isDeepEqual_undef_left (r : JVal)
    (h : isDeepEqual .undef r = true) : r = .undef := by
  by_contra hc
  rw [isDeepEqual_undef_left r hc] at h
  exact Bool.noConfusion h

theorem eq_undef_of_isDeepEqual_undef_right (l : JVal)
    (h : isDeepEqual l .undef = true) : l = .undef := by
  by_contra hc
  rw [isDeepEqual_undef_right l hc] at h
  exact Bool.noConfusion h

theorem dedupFirst_mem : ∀ (l : List String) (x : String),
    x ∈ dedupFirst l ↔ x ∈ l
  | [], x => by simp [dedupFirst]
  | k :: rest, x => by
      rw [dedupFirst]
      simp only [List.mem_cons]
      constructor
      · rintro (h | h)
        · exact Or.inl h
        · have := (dedupFirst_mem (rest.filter (fun s => s ≠ k)) x).mp h
          simp only [List.mem_filter] at this
          exact Or.inr this.1
      · rintro (h | h)
        · exact Or.inl h
        · by_cases he : x = k
          · exact Or.inl he
          · refine Or.inr ((dedupFirst_mem (rest.filter (fun s => s ≠ k)) x).mpr ?_)
            simp only [List.mem_filter, decide_eq_true_eq]
            exact ⟨h, he⟩
termination_by l _ => l.length
decreasing_by
  all_goals exact Nat.lt_succ_of_le (List.length_filter_le _ _)

theorem dedupFirst_nodup : ∀ l : List String, (dedupFirst l).Nodup
  | [] => by simp [dedupFirst]
  | k :: rest => by
      rw [dedupFirst]
      refine List.nodup_cons.mpr ⟨?_, dedupFirst_nodup _⟩
      intro hmem
      have := (dedupFirst_mem _ k).mp hmem
      simp only [List.mem_filter, decide_eq_true_eq] at this
      exact this.2 rfl
termination_by l => l.length
decreasing_by
  all_goals exact Nat.lt_succ_of_le (List.length_filter_le _ _)

theorem keysUnion_mem (ks ls : List String) (x : String) :
    x ∈ keysUnion ks ls ↔ x ∈ ks ∨ x ∈ ls := by
  rw [keysUnion, dedupFirst_mem, List.mem_append]

theorem keysUnion_nodup (ks ls : List String) : (keysUnion ks ls).Nodup :=
  dedupFirst_nodup _

/-- Whether the last segment of a path is an array index. -/
def lastIsIdx : List PathSegment → Bool
  | [] => false
  | [.idx _] => true
  | [.key _] => false
  | _ :: t => lastIsIdx t

theorem lastIsIdx_cons (s : PathSegment) (t : List PathSegment) (h : t ≠ []) :
    lastIsIdx (s :: t) = lastIsIdx t := by
  cases t with
  | nil => exact absurd rfl h
  | cons s' t' => cases s <;> rfl

/-! ## Applying a child diff group through a container (convergence machinery) -/

/-- Common shape of the two `applyChange` directions: one status removes at
the entry's path, the other statuses set a chosen value there. -/
def applyDir (rem : DiffStatus) (pick : DiffEntry → JVal) (t : JVal)
    (e : DiffEntry) : JVal :=
  if e.status = rem then removeValueAtPath t e.path
  else setValueAtPath t e.path (pick e)

theorem applyChangeLeft_eq_applyDir (t : JVal) (e : DiffEntry) :
    applyChangeLeft t e = applyDir .removed DiffEntry.valueRight t e := rfl

theorem applyChangeRight_eq_applyDir (t : JVal) (e : DiffEntry) :
    applyChangeRight t e = applyDir .added DiffEntry.valueLeft t e := rfl

/-- Pushing one prefixed entry through an object key is setting/removing
inside that key's value (when the key is present and a root-removal is not
among the entries). -/
theorem applyDir_obj_step (rem : DiffStatus) (pick : DiffEntry → JVal)
    (hpick : ∀ (p : List PathSegment) (e : DiffEntry), pick (prependEntry p e) = pick e)
    (os : JObj) (k : String) (e : DiffEntry)
    (hc : os.containsKey k = true)
    (hne : ¬ (e.status = rem ∧ e.path = [])) :
    applyDir rem pick (.obj os) (prependEntry [.key k] e) =
      .obj (os.setKey k (applyDir rem pick (os.getProp k) e)) := by
  have hpath : (prependEntry [.key k] e).path = .key k :: e.path := rfl
  have hstat : (prependEntry [.key k] e).status = e.status := rfl
  by_cases hs : e.status = rem
  · have hp : e.path ≠ [] := fun h => hne ⟨hs, h⟩
    simp only [applyDir, hstat, hs, if_true, hpath]
    rw [removeValueAtPath_obj_rec os (.key k) e.path hp hc]
    rfl
  · simp only [applyDir, hstat, hs, if_false, hpath, hpick]
    rw [setValueAtPath_obj]
    by_cases hp : e.path = []
    · simp [hp, setValueAtPath, cloneDeep, segToKey]
    · have hlen : e.path.length ≠ 0 := by simpa using hp
      simp [hlen, segToKey]

/-- Pushing one prefixed entry through an array index is setting/removing
inside that element (when the index is in range and a root-removal is not
among the entries). -/
theorem applyDir_arr_step (rem : DiffStatus) (pick : DiffEntry → JVal)
    (hpick : ∀ (p : List PathSegment) (e : DiffEntry), pick (prependEntry p e) = pick e)
    (zs : JArr) (i : Nat) (e : DiffEntry)
    (hi : i < zs.length)
    (hne : ¬ (e.status = rem ∧ e.path = [])) :
    applyDir rem pick (.arr zs) (prependEntry [.idx (i : Int)] e) =
      .arr (zs.setPad i (applyDir rem pick (zs.getIdx i) e)) := by
  have hpath : (prependEntry [.idx (i : Int)] e).path = .idx (i : Int) :: e.path := rfl
  have hstat : (prependEntry [.idx (i : Int)] e).status = e.status := rfl
  by_cases hs : e.status = rem
  · have hp : e.path ≠ [] := fun h => hne ⟨hs, h⟩
    simp only [applyDir, hstat, hs, if_true, hpath]
    rw [removeValueAtPath_arr_rec zs (.idx (i : Int)) e.path i hp (arrIndex?_idx_nat i) hi]
  · simp only [applyDir, hstat, hs, if_false, hpath, hpick]
    rw [setValueAtPath_arr_some zs (.idx (i : Int)) e.path (pick e) i (arrIndex?_idx_nat i)]
    by_cases hp : e.path = []
    · simp [hp, setValueAtPath, cloneDeep]
    · have hlen : e.path.length ≠ 0 := by simpa using hp
      simp [hlen]

/-- Folding a whole prefixed group through an object key. -/
theorem applyDir_obj_group (rem : DiffStatus) (pick : DiffEntry → JVal)
    (hpick : ∀ (p : List PathSegment) (e : DiffEntry), pick (prependEntry p e) = pick e) :
    ∀ (es : List DiffEntry) (os : JObj) (k : String),
      os.containsKey k = true →
      (∀ e ∈ es, ¬ (e.status = rem ∧ e.path = [])) →
      List.foldl (applyDir rem pick) (.obj os) (es.map (prependEntry [.key k])) =
        .obj (os.setKey k (List.foldl (applyDir rem pick) (os.getProp k) es))
  | [], os, k, hc, _ => by
      simp [JObj.setKey_getProp_self os k hc]
  | e :: rest, os, k, hc, hne => by
      simp only [List.map_cons, List.foldl_cons]
      rw [applyDir_obj_step rem pick hpick os k e hc (hne e (List.mem_cons_self e rest))]
      rw [applyDir_obj_group rem pick hpick rest
        (os.setKey k (applyDir rem pick (os.getProp k) e)) k
        (JObj.containsKey_setKey_self os k _)
        (fun e' h => hne e' (List.mem_cons_of_mem _ h))]
      rw [JObj.getProp_setKey_self, JObj.setKey_setKey]

/-- Folding a whole prefixed group through an array element. -/
theorem applyDir_arr_group (rem : DiffStatus) (pick : DiffEntry → JVal)
    (hpick : ∀ (p : List PathSegment) (e : DiffEntry), pick (prependEntry p e) = pick e) :
    ∀ (es : List DiffEntry) (zs : JArr) (i : Nat),
      i < zs.length →
      (∀ e ∈ es, ¬ (e.status = rem ∧ e.path = [])) →
      List.foldl (applyDir rem pick) (.arr zs) (es.map (prependEntry [.idx (i : Int)])) =
        .arr (zs.setPad i (List.foldl (applyDir rem pick) (zs.getIdx i) es))
  | [], zs, i, hi, _ => by
      simp [JArr.setPad_getIdx_self zs i hi]
  | e :: rest, zs, i, hi, hne => by
      simp only [List.map_cons, List.foldl_cons]
      rw [applyDir_arr_step rem pick hpick zs i e hi (hne e (List.mem_cons_self e rest))]
      rw [applyDir_arr_group rem pick hpick rest
        (zs.setPad i (applyDir rem pick (zs.getIdx i) e)) i
        (by rw [JArr.length_setPad]; omega)
        (fun e' h => hne e' (List.mem_cons_of_mem _ h))]
      rw [JArr.getIdx_setPad_self, JArr.setPad_setPad]

/-- A child diff of two present values never asks to remove the child root:
a removed entry carries `undefined` on the right, but the right value at the
root is the (present) right child. -/
theorem no_root_removed (x y : JVal) (hy : y ≠ .undef) :
    ∀ e ∈ buildDiff x y [], ¬ (e.status = .removed ∧ e.path = []) := by
  intro e he hc
  obtain ⟨hs, hp⟩ := hc
  obtain ⟨-, hrem, -, -, hvr, -, -, -⟩ := diffEntry_facts x y e he
  apply hy
  have h1 := (hrem hs).1
  rw [hvr, hp] at h1
  exact h1

/-- Mirror: a child diff of two present values never asks to add at the
child root. -/
theorem no_root_added (x y : JVal) (hx : x ≠ .undef) :
    ∀ e ∈ buildDiff x y [], ¬ (e.status = .added ∧ e.path = []) := by
  intro e he hc
  obtain ⟨hs, hp⟩ := hc
  obtain ⟨hadd, -, -, hvl, -, -, -, -⟩ := diffEntry_facts x y e he
  apply hx
  have h1 := (hadd hs).1
  rw [hvl, hp] at h1
  exact h1

theorem applyChangeLeft_fun : applyChangeLeft = applyDir .removed DiffEntry.valueRight := rfl

theorem applyChangeRight_fun : applyChangeRight = applyDir .added DiffEntry.valueLeft := rfl

/-- Folding the left-direction applications of `diffElems xs ys [] i` over an
array state whose tail from position `i` on is `xs` converges that tail to
`ys`, provided no removed entry's path ends in an array index (which rules
out the shifting removals) and the per-element convergence is available as
an induction hypothesis. -/
theorem convergeArrLeft (N : Nat)
    (IH : ∀ x y : JVal, sizeJ x + sizeJ y ≤ N →
      noUndef x = true → noUndef y = true → wf x = true → wf y = true →
      (∀ e ∈ buildDiff x y [], e.status = .removed → lastIsIdx e.path = false) →
      isDeepEqual (List.foldl applyChangeLeft x (buildDiff x y [])) y = true) :
    ∀ (xs ys : JArr) (i : Nat) (zs : JArr),
      sizeA xs + sizeA ys ≤ N →
      noUndefA xs = true → noUndefA ys = true →
      wfA xs = true → wfA ys = true →
      zs.length = i + xs.length →
      (∀ j : Nat, zs.getIdx (i + j) = xs.getIdx j) →
      (∀ e ∈ diffElems xs ys [] i, e.status = .removed → lastIsIdx e.path = false) →
      ∃ ws : JArr,
        List.foldl applyChangeLeft (.arr zs) (diffElems xs ys [] i) = .arr ws ∧
        ws.length = i + ys.length ∧
        (∀ j : Nat, j < i → ws.getIdx j = zs.getIdx j) ∧
        (∀ j : Nat, j < ys.length → isDeepEqual (ws.getIdx (i + j)) (ys.getIdx j) = true)
  | .nil, .nil, i, zs, _, _, _, _, _, hlen, _, _ => by
      have hdE : diffElems .nil .nil [] i = [] := by rw [diffElems.eq_def]
      rw [hdE]
      refine ⟨zs, rfl, ?_, fun j _ => rfl, fun j hj => ?_⟩
      · simpa [JArr.length] using hlen
      · simp [JArr.length] at hj
  | .cons x xt, .nil, i, zs, _, hnx, _, _, _, _, _, hH => by
      exfalso
      simp only [noUndefA, Bool.and_eq_true] at hnx
      have hx : x ≠ .undef := fun he => by rw [he] at hnx; exact Bool.noConfusion hnx.1
      have hdE : diffElems (JArr.cons x xt) .nil [] i =
          buildDiff x .undef [.idx (i : Int)] ++ diffElems xt .nil [] (i + 1) := by
        rw [diffElems.eq_def]; rfl
      have hmem : (⟨[.idx (i : Int)], .removed, x, .undef⟩ : DiffEntry) ∈
          diffElems (JArr.cons x xt) .nil [] i := by
        rw [hdE, buildDiff_removed x [.idx (i : Int)] hx]
        exact List.mem_append_left _ (List.mem_singleton_self _)
      have hlast := hH _ hmem rfl
      simp [lastIsIdx] at hlast
  | .nil, .cons y yt, i, zs, hb, hnx, hny, hwx, hwy, hlen, hst, hH => by
      simp only [noUndefA, Bool.and_eq_true] at hny
      simp only [wfA, Bool.and_eq_true] at hwy
      have hy : y ≠ .undef := fun he => by rw [he] at hny; exact Bool.noConfusion hny.1
      have hzlen : zs.length = i := by simpa [JArr.length] using hlen
      have hdE : diffElems .nil (JArr.cons y yt) [] i =
          buildDiff .undef y [.idx (i : Int)] ++ diffElems .nil yt [] (i + 1) := by
        rw [diffElems.eq_def]; rfl
      rw [hdE, buildDiff_added y [.idx (i : Int)] hy]
      simp only [List.singleton_append, List.foldl_cons]
      have hstep : applyChangeLeft (.arr zs) ⟨[.idx (i : Int)], .added, .undef, y⟩ =
          .arr (zs.setPad i y) := by
        show setValueAtPath (.arr zs) [.idx (i : Int)] y = _
        rw [setValueAtPath_arr_some zs (.idx (i : Int)) [] y i (arrIndex?_idx_nat i)]
        simp
      rw [hstep]
      have hb' : sizeA .nil + sizeA yt ≤ N := by
        have h2 : sizeA (JArr.cons y yt) = sizeJ y + sizeA yt + 1 := by simp only [sizeA]
        have := sizeJ_pos y
        rw [h2] at hb
        omega
      obtain ⟨ws, hfold, hwlen, hwpre, hwconv⟩ :=
        convergeArrLeft N IH .nil yt (i + 1) (zs.setPad i y) hb' rfl hny.2 rfl hwy.2
          (by rw [JArr.length_setPad]; simp [JArr.length]; omega)
          (fun j => by
            rw [JArr.getIdx_setPad_ne zs i (i + 1 + j) y (by omega)]
            exact JArr.getIdx_of_length_le zs (i + 1 + j) (by omega))
          (fun e he => hH e (by rw [hdE]; exact List.mem_append_right _ he))
      refine ⟨ws, hfold, ?_, ?_, ?_⟩
      · rw [hwlen]; simp [JArr.length]; omega
      · intro j hj
        rw [hwpre j (by omega)]
        exact JArr.getIdx_setPad_ne zs i j y (by omega)
      · intro j hj
        cases j with
        | zero =>
            have h1 : ws.getIdx (i + 0) = (zs.setPad i y).getIdx i := by
              simpa using hwpre i (by omega)
            rw [h1, JArr.getIdx_setPad_self]
            exact isDeepEqual_refl y hwy.1
        | succ j' =>
            have h1 := hwconv j' (by simpa [JArr.length] using hj)
            have harith : i + (j' + 1) = i + 1 + j' := by omega
            rw [harith]
            exact h1
  | .cons x xt, .cons y yt, i, zs, hb, hnx, hny, hwx, hwy, hlen, hst, hH => by
      simp only [noUndefA, Bool.and_eq_true] at hnx hny
      simp only [wfA, Bool.and_eq_true] at hwx hwy
      have hy : y ≠ .undef := fun he => by rw [he] at hny; exact Bool.noConfusion hny.1
      have hi : i < zs.length := by simp [JArr.length] at hlen; omega
      have hdE : diffElems (JArr.cons x xt) (JArr.cons y yt) [] i =
          buildDiff x y [.idx (i : Int)] ++ diffElems xt yt [] (i + 1) := by
        rw [diffElems.eq_def]; rfl
      rw [hdE, buildDiff_prep_nil x y [.idx (i : Int)], List.foldl_append,
        applyChangeLeft_fun]
      have hz0 : zs.getIdx i = x := by simpa using hst 0
      rw [applyDir_arr_group .removed DiffEntry.valueRight (fun _ _ => rfl)
        (buildDiff x y []) zs i hi (no_root_removed x y hy), hz0]
      have hHchild : ∀ e' ∈ buildDiff x y [],
          e'.status = .removed → lastIsIdx e'.path = false := by
        intro e' he' hs'
        cases hp : e'.path with
        | nil => rfl
        | cons s t =>
            have hmem : prependEntry [.idx (i : Int)] e' ∈
                diffElems (JArr.cons x xt) (JArr.cons y yt) [] i := by
              rw [hdE, buildDiff_prep_nil x y [.idx (i : Int)]]
              exact List.mem_append_left _ (List.mem_map_of_mem _ he')
            have h1 := hH _ hmem hs'
            rw [show (prependEntry [.idx (i : Int)] e').path =
              .idx (i : Int) :: e'.path from rfl, hp,
              lastIsIdx_cons _ _ (by simp)] at h1
            exact h1
      have hbx : sizeJ x + sizeJ y ≤ N := by
        have h1 : sizeA (JArr.cons x xt) = sizeJ x + sizeA xt + 1 := by simp only [sizeA]
        have h2 : sizeA (JArr.cons y yt) = sizeJ y + sizeA yt + 1 := by simp only [sizeA]
        have := sizeA_pos xt
        have := sizeA_pos yt
        rw [h1, h2] at hb
        omega
      have hIH := IH x y hbx hnx.1 hny.1 hwx.1 hwy.1 hHchild
      rw [applyChangeLeft_fun] at hIH
      have hb' : sizeA xt + sizeA yt ≤ N := by
        have h1 : sizeA (JArr.cons x xt) = sizeJ x + sizeA xt + 1 := by simp only [sizeA]
        have h2 : sizeA (JArr.cons y yt) = sizeJ y + sizeA yt + 1 := by simp only [sizeA]
        have := sizeJ_pos x
        have := sizeJ_pos y
        rw [h1, h2] at hb
        omega
      obtain ⟨ws, hfold, hwlen, hwpre, hwconv⟩ :=
        convergeArrLeft N IH xt yt (i + 1)
          (zs.setPad i (List.foldl (applyDir .removed DiffEntry.valueRight) x
            (buildDiff x y [])))
          hb' hnx.2 hny.2 hwx.2 hwy.2
          (by rw [JArr.length_setPad]; simp [JArr.length] at hlen ⊢; omega)
          (fun j => by
            rw [JArr.getIdx_setPad_ne zs i (i + 1 + j) _ (by omega)]
            have h1 := hst (j + 1)
            have harith : i + (j + 1) = i + 1 + j := by omega
            rw [harith] at h1
            exact h1)
          (fun e he => hH e (by rw [hdE]; exact List.mem_append_right _ he))
      rw [applyChangeLeft_fun] at hfold
      refine ⟨ws, hfold, ?_, ?_, ?_⟩
      · rw [hwlen]; simp [JArr.length]; omega
      · intro j hj
        rw [hwpre j (by omega)]
        exact JArr.getIdx_setPad_ne zs i j _ (by omega)
      · intro j hj
        cases j with
        | zero =>
            have h1 : ws.getIdx (i + 0) =
                (zs.setPad i (List.foldl (applyDir .removed DiffEntry.valueRight) x
                  (buildDiff x y []))).getIdx i := by
              simpa using hwpre i (by omega)
            rw [h1, JArr.getIdx_setPad_self]
            exact hIH
        | succ j' =>
            have h1 := hwconv j' (by simpa [JArr.length] using hj)
            have harith : i + (j' + 1) = i + 1 + j' := by omega
            rw [harith]
            exact h1

/-- Folding the left-direction applications of `diffProps keys fs gs []` over
an object state that agrees with `fs` on every key of `keys` converges those
keys to `gs`, leaving the other keys untouched. -/
theorem convergeObjLeft (N : Nat)
    (IH : ∀ x y : JVal, sizeJ x + sizeJ y ≤ N →
      noUndef x = true → noUndef y = true → wf x = true → wf y = true →
      (∀ e ∈ buildDiff x y [], e.status = .removed → lastIsIdx e.path = false) →
      isDeepEqual (List.foldl applyChangeLeft x (buildDiff x y [])) y = true) :
    ∀ (keys : List String) (fs gs os : JObj),
      sizeO fs + sizeO gs ≤ N →
      keys.Nodup →
      noUndefO fs = true → noUndefO gs = true →
      wf (.obj fs) = true → wf (.obj gs) = true →
      os.keys.Nodup →
      (∀ k ∈ keys, os.getProp k = fs.getProp k ∧ os.containsKey k = fs.containsKey k) →
      (∀ e ∈ diffProps keys fs gs [], e.status = .removed → lastIsIdx e.path = false) →
      ∃ ws : JObj,
        List.foldl applyChangeLeft (.obj os) (diffProps keys fs gs []) = .obj ws ∧
        ws.keys.Nodup ∧
        (∀ k, k ∉ keys →
          ws.getProp k = os.getProp k ∧ ws.containsKey k = os.containsKey k) ∧
        (∀ k ∈ keys,
          (gs.getProp k = .undef → ws.getProp k = .undef ∧ ws.containsKey k = false) ∧
          (gs.getProp k ≠ .undef →
            isDeepEqual (ws.getProp k) (gs.getProp k) = true ∧ ws.containsKey k = true))
  | [], fs, gs, os, _, _, _, _, _, _, hnd, _, _ => by
      have hdP : diffProps [] fs gs [] = [] := by rw [diffProps.eq_def]
      rw [hdP]
      exact ⟨os, rfl, hnd, fun k _ => ⟨rfl, rfl⟩, fun k hk => absurd hk (List.not_mem_nil k)⟩
  | k :: rest, fs, gs, os, hb, hkd, hnf, hng, hwf, hwg, hnd, hstate, hH => by
      rw [List.nodup_cons] at hkd
      obtain ⟨hkrest, hrestnd⟩ := hkd
      have hosk := hstate k (List.mem_cons_self k rest)
      have hdP : diffProps (k :: rest) fs gs [] =
          buildDiff (fs.getProp k) (gs.getProp k) [.key k] ++ diffProps rest fs gs [] := by
        rw [diffProps.eq_def]; rfl
      have glue : ∀ os' : JObj, os'.keys.Nodup →
          (∀ k', k' ≠ k →
            os'.getProp k' = os.getProp k' ∧ os'.containsKey k' = os.containsKey k') →
          (gs.getProp k = .undef → os'.getProp k = .undef ∧ os'.containsKey k = false) →
          (gs.getProp k ≠ .undef →
            isDeepEqual (os'.getProp k) (gs.getProp k) = true ∧ os'.containsKey k = true) →
          ∃ ws : JObj,
            List.foldl applyChangeLeft (.obj os') (diffProps rest fs gs []) = .obj ws ∧
            ws.keys.Nodup ∧
            (∀ k', k' ∉ k :: rest →
              ws.getProp k' = os.getProp k' ∧ ws.containsKey k' = os.containsKey k') ∧
            (∀ k' ∈ k :: rest,
              (gs.getProp k' = .undef → ws.getProp k' = .undef ∧ ws.containsKey k' = false) ∧
              (gs.getProp k' ≠ .undef →
                isDeepEqual (ws.getProp k') (gs.getProp k') = true ∧
                  ws.containsKey k' = true)) := by
        intro os' hnd' hrel hku hkp
        obtain ⟨ws, hfold, hwnd, hwout, hwin⟩ :=
          convergeObjLeft N IH rest fs gs os' hb hrestnd hnf hng hwf hwg hnd'
            (fun k' hk' => by
              have hne : k' ≠ k := fun he => hkrest (he ▸ hk')
              rw [(hrel k' hne).1, (hrel k' hne).2]
              exact hstate k' (List.mem_cons_of_mem k hk'))
            (fun e he => hH e (by rw [hdP]; exact List.mem_append_right _ he))
        refine ⟨ws, hfold, hwnd, ?_, ?_⟩
        · intro k' hk'
          have h1 : k' ∉ rest := fun hh => hk' (List.mem_cons_of_mem k hh)
          have h2 : k' ≠ k := fun he => hk' (he ▸ List.mem_cons_self k rest)
          obtain ⟨ha, hb2⟩ := hwout k' h1
          obtain ⟨hc, hd⟩ := hrel k' h2
          exact ⟨ha.trans hc, hb2.trans hd⟩
        · intro k' hk'
          rcases List.mem_cons.mp hk' with he | hmem
          · subst he
            obtain ⟨ha, hb2⟩ := hwout k' hkrest
            constructor
            · intro hu
              obtain ⟨hc, hd⟩ := hku hu
              exact ⟨ha.trans hc, hb2.trans hd⟩
            · intro hu
              obtain ⟨hc, hd⟩ := hkp hu
              rw [ha, hb2]
              exact ⟨hc, hd⟩
          · exact hwin k' hmem
      by_cases hgu : gs.getProp k = .undef
      · by_cases hfu : fs.getProp k = .undef
        · have hnil : buildDiff (fs.getProp k) (gs.getProp k) [.key k] = [] := by
            rw [hfu, hgu]; exact buildDiff_eq_nil _ _ _ (by decide)
          rw [hdP, hnil, List.nil_append]
          have hosu : os.getProp k = .undef := hosk.1.trans hfu
          have hosc : os.containsKey k = false := by
            rw [hosk.2]
            rcases hc : fs.containsKey k with _ | _
            · rfl
            · exact absurd hfu (JObj.getProp_ne_undef_of_contains fs k hnf hc)
          exact glue os hnd (fun k' _ => ⟨rfl, rfl⟩)
            (fun _ => ⟨hosu, hosc⟩) (fun hu => absurd hgu hu)
        · have hone : buildDiff (fs.getProp k) (gs.getProp k) [.key k] =
              [⟨[.key k], .removed, fs.getProp k, .undef⟩] := by
            rw [hgu]; exact buildDiff_removed _ _ hfu
          rw [hdP, hone, List.singleton_append, List.foldl_cons]
          have hosc : os.containsKey k = true := by
            rw [hosk.2]; exact JObj.containsKey_of_getProp_ne fs k hfu
          have hstep : applyChangeLeft (.obj os) ⟨[.key k], .removed, fs.getProp k, .undef⟩ =
              .obj (os.eraseKey k) := by
            show removeValueAtPath (.obj os) [.key k] = _
            exact removeValueAtPath_obj_final os (.key k) hosc
          rw [hstep]
          refine glue (os.eraseKey k) ?_ ?_ (fun _ => ?_) (fun hu => absurd hgu hu)
          · rw [JObj.keys_eraseKey]; exact hnd.filter _
          · intro k' hne
            exact ⟨JObj.getProp_eraseKey_ne os k k' hne,
              JObj.containsKey_eraseKey_ne os k k' hne⟩
          · exact ⟨JObj.getProp_eraseKey_self os k, JObj.containsKey_eraseKey_self os k⟩
      · by_cases hfu : fs.getProp k = .undef
        · have hone : buildDiff (fs.getProp k) (gs.getProp k) [.key k] =
              [⟨[.key k], .added, .undef, gs.getProp k⟩] := by
            rw [hfu]; exact buildDiff_added _ _ hgu
          rw [hdP, hone, List.singleton_append, List.foldl_cons]
          have hosc : os.containsKey k = false := by
            rw [hosk.2]
            rcases hc : fs.containsKey k with _ | _
            · rfl
            · exact absurd hfu (JObj.getProp_ne_undef_of_contains fs k hnf hc)
          have hstep : applyChangeLeft (.obj os) ⟨[.key k], .added, .undef, gs.getProp k⟩ =
              .obj (os.setKey k (gs.getProp k)) := by
            show setValueAtPath (.obj os) [.key k] (gs.getProp k) = _
            rw [setValueAtPath_obj os (.key k) [] (gs.getProp k)]
            simp [segToKey]
          rw [hstep]
          refine glue (os.setKey k (gs.getProp k)) ?_ ?_ (fun hu => absurd hu hgu) (fun _ => ?_)
          · rw [JObj.keys_setKey_not_contains os k _ hosc]
            rw [List.nodup_append]
            refine ⟨hnd, List.nodup_singleton k, ?_⟩
            have hknm : k ∉ os.keys := fun hm => by
              rw [(JObj.containsKey_iff_mem_keys os k).mpr hm] at hosc
              exact Bool.noConfusion hosc
            intro a ha hb2
            rw [List.mem_singleton] at hb2
            subst hb2
            exact hknm ha
          · intro k' hne
            exact ⟨JObj.getProp_setKey_ne os k k' _ hne,
              JObj.containsKey_setKey_ne os k k' _ hne⟩
          · rw [JObj.getProp_setKey_self]
            exact ⟨isDeepEqual_refl _ (wf_getProp gs k hwg), JObj.containsKey_setKey_self os k _⟩
        · -- both keys present: recurse into the child pair
          have hosc : os.containsKey k = true := by
            rw [hosk.2]; exact JObj.containsKey_of_getProp_ne fs k hfu
          rw [hdP, buildDiff_prep_nil (fs.getProp k) (gs.getProp k) [.key k],
            List.foldl_append]
          have hgrp : List.foldl applyChangeLeft (.obj os)
              ((buildDiff (fs.getProp k) (gs.getProp k) []).map (prependEntry [.key k])) =
              .obj (os.setKey k (List.foldl applyChangeLeft (os.getProp k)
                (buildDiff (fs.getProp k) (gs.getProp k) []))) := by
            rw [applyChangeLeft_fun]
            exact applyDir_obj_group .removed DiffEntry.valueRight (fun _ _ => rfl)
              (buildDiff (fs.getProp k) (gs.getProp k) []) os k hosc
              (no_root_removed _ _ hgu)
          rw [hgrp, hosk.1]
          have hHchild : ∀ e' ∈ buildDiff (fs.getProp k) (gs.getProp k) [],
              e'.status = .removed → lastIsIdx e'.path = false := by
            intro e' he' hs'
            cases hp : e'.path with
            | nil => rfl
            | cons s t =>
                have hmem : prependEntry [.key k] e' ∈ diffProps (k :: rest) fs gs [] := by
                  rw [hdP, buildDiff_prep_nil (fs.getProp k) (gs.getProp k) [.key k]]
                  exact List.mem_append_left _ (List.mem_map_of_mem _ he')
                have h1 := hH _ hmem hs'
                rw [show (prependEntry [.key k] e').path = .key k :: e'.path from rfl, hp,
                  lastIsIdx_cons _ _ (by simp)] at h1
                exact h1
          have hbk : sizeJ (fs.getProp k) + sizeJ (gs.getProp k) ≤ N := by
            have h1 := sizeJ_getProp_lt fs k
            have h2 := sizeJ_getProp_lt gs k
            omega
          have hnfk : noUndef (fs.getProp k) = true :=
            noUndefO_mem fs k _ hnf
              (JObj.mem_toListO_getProp fs k (JObj.containsKey_of_getProp_ne fs k hfu))
          have hngk : noUndef (gs.getProp k) = true :=
            noUndefO_mem gs k _ hng
              (JObj.mem_toListO_getProp gs k (JObj.containsKey_of_getProp_ne gs k hgu))
          have hIH := IH (fs.getProp k) (gs.getProp k) hbk hnfk hngk
            (wf_getProp fs k hwf) (wf_getProp gs k hwg) hHchild
          refine glue (os.setKey k (List.foldl applyChangeLeft (fs.getProp k)
            (buildDiff (fs.getProp k) (gs.getProp k) []))) ?_ ?_
            (fun hu => absurd hu hgu) (fun _ => ?_)
          · rw [JObj.keys_setKey_contains os k _ hosc]; exact hnd
          · intro k' hne
            exact ⟨JObj.getProp_setKey_ne os k k' _ hne,
              JObj.containsKey_setKey_ne os k k' _ hne⟩
          · rw [JObj.getProp_setKey_self]
            exact ⟨hIH, JObj.containsKey_setKey_self os k _⟩

/-- Applying every entry of `buildDiff l r []` to the left side, in the
diff's own order, produces a tree deep-equal to the right side — provided no
removed entry's path ends in an array index (removals addressed at an array
element shift the later elements and are not guaranteed to converge). -/
theorem convergeLeft : ∀ (l r : JVal),
    noUndef l = true → noUndef r = true → wf l = true → wf r = true →
    (∀ e ∈ buildDiff l r [], e.status = .removed → lastIsIdx e.path = false) →
    isDeepEqual (List.foldl applyChangeLeft l (buildDiff l r [])) r = true
  | l, r, hnl, hnr, hwl, hwr, hH => by
    by_cases heq : isDeepEqual l r = true
    · rw [buildDiff_eq_nil l r [] heq]
      simpa using heq
    · have heq' : isDeepEqual l r = false := by
        cases h : isDeepEqual l r with
        | false => rfl
        | true => exact absurd h heq
      have hlu : l ≠ .undef := fun he => by rw [he] at hnl; exact Bool.noConfusion hnl
      have hru : r ≠ .undef := fun he => by rw [he] at hnr; exact Bool.noConfusion hnr
      by_cases harr : ∃ xs ys, l = JVal.arr xs ∧ r = JVal.arr ys
      · obtain ⟨xs, ys, rfl, rfl⟩ := harr
        rw [buildDiff_arr xs ys [] heq'] at hH ⊢
        obtain ⟨ws, hfold, hwlen, -, hwconv⟩ :=
          convergeArrLeft (sizeA xs + sizeA ys)
            (fun x y hxy hnx hny hwx hwy hHc => convergeLeft x y hnx hny hwx hwy hHc)
            xs ys 0 xs le_rfl hnl hnr hwl hwr (by omega) (fun j => by simp) hH
        rw [hfold, isDeepEqual_arr_iff]
        refine ⟨by omega, fun i hi => ?_⟩
        have h1 := hwconv i (by omega)
        simpa using h1
      · by_cases hobj : ∃ fs gs, l = JVal.obj fs ∧ r = JVal.obj gs
        · obtain ⟨fs, gs, rfl, rfl⟩ := hobj
          rw [buildDiff_objs fs gs [] heq'] at hH ⊢
          have hndf : fs.keys.Nodup := by
            have h := hwl
            simp only [wf, Bool.and_eq_true, decide_eq_true_eq] at h
            exact h.1
          have hndg : gs.keys.Nodup := by
            have h := hwr
            simp only [wf, Bool.and_eq_true, decide_eq_true_eq] at h
            exact h.1
          obtain ⟨ws, hfold, hwnd, hwout, hwin⟩ :=
            convergeObjLeft (sizeO fs + sizeO gs)
              (fun x y hxy hnx hny hwx hwy hHc => convergeLeft x y hnx hny hwx hwy hHc)
              (keysUnion fs.keys gs.keys) fs gs fs le_rfl
              (keysUnion_nodup _ _) hnl hnr hwl hwr hndf
              (fun k _ => ⟨rfl, rfl⟩) hH
          rw [hfold, isDeepEqual_obj_iff ws gs hwnd hndg]
          constructor
          · ext a
            simp only [List.mem_toFinset]
            constructor
            · intro hmem
              by_cases hk : a ∈ keysUnion fs.keys gs.keys
              · obtain ⟨hun, hpres⟩ := hwin a hk
                by_cases hgu : gs.getProp a = .undef
                · obtain ⟨-, hcf⟩ := hun hgu
                  rw [(JObj.containsKey_iff_mem_keys ws a).mpr hmem] at hcf
                  exact absurd hcf (by simp)
                · exact (JObj.containsKey_iff_mem_keys gs a).mp
                    (JObj.containsKey_of_getProp_ne gs a hgu)
              · exfalso
                have hnfm : a ∉ fs.keys := fun hm => hk ((keysUnion_mem _ _ a).mpr (Or.inl hm))
                obtain ⟨-, hc⟩ := hwout a hk
                rw [(JObj.containsKey_iff_mem_keys ws a).mpr hmem] at hc
                exact hnfm ((JObj.containsKey_iff_mem_keys fs a).mp hc.symm)
            · intro hmem
              have hk : a ∈ keysUnion fs.keys gs.keys :=
                (keysUnion_mem _ _ a).mpr (Or.inr hmem)
              have hgu : gs.getProp a ≠ .undef :=
                JObj.getProp_ne_undef_of_contains gs a hnr
                  ((JObj.containsKey_iff_mem_keys gs a).mpr hmem)
              obtain ⟨-, hpres⟩ := hwin a hk
              exact (JObj.containsKey_iff_mem_keys ws a).mp (hpres hgu).2
          · intro a hmem
            by_cases hk : a ∈ keysUnion fs.keys gs.keys
            · obtain ⟨hun, hpres⟩ := hwin a hk
              by_cases hgu : gs.getProp a = .undef
              · exfalso
                obtain ⟨-, hcf⟩ := hun hgu
                rw [(JObj.containsKey_iff_mem_keys ws a).mpr hmem] at hcf
                exact absurd hcf (by simp)
              · exact (hpres hgu).1
            · exfalso
              have hnfm : a ∉ fs.keys := fun hm => hk ((keysUnion_mem _ _ a).mpr (Or.inl hm))
              obtain ⟨-, hc⟩ := hwout a hk
              rw [(JObj.containsKey_iff_mem_keys ws a).mpr hmem] at hc
              exact hnfm ((JObj.containsKey_iff_mem_keys fs a).mp hc.symm)
        · rw [buildDiff_modified l r [] hlu hru heq'
            (fun xs ys hc => harr ⟨xs, ys, hc⟩) (fun fs gs hc => hobj ⟨fs, gs, hc⟩)]
          simp only [List.foldl_cons, List.foldl_nil]
          have hstep : applyChangeLeft l ⟨[], .modified, l, r⟩ = r := rfl
          rw [hstep]
          exact isDeepEqual_refl r hwr
termination_by l r _ _ _ _ _ => sizeJ l + sizeJ r
decreasing_by
  · subst_vars
    have h1 : sizeJ (JVal.arr xs) = sizeA xs + 1 := rfl
    have h2 : sizeJ (JVal.arr ys) = sizeA ys + 1 := rfl
    omega
  · subst_vars
    have h1 : sizeJ (JVal.obj fs) = sizeO fs + 1 := rfl
    have h2 : sizeJ (JVal.obj gs) = sizeO gs + 1 := rfl
    omega

/-- Mirror of `convergeArrLeft` for the right direction: folding the
right-direction applications over an array state whose tail is `ys`
converges that tail to `xs`, provided no added entry's path ends in an
array index. -/
theorem convergeArrRight (N : Nat)
    (IH : ∀ x y : JVal, sizeJ x + sizeJ y ≤ N →
      noUndef x = true → noUndef y = true → wf x = true → wf y = true →
      (∀ e ∈ buildDiff x y [], e.status = .added → lastIsIdx e.path = false) →
      isDeepEqual x (List.foldl applyChangeRight y (buildDiff x y [])) = true) :
    ∀ (xs ys : JArr) (i : Nat) (zs : JArr),
      sizeA xs + sizeA ys ≤ N →
      noUndefA xs = true → noUndefA ys = true →
      wfA xs = true → wfA ys = true →
      zs.length = i + ys.length →
      (∀ j : Nat, zs.getIdx (i + j) = ys.getIdx j) →
      (∀ e ∈ diffElems xs ys [] i, e.status = .added → lastIsIdx e.path = false) →
      ∃ ws : JArr,
        List.foldl applyChangeRight (.arr zs) (diffElems xs ys [] i) = .arr ws ∧
        ws.length = i + xs.length ∧
        (∀ j : Nat, j < i → ws.getIdx j = zs.getIdx j) ∧
        (∀ j : Nat, j < xs.length → isDeepEqual (xs.getIdx j) (ws.getIdx (i + j)) = true)
  | .nil, .nil, i, zs, _, _, _, _, _, hlen, _, _ => by
      have hdE : diffElems .nil .nil [] i = [] := by rw [diffElems.eq_def]
      rw [hdE]
      refine ⟨zs, rfl, ?_, fun j _ => rfl, fun j hj => ?_⟩
      · simpa [JArr.length] using hlen
      · simp [JArr.length] at hj
  | .nil, .cons y yt, i, zs, _, _, hny, _, _, _, _, hH => by
      exfalso
      simp only [noUndefA, Bool.and_eq_true] at hny
      have hy : y ≠ .undef := fun he => by rw [he] at hny; exact Bool.noConfusion hny.1
      have hdE : diffElems .nil (JArr.cons y yt) [] i =
          buildDiff .undef y [.idx (i : Int)] ++ diffElems .nil yt [] (i + 1) := by
        rw [diffElems.eq_def]; rfl
      have hmem : (⟨[.idx (i : Int)], .added, .undef, y⟩ : DiffEntry) ∈
          diffElems .nil (JArr.cons y yt) [] i := by
        rw [hdE, buildDiff_added y [.idx (i : Int)] hy]
        exact List.mem_append_left _ (List.mem_singleton_self _)
      have hlast := hH _ hmem rfl
      simp [lastIsIdx] at hlast
  | .cons x xt, .nil, i, zs, hb, hnx, hny, hwx, hwy, hlen, hst, hH => by
      simp only [noUndefA, Bool.and_eq_true] at hnx
      simp only [wfA, Bool.and_eq_true] at hwx
      have hx : x ≠ .undef := fun he => by rw [he] at hnx; exact Bool.noConfusion hnx.1
      have hzlen : zs.length = i := by simpa [JArr.length] using hlen
      have hdE : diffElems (JArr.cons x xt) .nil [] i =
          buildDiff x .undef [.idx (i : Int)] ++ diffElems xt .nil [] (i + 1) := by
        rw [diffElems.eq_def]; rfl
      rw [hdE, buildDiff_removed x [.idx (i : Int)] hx]
      simp only [List.singleton_append, List.foldl_cons]
      have hstep : applyChangeRight (.arr zs) ⟨[.idx (i : Int)], .removed, x, .undef⟩ =
          .arr (zs.setPad i x) := by
        show setValueAtPath (.arr zs) [.idx (i : Int)] x = _
        rw [setValueAtPath_arr_some zs (.idx (i : Int)) [] x i (arrIndex?_idx_nat i)]
        simp
      rw [hstep]
      have hb' : sizeA xt + sizeA .nil ≤ N := by
        have h1 : sizeA (JArr.cons x xt) = sizeJ x + sizeA xt + 1 := by simp only [sizeA]
        have := sizeJ_pos x
        rw [h1] at hb
        omega
      obtain ⟨ws, hfold, hwlen, hwpre, hwconv⟩ :=
        convergeArrRight N IH xt .nil (i + 1) (zs.setPad i x) hb' hnx.2 rfl hwx.2 rfl
          (by rw [JArr.length_setPad]; simp [JArr.length]; omega)
          (fun j => by
            rw [JArr.getIdx_setPad_ne zs i (i + 1 + j) x (by omega)]
            exact JArr.getIdx_of_length_le zs (i + 1 + j) (by omega))
          (fun e he => hH e (by rw [hdE]; exact List.mem_append_right _ he))
      refine ⟨ws, hfold, ?_, ?_, ?_⟩
      · rw [hwlen]; simp [JArr.length]; omega
      · intro j hj
        rw [hwpre j (by omega)]
        exact JArr.getIdx_setPad_ne zs i j x (by omega)
      · intro j hj
        cases j with
        | zero =>
            have h1 : ws.getIdx (i + 0) = (zs.setPad i x).getIdx i := by
              simpa using hwpre i (by omega)
            rw [h1, JArr.getIdx_setPad_self]
            exact isDeepEqual_refl x hwx.1
        | succ j' =>
            have h1 := hwconv j' (by simpa [JArr.length] using hj)
            have harith : i + (j' + 1) = i + 1 + j' := by omega
            rw [harith]
            exact h1
  | .cons x xt, .cons y yt, i, zs, hb, hnx, hny, hwx, hwy, hlen, hst, hH => by
      simp only [noUndefA, Bool.and_eq_true] at hnx hny
      simp only [wfA, Bool.and_eq_true] at hwx hwy
      have hx : x ≠ .undef := fun he => by rw [he] at hnx; exact Bool.noConfusion hnx.1
      have hi : i < zs.length := by simp [JArr.length] at hlen; omega
      have hdE : diffElems (JArr.cons x xt) (JArr.cons y yt) [] i =
          buildDiff x y [.idx (i : Int)] ++ diffElems xt yt [] (i + 1) := by
        rw [diffElems.eq_def]; rfl
      rw [hdE, buildDiff_prep_nil x y [.idx (i : Int)], List.foldl_append,
        applyChangeRight_fun]
      have hz0 : zs.getIdx i = y := by simpa using hst 0
      rw [applyDir_arr_group .added DiffEntry.valueLeft (fun _ _ => rfl)
        (buildDiff x y []) zs i hi (no_root_added x y hx), hz0]
      have hHchild : ∀ e' ∈ buildDiff x y [],
          e'.status = .added → lastIsIdx e'.path = false := by
        intro e' he' hs'
        cases hp : e'.path with
        | nil => rfl
        | cons s t =>
            have hmem : prependEntry [.idx (i : Int)] e' ∈
                diffElems (JArr.cons x xt) (JArr.cons y yt) [] i := by
              rw [hdE, buildDiff_prep_nil x y [.idx (i : Int)]]
              exact List.mem_append_left _ (List.mem_map_of_mem _ he')
            have h1 := hH _ hmem hs'
            rw [show (prependEntry [.idx (i : Int)] e').path =
              .idx (i : Int) :: e'.path from rfl, hp,
              lastIsIdx_cons _ _ (by simp)] at h1
            exact h1
      have hbx : sizeJ x + sizeJ y ≤ N := by
        have h1 : sizeA (JArr.cons x xt) = sizeJ x + sizeA xt + 1 := by simp only [sizeA]
        have h2 : sizeA (JArr.cons y yt) = sizeJ y + sizeA yt + 1 := by simp only [sizeA]
        have := sizeA_pos xt
        have := sizeA_pos yt
        rw [h1, h2] at hb
        omega
      have hIH := IH x y hbx hnx.1 hny.1 hwx.1 hwy.1 hHchild
      rw [applyChangeRight_fun] at hIH
      have hb' : sizeA xt + sizeA yt ≤ N := by
        have h1 : sizeA (JArr.cons x xt) = sizeJ x + sizeA xt + 1 := by simp only [sizeA]
        have h2 : sizeA (JArr.cons y yt) = sizeJ y + sizeA yt + 1 := by simp only [sizeA]
        have := sizeJ_pos x
        have := sizeJ_pos y
        rw [h1, h2] at hb
        omega
      obtain ⟨ws, hfold, hwlen, hwpre, hwconv⟩ :=
        convergeArrRight N IH xt yt (i + 1)
          (zs.setPad i (List.foldl (applyDir .added DiffEntry.valueLeft) y
            (buildDiff x y [])))
          hb' hnx.2 hny.2 hwx.2 hwy.2
          (by rw [JArr.length_setPad]; simp [JArr.length] at hlen ⊢; omega)
          (fun j => by
            rw [JArr.getIdx_setPad_ne zs i (i + 1 + j) _ (by omega)]
            have h1 := hst (j + 1)
            have harith : i + (j + 1) = i + 1 + j := by omega
            rw [harith] at h1
            exact h1)
          (fun e he => hH e (by rw [hdE]; exact List.mem_append_right _ he))
      rw [applyChangeRight_fun] at hfold
      refine ⟨ws, hfold, ?_, ?_, ?_⟩
      · rw [hwlen]; simp [JArr.length]; omega
      · intro j hj
        rw [hwpre j (by omega)]
        exact JArr.getIdx_setPad_ne zs i j _ (by omega)
      · intro j hj
        cases j with
        | zero =>
            have h1 : ws.getIdx (i + 0) =
                (zs.setPad i (List.foldl (applyDir .added DiffEntry.valueLeft) y
                  (buildDiff x y []))).getIdx i := by
              simpa using hwpre i (by omega)
            rw [h1, JArr.getIdx_setPad_self]
            exact hIH
        | succ j' =>
            have h1 := hwconv j' (by simpa [JArr.length] using hj)
            have harith : i + (j' + 1) = i + 1 + j' := by omega
            rw [harith]
            exact h1

/-- Mirror of `convergeObjLeft` for the right direction: folding the
right-direction applications over an object state that agrees with `gs` on
every key of `keys` converges those keys to `fs`. -/
theorem convergeObjRight (N : Nat)
    (IH : ∀ x y : JVal, sizeJ x + sizeJ y ≤ N →
      noUndef x = true → noUndef y = true → wf x = true → wf y = true →
      (∀ e ∈ buildDiff x y [], e.status = .added → lastIsIdx e.path = false) →
      isDeepEqual x (List.foldl applyChangeRight y (buildDiff x y [])) = true) :
    ∀ (keys : List String) (fs gs os : JObj),
      sizeO fs + sizeO gs ≤ N →
      keys.Nodup →
      noUndefO fs = true → noUndefO gs = true →
      wf (.obj fs) = true → wf (.obj gs) = true →
      os.keys.Nodup →
      (∀ k ∈ keys, os.getProp k = gs.getProp k ∧ os.containsKey k = gs.containsKey k) →
      (∀ e ∈ diffProps keys fs gs [], e.status = .added → lastIsIdx e.path = false) →
      ∃ ws : JObj,
        List.foldl applyChangeRight (.obj os) (diffProps keys fs gs []) = .obj ws ∧
        ws.keys.Nodup ∧
        (∀ k, k ∉ keys →
          ws.getProp k = os.getProp k ∧ ws.containsKey k = os.containsKey k) ∧
        (∀ k ∈ keys,
          (fs.getProp k = .undef → ws.getProp k = .undef ∧ ws.containsKey k = false) ∧
          (fs.getProp k ≠ .undef →
            isDeepEqual (fs.getProp k) (ws.getProp k) = true ∧ ws.containsKey k = true))
  | [], fs, gs, os, _, _, _, _, _, _, hnd, _, _ => by
      have hdP : diffProps [] fs gs [] = [] := by rw [diffProps.eq_def]
      rw [hdP]
      exact ⟨os, rfl, hnd, fun k _ => ⟨rfl, rfl⟩, fun k hk => absurd hk (List.not_mem_nil k)⟩
  | k :: rest, fs, gs, os, hb, hkd, hnf, hng, hwf, hwg, hnd, hstate, hH => by
      rw [List.nodup_cons] at hkd
      obtain ⟨hkrest, hrestnd⟩ := hkd
      have hosk := hstate k (List.mem_cons_self k rest)
      have hdP : diffProps (k :: rest) fs gs [] =
          buildDiff (fs.getProp k) (gs.getProp k) [.key k] ++ diffProps rest fs gs [] := by
        rw [diffProps.eq_def]; rfl
      have glue : ∀ os' : JObj, os'.keys.Nodup →
          (∀ k', k' ≠ k →
            os'.getProp k' = os.getProp k' ∧ os'.containsKey k' = os.containsKey k') →
          (fs.getProp k = .undef → os'.getProp k = .undef ∧ os'.containsKey k = false) →
          (fs.getProp k ≠ .undef →
            isDeepEqual (fs.getProp k) (os'.getProp k) = true ∧ os'.containsKey k = true) →
          ∃ ws : JObj,
            List.foldl applyChangeRight (.obj os') (diffProps rest fs gs []) = .obj ws ∧
            ws.keys.Nodup ∧
            (∀ k', k' ∉ k :: rest →
              ws.getProp k' = os.getProp k' ∧ ws.containsKey k' = os.containsKey k') ∧
            (∀ k' ∈ k :: rest,
              (fs.getProp k' = .undef → ws.getProp k' = .undef ∧ ws.containsKey k' = false) ∧
              (fs.getProp k' ≠ .undef →
                isDeepEqual (fs.getProp k') (ws.getProp k') = true ∧
                  ws.containsKey k' = true)) := by
        intro os' hnd' hrel hku hkp
        obtain ⟨ws, hfold, hwnd, hwout, hwin⟩ :=
          convergeObjRight N IH rest fs gs os' hb hrestnd hnf hng hwf hwg hnd'
            (fun k' hk' => by
              have hne : k' ≠ k := fun he => hkrest (he ▸ hk')
              rw [(hrel k' hne).1, (hrel k' hne).2]
              exact hstate k' (List.mem_cons_of_mem k hk'))
            (fun e he => hH e (by rw [hdP]; exact List.mem_append_right _ he))
        refine ⟨ws, hfold, hwnd, ?_, ?_⟩
        · intro k' hk'
          have h1 : k' ∉ rest := fun hh => hk' (List.mem_cons_of_mem k hh)
          have h2 : k' ≠ k := fun he => hk' (he ▸ List.mem_cons_self k rest)
          obtain ⟨ha, hb2⟩ := hwout k' h1
          obtain ⟨hc, hd⟩ := hrel k' h2
          exact ⟨ha.trans hc, hb2.trans hd⟩
        · intro k' hk'
          rcases List.mem_cons.mp hk' with he | hmem
          · subst he
            obtain ⟨ha, hb2⟩ := hwout k' hkrest
            constructor
            · intro hu
              obtain ⟨hc, hd⟩ := hku hu
              exact ⟨ha.trans hc, hb2.trans hd⟩
            · intro hu
              obtain ⟨hc, hd⟩ := hkp hu
              rw [ha, hb2]
              exact ⟨hc, hd⟩
          · exact hwin k' hmem
      by_cases hfu : fs.getProp k = .undef
      · by_cases hgu : gs.getProp k = .undef
        · have hnil : buildDiff (fs.getProp k) (gs.getProp k) [.key k] = [] := by
            rw [hfu, hgu]; exact buildDiff_eq_nil _ _ _ (by decide)
          rw [hdP, hnil, List.nil_append]
          have hosu : os.getProp k = .undef := hosk.1.trans hgu
          have hosc : os.containsKey k = false := by
            rw [hosk.2]
            rcases hc : gs.containsKey k with _ | _
            · rfl
            · exact absurd hgu (JObj.getProp_ne_undef_of_contains gs k hng hc)
          exact glue os hnd (fun k' _ => ⟨rfl, rfl⟩)
            (fun _ => ⟨hosu, hosc⟩) (fun hu => absurd hfu hu)
        · have hone : buildDiff (fs.getProp k) (gs.getProp k) [.key k] =
              [⟨[.key k], .added, .undef, gs.getProp k⟩] := by
            rw [hfu]; exact buildDiff_added _ _ hgu
          rw [hdP, hone, List.singleton_append, List.foldl_cons]
          have hosc : os.containsKey k = true := by
            rw [hosk.2]; exact JObj.containsKey_of_getProp_ne gs k hgu
          have hstep : applyChangeRight (.obj os) ⟨[.key k], .added, .undef, gs.getProp k⟩ =
              .obj (os.eraseKey k) := by
            show removeValueAtPath (.obj os) [.key k] = _
            exact removeValueAtPath_obj_final os (.key k) hosc
          rw [hstep]
          refine glue (os.eraseKey k) ?_ ?_ (fun _ => ?_) (fun hu => absurd hfu hu)
          · rw [JObj.keys_eraseKey]; exact hnd.filter _
          · intro k' hne
            exact ⟨JObj.getProp_eraseKey_ne os k k' hne,
              JObj.containsKey_eraseKey_ne os k k' hne⟩
          · exact ⟨JObj.getProp_eraseKey_self os k, JObj.containsKey_eraseKey_self os k⟩
      · by_cases hgu : gs.getProp k = .undef
        · have hone : buildDiff (fs.getProp k) (gs.getProp k) [.key k] =
              [⟨[.key k], .removed, fs.getProp k, .undef⟩] := by
            rw [hgu]; exact buildDiff_removed _ _ hfu
          rw [hdP, hone, List.singleton_append, List.foldl_cons]
          have hosc : os.containsKey k = false := by
            rw [hosk.2]
            rcases hc : gs.containsKey k with _ | _
            · rfl
            · exact absurd hgu (JObj.getProp_ne_undef_of_contains gs k hng hc)
          have hstep : applyChangeRight (.obj os) ⟨[.key k], .removed, fs.getProp k, .undef⟩ =
              .obj (os.setKey k (fs.getProp k)) := by
            show setValueAtPath (.obj os) [.key k] (fs.getProp k) = _
            rw [setValueAtPath_obj os (.key k) [] (fs.getProp k)]
            simp [segToKey]
          rw [hstep]
          refine glue (os.setKey k (fs.getProp k)) ?_ ?_ (fun hu => absurd hu hfu) (fun _ => ?_)
          · rw [JObj.keys_setKey_not_contains os k _ hosc]
            rw [List.nodup_append]
            refine ⟨hnd, List.nodup_singleton k, ?_⟩
            have hknm : k ∉ os.keys := fun hm => by
              rw [(JObj.containsKey_iff_mem_keys os k).mpr hm] at hosc
              exact Bool.noConfusion hosc
            intro a ha hb2
            rw [List.mem_singleton] at hb2
            subst hb2
            exact hknm ha
          · intro k' hne
            exact ⟨JObj.getProp_setKey_ne os k k' _ hne,
              JObj.containsKey_setKey_ne os k k' _ hne⟩
          · rw [JObj.getProp_setKey_self]
            exact ⟨isDeepEqual_refl _ (wf_getProp fs k hwf), JObj.containsKey_setKey_self os k _⟩
        · -- both keys present: recurse into the child pair
          have hosc : os.containsKey k = true := by
            rw [hosk.2]; exact JObj.containsKey_of_getProp_ne gs k hgu
          rw [hdP, buildDiff_prep_nil (fs.getProp k) (gs.getProp k) [.key k],
            List.foldl_append]
          have hgrp : List.foldl applyChangeRight (.obj os)
              ((buildDiff (fs.getProp k) (gs.getProp k) []).map (prependEntry [.key k])) =
              .obj (os.setKey k (List.foldl applyChangeRight (os.getProp k)
                (buildDiff (fs.getProp k) (gs.getProp k) []))) := by
            rw [applyChangeRight_fun]
            exact applyDir_obj_group .added DiffEntry.valueLeft (fun _ _ => rfl)
              (buildDiff (fs.getProp k) (gs.getProp k) []) os k hosc
              (no_root_added _ _ hfu)
          rw [hgrp, hosk.1]
          have hHchild : ∀ e' ∈ buildDiff (fs.getProp k) (gs.getProp k) [],
              e'.status = .added → lastIsIdx e'.path = false := by
            intro e' he' hs'
            cases hp : e'.path with
            | nil => rfl
            | cons s t =>
                have hmem : prependEntry [.key k] e' ∈ diffProps (k :: rest) fs gs [] := by
                  rw [hdP, buildDiff_prep_nil (fs.getProp k) (gs.getProp k) [.key k]]
                  exact List.mem_append_left _ (List.mem_map_of_mem _ he')
                have h1 := hH _ hmem hs'
                rw [show (prependEntry [.key k] e').path = .key k :: e'.path from rfl, hp,
                  lastIsIdx_cons _ _ (by simp)] at h1
                exact h1
          have hbk : sizeJ (fs.getProp k) + sizeJ (gs.getProp k) ≤ N := by
            have h1 := sizeJ_getProp_lt fs k
            have h2 := sizeJ_getProp_lt gs k
            omega
          have hnfk : noUndef (fs.getProp k) = true :=
            noUndefO_mem fs k _ hnf
              (JObj.mem_toListO_getProp fs k (JObj.containsKey_of_getProp_ne fs k hfu))
          have hngk : noUndef (gs.getProp k) = true :=
            noUndefO_mem gs k _ hng
              (JObj.mem_toListO_getProp gs k (JObj.containsKey_of_getProp_ne gs k hgu))
          have hIH := IH (fs.getProp k) (gs.getProp k) hbk hnfk hngk
            (wf_getProp fs k hwf) (wf_getProp gs k hwg) hHchild
          refine glue (os.setKey k (List.foldl applyChangeRight (gs.getProp k)
            (buildDiff (fs.getProp k) (gs.getProp k) []))) ?_ ?_
            (fun hu => absurd hu hfu) (fun _ => ?_)
          · rw [JObj.keys_setKey_contains os k _ hosc]; exact hnd
          · intro k' hne
            exact ⟨JObj.getProp_setKey_ne os k k' _ hne,
              JObj.containsKey_setKey_ne os k k' _ hne⟩
          · rw [JObj.getProp_setKey_self]
            exact ⟨hIH, JObj.containsKey_setKey_self os k _⟩

/-- Applying every entry of `buildDiff l r []` to the right side, in the
diff's own order, produces a tree deep-equal to the left side — provided no
added entry's path ends in an array index (applied rightward, an added entry
removes an array element, shifting the later elements). -/
theorem convergeRight : ∀ (l r : JVal),
    noUndef l = true → noUndef r = true → wf l = true → wf r = true →
    (∀ e ∈ buildDiff l r [], e.status = .added → lastIsIdx e.path = false) →
    isDeepEqual l (List.foldl applyChangeRight r (buildDiff l r [])) = true
  | l, r, hnl, hnr, hwl, hwr, hH => by
    by_cases heq : isDeepEqual l r = true
    · rw [buildDiff_eq_nil l r [] heq]
      simpa using heq
    · have heq' : isDeepEqual l r = false := by
        cases h : isDeepEqual l r with
        | false => rfl
        | true => exact absurd h heq
      have hlu : l ≠ .undef := fun he => by rw [he] at hnl; exact Bool.noConfusion hnl
      have hru : r ≠ .undef := fun he => by rw [he] at hnr; exact Bool.noConfusion hnr
      by_cases harr : ∃ xs ys, l = JVal.arr xs ∧ r = JVal.arr ys
      · obtain ⟨xs, ys, rfl, rfl⟩ := harr
        rw [buildDiff_arr xs ys [] heq'] at hH ⊢
        obtain ⟨ws, hfold, hwlen, -, hwconv⟩ :=
          convergeArrRight (sizeA xs + sizeA ys)
            (fun x y hxy hnx hny hwx hwy hHc => convergeRight x y hnx hny hwx hwy hHc)
            xs ys 0 ys le_rfl hnl hnr hwl hwr (by omega) (fun j => by simp) hH
        rw [hfold, isDeepEqual_arr_iff]
        refine ⟨by omega, fun i hi => ?_⟩
        have h1 := hwconv i hi
        simpa using h1
      · by_cases hobj : ∃ fs gs, l = JVal.obj fs ∧ r = JVal.obj gs
        · obtain ⟨fs, gs, rfl, rfl⟩ := hobj
          rw [buildDiff_objs fs gs [] heq'] at hH ⊢
          have hndf : fs.keys.Nodup := by
            have h := hwl
            simp only [wf, Bool.and_eq_true, decide_eq_true_eq] at h
            exact h.1
          have hndg : gs.keys.Nodup := by
            have h := hwr
            simp only [wf, Bool.and_eq_true, decide_eq_true_eq] at h
            exact h.1
          obtain ⟨ws, hfold, hwnd, hwout, hwin⟩ :=
            convergeObjRight (sizeO fs + sizeO gs)
              (fun x y hxy hnx hny hwx hwy hHc => convergeRight x y hnx hny hwx hwy hHc)
              (keysUnion fs.keys gs.keys) fs gs gs le_rfl
              (keysUnion_nodup _ _) hnl hnr hwl hwr hndg
              (fun k _ => ⟨rfl, rfl⟩) hH
          rw [hfold, isDeepEqual_obj_iff fs ws hndf hwnd]
          constructor
          · ext a
            simp only [List.mem_toFinset]
            constructor
            · intro hmem
              have hk : a ∈ keysUnion fs.keys gs.keys :=
                (keysUnion_mem _ _ a).mpr (Or.inl hmem)
              have hfua : fs.getProp a ≠ .undef :=
                JObj.getProp_ne_undef_of_contains fs a hnl
                  ((JObj.containsKey_iff_mem_keys fs a).mpr hmem)
              obtain ⟨-, hpres⟩ := hwin a hk
              exact (JObj.containsKey_iff_mem_keys ws a).mp (hpres hfua).2
            · intro hmem
              by_cases hk : a ∈ keysUnion fs.keys gs.keys
              · obtain ⟨hun, hpres⟩ := hwin a hk
                by_cases hfua : fs.getProp a = .undef
                · obtain ⟨-, hcf⟩ := hun hfua
                  rw [(JObj.containsKey_iff_mem_keys ws a).mpr hmem] at hcf
                  exact absurd hcf (by simp)
                · exact (JObj.containsKey_iff_mem_keys fs a).mp
                    (JObj.containsKey_of_getProp_ne fs a hfua)
              · exfalso
                have hngm : a ∉ gs.keys := fun hm => hk ((keysUnion_mem _ _ a).mpr (Or.inr hm))
                obtain ⟨-, hc⟩ := hwout a hk
                rw [(JObj.containsKey_iff_mem_keys ws a).mpr hmem] at hc
                exact hngm ((JObj.containsKey_iff_mem_keys gs a).mp hc.symm)
          · intro a hmem
            have hk : a ∈ keysUnion fs.keys gs.keys :=
              (keysUnion_mem _ _ a).mpr (Or.inl hmem)
            have hfua : fs.getProp a ≠ .undef :=
              JObj.getProp_ne_undef_of_contains fs a hnl
                ((JObj.containsKey_iff_mem_keys fs a).mpr hmem)
            obtain ⟨-, hpres⟩ := hwin a hk
            exact (hpres hfua).1
        · rw [buildDiff_modified l r [] hlu hru heq'
            (fun xs ys hc => harr ⟨xs, ys, hc⟩) (fun fs gs hc => hobj ⟨fs, gs, hc⟩)]
          simp only [List.foldl_cons, List.foldl_nil]
          have hstep : applyChangeRight r ⟨[], .modified, l, r⟩ = l := rfl
          rw [hstep]
          exact isDeepEqual_refl l hwl
termination_by l r _ _ _ _ _ => sizeJ l + sizeJ r
decreasing_by
  · subst_vars
    have h1 : sizeJ (JVal.arr xs) = sizeA xs + 1 := rfl
    have h2 : sizeJ (JVal.arr ys) = sizeA ys + 1 := rfl
    omega
  · subst_vars
    have h1 : sizeJ (JVal.obj fs) = sizeO fs + 1 := rfl
    have h2 : sizeJ (JVal.obj gs) = sizeO gs + 1 := rfl
    omega

/-! ## Claim C2 -/

/-- Counterexample to claim C2 as stated: for A = [5, 6] and B = [], applying
toLeft to every entry of diff(A, B) — even in the diff's own order, hence in
particular not "in any order" — and re-diffing against B does not yield the
empty sequence: the removal at index 0 shifts 6 down, and the removal at
index 1 then falls out of range, leaving [6]. -/
theorem claim_C2_counterexample :
    buildDiff
      (List.foldl applyChangeLeft (.arr (.cons (.num 5) (.cons (.num 6) .nil)))
        (buildDiff (.arr (.cons (.num 5) (.cons (.num 6) .nil))) (.arr .nil) []))
      (.arr .nil) [] ≠ [] := by
  have hd : buildDiff (JVal.arr (.cons (.num 5) (.cons (.num 6) .nil))) (.arr .nil) [] =
      [⟨[.idx 0], .removed, .num 5, .undef⟩, ⟨[.idx 1], .removed, .num 6, .undef⟩] := by
    rw [buildDiff_arr _ _ _ (by decide)]
    have h2 : diffElems (.cons (.num 5) (.cons (.num 6) .nil)) .nil [] 0 =
        buildDiff (.num 5) .undef [.idx (0 : Int)] ++
          diffElems (.cons (.num 6) .nil) .nil [] 1 := by
      rw [diffElems.eq_def]; rfl
    have h3 : diffElems (.cons (.num 6) .nil) .nil [] 1 =
        buildDiff (.num 6) .undef [.idx (1 : Int)] ++ diffElems .nil .nil [] 2 := by
      rw [diffElems.eq_def]; rfl
    have h4 : diffElems JArr.nil .nil [] 2 = [] := by rw [diffElems.eq_def]
    rw [h2, h3, h4, buildDiff_removed _ _ (by decide), buildDiff_removed _ _ (by decide)]
    rfl
  rw [hd]
  have hfold : List.foldl applyChangeLeft (JVal.arr (.cons (.num 5) (.cons (.num 6) .nil)))
      [⟨[.idx 0], .removed, .num 5, .undef⟩, ⟨[.idx 1], .removed, .num 6, .undef⟩] =
      .arr (.cons (.num 6) .nil) := by decide
  rw [hfold]
  rw [buildDiff_arr _ _ _ (by decide)]
  have h5 : diffElems (.cons (.num 6) .nil) .nil [] 0 =
      buildDiff (.num 6) .undef [.idx (0 : Int)] ++ diffElems .nil .nil [] 1 := by
    rw [diffElems.eq_def]; rfl
  have h6 : diffElems JArr.nil .nil [] 1 = [] := by rw [diffElems.eq_def]
  rw [h5, h6, buildDiff_removed _ _ (by decide)]
  simp

/-! ## Order-independent convergence: per-address grouping of a diff -/

/-- The entries of a list addressed under array index `i`, with that first
segment stripped: the subsequence of work belonging to slot `i`. -/
def stripTopIdx (i : Nat) (es : List DiffEntry) : List DiffEntry :=
  es.filterMap (fun e =>
    match e.path with
    | .idx j :: rest => if j = (i : Int) then some { e with path := rest } else none
    | _ => none)

/-- The entries of a list addressed under object key `k`, with that first
segment stripped. -/
def stripTopKey (k : String) (es : List DiffEntry) : List DiffEntry :=
  es.filterMap (fun e =>
    match e.path with
    | .key k' :: rest => if k' = k then some { e with path := rest } else none
    | _ => none)

/-- One more than the array index an entry's first segment addresses (`0`
otherwise): applying the entry to an array extends its length to at least
this bound. -/
def idxBound (e : DiffEntry) : Nat :=
  match e.path with
  | .idx j :: _ => j.toNat + 1
  | _ => 0

theorem stripTopIdx_cons_eq (i : Nat) (e : DiffEntry) (es : List DiffEntry)
    (rest : List PathSegment) (hp : e.path = .idx (i : Int) :: rest) :
    stripTopIdx i (e :: es) = { e with path := rest } :: stripTopIdx i es := by
  simp [stripTopIdx, List.filterMap_cons, hp]

theorem stripTopIdx_cons_ne (i : Nat) (e : DiffEntry) (es : List DiffEntry)
    (hp : ∀ rest : List PathSegment, e.path ≠ .idx (i : Int) :: rest) :
    stripTopIdx i (e :: es) = stripTopIdx i es := by
  simp only [stripTopIdx, List.filterMap_cons]
  cases hpe : e.path with
  | nil => rfl
  | cons s t =>
      cases s with
      | key k => rfl
      | idx j =>
          by_cases hj : j = (i : Int)
          · exact absurd (by rw [hpe, hj]) (hp t)
          · simp [hj]

theorem stripTopKey_cons_eq (k : String) (e : DiffEntry) (es : List DiffEntry)
    (rest : List PathSegment) (hp : e.path = .key k :: rest) :
    stripTopKey k (e :: es) = { e with path := rest } :: stripTopKey k es := by
  simp [stripTopKey, List.filterMap_cons, hp]

theorem stripTopKey_cons_ne (k : String) (e : DiffEntry) (es : List DiffEntry)
    (hp : ∀ rest : List PathSegment, e.path ≠ .key k :: rest) :
    stripTopKey k (e :: es) = stripTopKey k es := by
  simp only [stripTopKey, List.filterMap_cons]
  cases hpe : e.path with
  | nil => rfl
  | cons s t =>
      cases s with
      | idx j => rfl
      | key k' =>
          by_cases hk : k' = k
          · exact absurd (by rw [hpe, hk]) (hp t)
          · simp [hk]

theorem stripTopIdx_append (i : Nat) (l1 l2 : List DiffEntry) :
    stripTopIdx i (l1 ++ l2) = stripTopIdx i l1 ++ stripTopIdx i l2 := by
  simp [stripTopIdx, List.filterMap_append]

theorem stripTopKey_append (k : String) (l1 l2 : List DiffEntry) :
    stripTopKey k (l1 ++ l2) = stripTopKey k l1 ++ stripTopKey k l2 := by
  simp [stripTopKey, List.filterMap_append]

theorem stripTopIdx_map_prepend_self (i : Nat) : ∀ L : List DiffEntry,
    stripTopIdx i (L.map (prependEntry [.idx (i : Int)])) = L
  | [] => rfl
  | e :: t => by
      rw [List.map_cons, stripTopIdx_cons_eq i _ _ e.path rfl,
        stripTopIdx_map_prepend_self i t]
      rfl

theorem stripTopIdx_map_prepend_ne (i j : Nat) (hne : j ≠ i) : ∀ L : List DiffEntry,
    stripTopIdx i (L.map (prependEntry [.idx (j : Int)])) = []
  | [] => rfl
  | e :: t => by
      rw [List.map_cons, stripTopIdx_cons_ne, stripTopIdx_map_prepend_ne i j hne t]
      intro rest hcon
      rw [show (prependEntry [.idx (j : Int)] e).path = .idx (j : Int) :: e.path from rfl]
        at hcon
      injection hcon with h1 h2
      injection h1 with h3
      omega

theorem stripTopKey_map_prepend_self (k : String) : ∀ L : List DiffEntry,
    stripTopKey k (L.map (prependEntry [.key k])) = L
  | [] => rfl
  | e :: t => by
      rw [List.map_cons, stripTopKey_cons_eq k _ _ e.path rfl,
        stripTopKey_map_prepend_self k t]
      rfl

theorem stripTopKey_map_prepend_ne (k k' : String) (hne : k' ≠ k) : ∀ L : List DiffEntry,
    stripTopKey k (L.map (prependEntry [.key k'])) = []
  | [] => rfl
  | e :: t => by
      rw [List.map_cons, stripTopKey_cons_ne, stripTopKey_map_prepend_ne k k' hne t]
      intro rest hcon
      rw [show (prependEntry [.key k'] e).path = .key k' :: e.path from rfl] at hcon
      injection hcon with h1 h2
      injection h1 with h3
      exact hne h3

theorem stripTopIdx_mem_intro (i : Nat) (e : DiffEntry) (es : List DiffEntry)
    (rest : List PathSegment) (he : e ∈ es) (hp : e.path = .idx (i : Int) :: rest) :
    { e with path := rest } ∈ stripTopIdx i es := by
  refine List.mem_filterMap.mpr ⟨e, he, ?_⟩
  simp [hp]

theorem stripTopIdx_mem_elim (i : Nat) (e' : DiffEntry) (es : List DiffEntry)
    (he' : e' ∈ stripTopIdx i es) :
    { e' with path := PathSegment.idx (i : Int) :: e'.path } ∈ es := by
  obtain ⟨e, he, hf⟩ := List.mem_filterMap.mp he'
  cases hpe : e.path with
  | nil => rw [hpe] at hf; exact absurd hf (by simp)
  | cons s t =>
      cases s with
      | key k => rw [hpe] at hf; exact absurd hf (by simp)
      | idx j =>
          rw [hpe] at hf
          by_cases hj : j = (i : Int)
          · simp only [hj, if_true] at hf
            obtain rfl := Option.some.inj hf
            have : { e with path := PathSegment.idx (i : Int) :: t } = e := by
              rw [← hj, ← hpe]
            rwa [this]
          · simp [hj] at hf

theorem stripTopKey_mem_intro (k : String) (e : DiffEntry) (es : List DiffEntry)
    (rest : List PathSegment) (he : e ∈ es) (hp : e.path = .key k :: rest) :
    { e with path := rest } ∈ stripTopKey k es := by
  refine List.mem_filterMap.mpr ⟨e, he, ?_⟩
  simp [hp]

theorem stripTopKey_mem_elim (k : String) (e' : DiffEntry) (es : List DiffEntry)
    (he' : e' ∈ stripTopKey k es) :
    { e' with path := PathSegment.key k :: e'.path } ∈ es := by
  obtain ⟨e, he, hf⟩ := List.mem_filterMap.mp he'
  cases hpe : e.path with
  | nil => rw [hpe] at hf; exact absurd hf (by simp)
  | cons s t =>
      cases s with
      | idx j => rw [hpe] at hf; exact absurd hf (by simp)
      | key k0 =>
          rw [hpe] at hf
          by_cases hk : k0 = k
          · simp only [hk, if_true] at hf
            obtain rfl := Option.some.inj hf
            have : { e with path := PathSegment.key k :: t } = e := by
              rw [← hk, ← hpe]
            rwa [this]
          · simp [hk] at hf

/-- Folding `max` of a per-entry bound is invariant under permutation. -/
theorem perm_foldl_max (f : DiffEntry → Nat) {l1 l2 : List DiffEntry}
    (p : l1.Perm l2) :
    ∀ n : Nat, List.foldl (fun a e => max a (f e)) n l1 =
      List.foldl (fun a e => max a (f e)) n l2 := by
  induction p with
  | nil => intro n; rfl
  | cons x _ ih => intro n; simp only [List.foldl_cons]; exact ih _
  | swap x y l =>
      intro n
      simp only [List.foldl_cons]
      have h : max (max n (f y)) (f x) = max (max n (f x)) (f y) := by omega
      rw [h]
  | trans _ _ ih1 ih2 => intro n; exact (ih1 n).trans (ih2 n)

/-- Grouping a positional array diff by index: the entries under index `j`
are exactly the child diff of the pair at `j` (out-of-range pairs diff to
nothing). -/
theorem stripTopIdx_diffElems : ∀ (xs ys : JArr) (n j : Nat),
    stripTopIdx j (diffElems xs ys [] n) =
      if n ≤ j then buildDiff (xs.getIdx (j - n)) (ys.getIdx (j - n)) [] else []
  | .nil, .nil, n, j => by
      have hdE : diffElems .nil .nil [] n = [] := by rw [diffElems.eq_def]
      have hu : JArr.nil.getIdx (j - n) = JVal.undef :=
        JArr.getIdx_of_length_le JArr.nil (j - n) (Nat.zero_le _)
      rw [hdE, hu, buildDiff_eq_nil _ _ _ (by decide)]
      split <;> rfl
  | .cons x xt, .cons y yt, n, j => by
      have hdE : diffElems (JArr.cons x xt) (JArr.cons y yt) [] n =
          buildDiff x y [.idx (n : Int)] ++ diffElems xt yt [] (n + 1) := by
        rw [diffElems.eq_def]; rfl
      rw [hdE, stripTopIdx_append, buildDiff_prep_nil x y [.idx (n : Int)],
        stripTopIdx_diffElems xt yt (n + 1) j]
      by_cases hj : j = n
      · subst hj
        rw [stripTopIdx_map_prepend_self, if_neg (by omega), if_pos (le_refl j)]
        simp [Nat.sub_self, JArr.getIdx]
      · rw [stripTopIdx_map_prepend_ne j n (fun h => hj h.symm), List.nil_append]
        by_cases hnj : n ≤ j
        · have hnj1 : n + 1 ≤ j := by omega
          rw [if_pos hnj1, if_pos hnj]
          have h1 : j - n = (j - (n + 1)) + 1 := by omega
          rw [h1]
          rfl
        · rw [if_neg (by omega), if_neg hnj]
  | .cons x xt, .nil, n, j => by
      have hdE : diffElems (JArr.cons x xt) .nil [] n =
          buildDiff x .undef [.idx (n : Int)] ++ diffElems xt .nil [] (n + 1) := by
        rw [diffElems.eq_def]; rfl
      rw [hdE, stripTopIdx_append, buildDiff_prep_nil x .undef [.idx (n : Int)],
        stripTopIdx_diffElems xt .nil (n + 1) j]
      by_cases hj : j = n
      · subst hj
        rw [stripTopIdx_map_prepend_self, if_neg (by omega), if_pos (le_refl j)]
        simp [Nat.sub_self, JArr.getIdx]
      · rw [stripTopIdx_map_prepend_ne j n (fun h => hj h.symm), List.nil_append]
        by_cases hnj : n ≤ j
        · have hnj1 : n + 1 ≤ j := by omega
          rw [if_pos hnj1, if_pos hnj]
          have h1 : j - n = (j - (n + 1)) + 1 := by omega
          rw [h1]
          rfl
        · rw [if_neg (by omega), if_neg hnj]
  | .nil, .cons y yt, n, j => by
      have hdE : diffElems .nil (JArr.cons y yt) [] n =
          buildDiff .undef y [.idx (n : Int)] ++ diffElems .nil yt [] (n + 1) := by
        rw [diffElems.eq_def]; rfl
      rw [hdE, stripTopIdx_append, buildDiff_prep_nil .undef y [.idx (n : Int)],
        stripTopIdx_diffElems .nil yt (n + 1) j]
      by_cases hj : j = n
      · subst hj
        rw [stripTopIdx_map_prepend_self, if_neg (by omega), if_pos (le_refl j)]
        simp [Nat.sub_self, JArr.getIdx]
      · rw [stripTopIdx_map_prepend_ne j n (fun h => hj h.symm), List.nil_append]
        by_cases hnj : n ≤ j
        · have hnj1 : n + 1 ≤ j := by omega
          rw [if_pos hnj1, if_pos hnj]
          have h1 : j - n = (j - (n + 1)) + 1 := by omega
          rw [h1]
          rfl
        · rw [if_neg (by omega), if_neg hnj]
termination_by xs ys n j => sizeA xs + sizeA ys
decreasing_by
  all_goals simp only [sizeA]
  all_goals omega

/-- A key outside the iterated key list owns no entries of the object diff. -/
theorem stripTopKey_diffProps_not_mem : ∀ (keys : List String) (fs gs : JObj) (k : String),
    k ∉ keys → stripTopKey k (diffProps keys fs gs []) = []
  | [], fs, gs, k, _ => by
      have hdP : diffProps [] fs gs [] = [] := by rw [diffProps.eq_def]
      rw [hdP]; rfl
  | k0 :: rest, fs, gs, k, hk => by
      have hdP : diffProps (k0 :: rest) fs gs [] =
          buildDiff (fs.getProp k0) (gs.getProp k0) [.key k0] ++
            diffProps rest fs gs [] := by
        rw [diffProps.eq_def]; rfl
      rw [hdP, stripTopKey_append, buildDiff_prep_nil,
        stripTopKey_map_prepend_ne k k0 (fun h => hk (h ▸ List.mem_cons_self k0 rest)),
        List.nil_append,
        stripTopKey_diffProps_not_mem rest fs gs k (fun h => hk (List.mem_cons_of_mem _ h))]

/-- Grouping an object diff by key: the entries under key `k` are exactly
the child diff of the pair at `k`. -/
theorem stripTopKey_diffProps_mem : ∀ (keys : List String) (fs gs : JObj) (k : String),
    keys.Nodup → k ∈ keys →
    stripTopKey k (diffProps keys fs gs []) = buildDiff (fs.getProp k) (gs.getProp k) []
  | [], fs, gs, k, _, hk => absurd hk (List.not_mem_nil k)
  | k0 :: rest, fs, gs, k, hnd, hk => by
      rw [List.nodup_cons] at hnd
      have hdP : diffProps (k0 :: rest) fs gs [] =
          buildDiff (fs.getProp k0) (gs.getProp k0) [.key k0] ++
            diffProps rest fs gs [] := by
        rw [diffProps.eq_def]; rfl
      rw [hdP, stripTopKey_append, buildDiff_prep_nil]
      by_cases hkk : k = k0
      · subst hkk
        rw [stripTopKey_map_prepend_self,
          stripTopKey_diffProps_not_mem rest fs gs k hnd.1, List.append_nil]
      · rcases List.mem_cons.mp hk with he | hm
        · exact absurd he hkk
        · rw [stripTopKey_map_prepend_ne k k0 (fun h => hkk h.symm), List.nil_append,
            stripTopKey_diffProps_mem rest fs gs k hnd.2 hm]

/-- `setKey` preserves duplicate-freedom of the key list. -/
theorem JObj.nodup_setKey (os : JObj) (k : String) (v : JVal)
    (hnd : os.keys.Nodup) : (os.setKey k v).keys.Nodup := by
  rcases hc : os.containsKey k with _ | _
  · rw [JObj.keys_setKey_not_contains os k v hc, List.nodup_append]
    refine ⟨hnd, List.nodup_singleton k, ?_⟩
    intro a ha hb
    rw [List.mem_singleton] at hb
    subst hb
    have := (JObj.containsKey_iff_mem_keys os a).mpr ha
    rw [this] at hc
    exact Bool.noConfusion hc
  · rw [JObj.keys_setKey_contains os k v hc]
    exact hnd

/-- Pushing one entry addressed under array index `i` through the array: the
in-range requirement is only needed for a removal (a recursive removal; root
removals of slots are excluded). -/
theorem applyDir_arr_push (rem : DiffStatus) (pick : DiffEntry → JVal)
    (hpick : ∀ (e : DiffEntry) (p : List PathSegment), pick { e with path := p } = pick e)
    (zs : JArr) (i : Nat) (e : DiffEntry) (rest : List PathSegment)
    (hpath : e.path = .idx (i : Int) :: rest)
    (hrem : e.status = rem → rest ≠ [] ∧ i < zs.length) :
    applyDir rem pick (.arr zs) e =
      .arr (zs.setPad i (applyDir rem pick (zs.getIdx i) { e with path := rest })) := by
  by_cases hs : e.status = rem
  · obtain ⟨hne, hlt⟩ := hrem hs
    rw [show applyDir rem pick (.arr zs) e = removeValueAtPath (.arr zs) e.path from by
      simp [applyDir, hs]]
    rw [show applyDir rem pick (zs.getIdx i) { e with path := rest } =
      removeValueAtPath (zs.getIdx i) rest from by simp [applyDir, hs]]
    rw [hpath, removeValueAtPath_arr_rec zs _ rest i hne (arrIndex?_idx_nat i) hlt]
  · rw [show applyDir rem pick (.arr zs) e = setValueAtPath (.arr zs) e.path (pick e) from by
      simp [applyDir, hs]]
    rw [show applyDir rem pick (zs.getIdx i) { e with path := rest } =
      setValueAtPath (zs.getIdx i) rest (pick e) from by simp [applyDir, hs, hpick]]
    rw [hpath, setValueAtPath_arr_some zs _ rest (pick e) i (arrIndex?_idx_nat i)]
    by_cases hr : rest = []
    · simp [hr, setValueAtPath, cloneDeep]
    · have hlen : rest.length ≠ 0 := by simpa using hr
      simp [hlen]

/-- Pushing one entry addressed under object key `k` through the object
(root removals of the key are handled separately, by `eraseKey`). -/
theorem applyDir_obj_push (rem : DiffStatus) (pick : DiffEntry → JVal)
    (hpick : ∀ (e : DiffEntry) (p : List PathSegment), pick { e with path := p } = pick e)
    (os : JObj) (k : String) (e : DiffEntry) (rest : List PathSegment)
    (hpath : e.path = .key k :: rest)
    (hrem : e.status = rem → rest ≠ [] ∧ os.containsKey k = true) :
    applyDir rem pick (.obj os) e =
      .obj (os.setKey k (applyDir rem pick (os.getProp k) { e with path := rest })) := by
  by_cases hs : e.status = rem
  · obtain ⟨hne, hcont⟩ := hrem hs
    rw [show applyDir rem pick (.obj os) e = removeValueAtPath (.obj os) e.path from by
      simp [applyDir, hs]]
    rw [show applyDir rem pick (os.getProp k) { e with path := rest } =
      removeValueAtPath (os.getProp k) rest from by simp [applyDir, hs]]
    rw [hpath, removeValueAtPath_obj_rec os (.key k) rest hne hcont]
    rfl
  · rw [show applyDir rem pick (.obj os) e = setValueAtPath (.obj os) e.path (pick e) from by
      simp [applyDir, hs]]
    rw [show applyDir rem pick (os.getProp k) { e with path := rest } =
      setValueAtPath (os.getProp k) rest (pick e) from by simp [applyDir, hs, hpick]]
    rw [hpath, setValueAtPath_obj os (.key k) rest (pick e)]
    by_cases hr : rest = []
    · simp [hr, setValueAtPath, cloneDeep, segToKey]
    · have hlen : rest.length ≠ 0 := by simpa using hr
      simp [hlen, segToKey]

/-- A fold of entries all addressed under array indices factors slot by
slot: subscript writes at distinct indices commute exactly, so each slot of
the result is its own fold of the slot's subsequence, in any interleaving. -/
theorem foldArrFactor (rem : DiffStatus) (pick : DiffEntry → JVal)
    (hpick : ∀ (e : DiffEntry) (p : List PathSegment), pick { e with path := p } = pick e) :
    ∀ (es : List DiffEntry) (zs : JArr),
      (∀ e ∈ es, ∃ (i : Nat) (rest : List PathSegment),
        e.path = .idx (i : Int) :: rest ∧
        (e.status = rem → rest ≠ [] ∧ i < zs.length)) →
      ∃ ws : JArr,
        List.foldl (applyDir rem pick) (.arr zs) es = .arr ws ∧
        ws.length = List.foldl (fun n e => max n (idxBound e)) zs.length es ∧
        (∀ i : Nat, ws.getIdx i =
          List.foldl (applyDir rem pick) (zs.getIdx i) (stripTopIdx i es))
  | [], zs, _ => ⟨zs, rfl, rfl, fun i => rfl⟩
  | e :: es', zs, hall => by
      obtain ⟨i, rest, hpath, hrem⟩ := hall e (List.mem_cons_self e es')
      rw [List.foldl_cons, applyDir_arr_push rem pick hpick zs i e rest hpath hrem]
      obtain ⟨ws, hfold, hlen, hslots⟩ :=
        foldArrFactor rem pick hpick es'
          (zs.setPad i (applyDir rem pick (zs.getIdx i) { e with path := rest }))
          (fun e2 he2 => by
            obtain ⟨i2, rest2, hp2, hr2⟩ := hall e2 (List.mem_cons_of_mem _ he2)
            refine ⟨i2, rest2, hp2, fun hs2 => ⟨(hr2 hs2).1, ?_⟩⟩
            have := (hr2 hs2).2
            rw [JArr.length_setPad]
            omega)
      refine ⟨ws, hfold, ?_, ?_⟩
      · rw [hlen, JArr.length_setPad, List.foldl_cons]
        have hib : idxBound e = i + 1 := by
          simp [idxBound, hpath]
        rw [hib]
      · intro i2
        rw [hslots i2]
        by_cases hii : i2 = i
        · subst hii
          rw [JArr.getIdx_setPad_self, stripTopIdx_cons_eq i2 e es' rest hpath,
            List.foldl_cons]
        · rw [JArr.getIdx_setPad_ne zs i i2 _ hii, stripTopIdx_cons_ne]
          intro r2 hcon
          rw [hpath] at hcon
          injection hcon with h1 h2
          injection h1 with h3
          omega

/-- A fold of entries all addressed under object keys factors key by key:
operations at distinct keys touch disjoint fields, so the fields of the
result are determined by the per-key subsequences in any interleaving (only
the insertion order of fresh keys, invisible to `getProp`/`containsKey`,
depends on it). -/
theorem foldObjFactor (rem : DiffStatus) (pick : DiffEntry → JVal)
    (hpick : ∀ (e : DiffEntry) (p : List PathSegment), pick { e with path := p } = pick e) :
    ∀ (es : List DiffEntry) (os : JObj),
      os.keys.Nodup →
      (∀ e ∈ es, ∃ (k : String) (rest : List PathSegment),
        e.path = .key k :: rest ∧
        (e.status = rem → os.containsKey k = true) ∧
        (e.status = rem → rest = [] → stripTopKey k es = [{ e with path := rest }])) →
      ∃ ws : JObj,
        List.foldl (applyDir rem pick) (.obj os) es = .obj ws ∧
        ws.keys.Nodup ∧
        (∀ k : String,
          ((∃ e ∈ stripTopKey k es, e.status = rem ∧ e.path = ([] : List PathSegment)) →
            ws.getProp k = .undef ∧ ws.containsKey k = false) ∧
          ((∀ e ∈ stripTopKey k es, ¬ (e.status = rem ∧ e.path = [])) →
            ws.getProp k =
              List.foldl (applyDir rem pick) (os.getProp k) (stripTopKey k es) ∧
            ws.containsKey k = (os.containsKey k || !(stripTopKey k es).isEmpty)))
  | [], os, hnd, _ => by
      refine ⟨os, rfl, hnd, fun k => ⟨?_, ?_⟩⟩
      · rintro ⟨e, he, -⟩
        simp [stripTopKey] at he
      · intro _
        refine ⟨rfl, ?_⟩
        simp [stripTopKey]
  | e :: es', os, hnd, hall => by
      obtain ⟨k0, rest, hpath, hremc, hroot⟩ := hall e (List.mem_cons_self e es')
      by_cases hsroot : e.status = rem ∧ rest = []
      · obtain ⟨hs, hr⟩ := hsroot
        subst hr
        have hcont : os.containsKey k0 = true := hremc hs
        have hgroup : stripTopKey k0 (e :: es') = [{ e with path := [] }] := hroot hs rfl
        have hstrip' : stripTopKey k0 es' = [] := by
          rw [stripTopKey_cons_eq k0 e es' [] hpath, List.cons.injEq] at hgroup
          exact hgroup.2
        have hstep : applyDir rem pick (.obj os) e = .obj (os.eraseKey k0) := by
          rw [show applyDir rem pick (.obj os) e = removeValueAtPath (.obj os) e.path from by
            simp [applyDir, hs]]
          rw [hpath]
          exact removeValueAtPath_obj_final os (.key k0) hcont
        rw [List.foldl_cons, hstep]
        obtain ⟨ws, hfold, hnd', hcl⟩ :=
          foldObjFactor rem pick hpick es' (os.eraseKey k0)
            (by rw [JObj.keys_eraseKey]; exact hnd.filter _)
            (fun e2 he2 => by
              obtain ⟨k2, r2, hp2, hc2, hg2⟩ := hall e2 (List.mem_cons_of_mem _ he2)
              by_cases hk : k2 = k0
              · exfalso
                subst hk
                have hmem2 : { e2 with path := r2 } ∈ stripTopKey k2 es' :=
                  stripTopKey_mem_intro k2 e2 es' r2 he2 hp2
                rw [hstrip'] at hmem2
                exact absurd hmem2 (List.not_mem_nil _)
              · refine ⟨k2, r2, hp2, ?_, ?_⟩
                · intro hs2
                  rw [JObj.containsKey_eraseKey_ne os k0 k2 hk]
                  exact hc2 hs2
                · intro hs2 hr2
                  have h := hg2 hs2 hr2
                  rw [stripTopKey_cons_ne k2 e es' (fun r hcon => by
                    rw [hpath] at hcon
                    injection hcon with ha hb
                    injection ha with hc
                    exact hk hc.symm)] at h
                  exact h)
        refine ⟨ws, hfold, hnd', fun k => ?_⟩
        by_cases hk : k = k0
        · subst hk
          have h2 := (hcl k).2 (by
            rw [hstrip']
            intro e2 he2
            exact absurd he2 (List.not_mem_nil _))
          rw [hstrip'] at h2
          simp only [List.foldl_nil, JObj.getProp_eraseKey_self,
            JObj.containsKey_eraseKey_self, List.isEmpty_nil, Bool.not_true,
            Bool.or_false] at h2
          refine ⟨fun _ => h2, fun hnone => ?_⟩
          exfalso
          have hmem : ({ e with path := [] } : DiffEntry) ∈ stripTopKey k (e :: es') := by
            rw [hgroup]
            exact List.mem_singleton_self _
          exact hnone _ hmem ⟨hs, rfl⟩
        · have hstripk : stripTopKey k (e :: es') = stripTopKey k es' :=
            stripTopKey_cons_ne k e es' (fun r hcon => by
              rw [hpath] at hcon
              injection hcon with h1 _
              injection h1 with h3
              exact hk h3.symm)
          rw [hstripk]
          refine ⟨fun hex => (hcl k).1 hex, fun hnone => ?_⟩
          obtain ⟨hgp, hct⟩ := (hcl k).2 hnone
          rw [hgp, hct, JObj.getProp_eraseKey_ne os k0 k hk,
            JObj.containsKey_eraseKey_ne os k0 k hk]
          exact ⟨rfl, rfl⟩
      · have hrem' : e.status = rem → rest ≠ [] ∧ os.containsKey k0 = true := fun hs =>
          ⟨fun hr => hsroot ⟨hs, hr⟩, hremc hs⟩
        rw [List.foldl_cons, applyDir_obj_push rem pick hpick os k0 e rest hpath hrem']
        obtain ⟨ws, hfold, hnd', hcl⟩ :=
          foldObjFactor rem pick hpick es'
            (os.setKey k0 (applyDir rem pick (os.getProp k0) { e with path := rest }))
            (JObj.nodup_setKey os k0 _ hnd)
            (fun e2 he2 => by
              obtain ⟨k2, r2, hp2, hc2, hg2⟩ := hall e2 (List.mem_cons_of_mem _ he2)
              refine ⟨k2, r2, hp2, ?_, ?_⟩
              · intro hs2
                by_cases hk : k2 = k0
                · subst hk
                  exact JObj.containsKey_setKey_self os k2 _
                · rw [JObj.containsKey_setKey_ne os k0 k2 _ hk]
                  exact hc2 hs2
              · intro hs2 hr2
                have h := hg2 hs2 hr2
                by_cases hk : k2 = k0
                · exfalso
                  subst hk
                  rw [stripTopKey_cons_eq k2 e es' rest hpath] at h
                  injection h with h1 h2
                  have hmem2 : { e2 with path := r2 } ∈ stripTopKey k2 es' :=
                    stripTopKey_mem_intro k2 e2 es' r2 he2 hp2
                  rw [h2] at hmem2
                  exact absurd hmem2 (List.not_mem_nil _)
                · rw [stripTopKey_cons_ne k2 e es' (fun r hcon => by
                    rw [hpath] at hcon
                    injection hcon with ha hb
                    injection ha with hc
                    exact hk hc.symm)] at h
                  exact h)
        refine ⟨ws, hfold, hnd', fun k => ?_⟩
        by_cases hk : k = k0
        · subst hk
          have hstripk : stripTopKey k (e :: es') =
              { e with path := rest } :: stripTopKey k es' :=
            stripTopKey_cons_eq k e es' rest hpath
          rw [hstripk]
          constructor
          · rintro ⟨e2, he2, hs2, hp2⟩
            rcases List.mem_cons.mp he2 with he | hmm
            · exfalso
              subst he
              exact hsroot ⟨hs2, hp2⟩
            · exact (hcl k).1 ⟨e2, hmm, hs2, hp2⟩
          · intro hnone
            have hnone' : ∀ e2 ∈ stripTopKey k es', ¬ (e2.status = rem ∧ e2.path = []) :=
              fun e2 he2 => hnone e2 (List.mem_cons_of_mem _ he2)
            obtain ⟨hgp, hct⟩ := (hcl k).2 hnone'
            constructor
            · rw [hgp, JObj.getProp_setKey_self, List.foldl_cons]
            · rw [hct, JObj.containsKey_setKey_self]
              simp
        · have hstripk : stripTopKey k (e :: es') = stripTopKey k es' :=
            stripTopKey_cons_ne k e es' (fun r hcon => by
              rw [hpath] at hcon
              injection hcon with h1 _
              injection h1 with h3
              exact hk h3.symm)
          rw [hstripk]
          refine ⟨fun hex => (hcl k).1 hex, fun hnone => ?_⟩
          obtain ⟨hgp, hct⟩ := (hcl k).2 hnone
          rw [hgp, hct, JObj.getProp_setKey_ne os k0 k _ hk,
            JObj.containsKey_setKey_ne os k0 k _ hk]
          exact ⟨rfl, rfl⟩

/-- Two diff entries with identical fields are equal. -/
theorem DiffEntry.eq_of_fields : ∀ (a b : DiffEntry), a.path = b.path →
    a.status = b.status → a.valueLeft = b.valueLeft → a.valueRight = b.valueRight →
    a = b
  | ⟨_, _, _, _⟩, ⟨_, _, _, _⟩, h1, h2, h3, h4 => by
      cases h1; cases h2; cases h3; cases h4; rfl

/-- Applying the entries of `buildDiff l r []` to the left side, in ANY
order, produces a tree deep-equal to the right side — provided no removed
entry's path ends in an array index. -/
theorem convergeLeftPerm : ∀ (l r : JVal) (es : List DiffEntry),
    es.Perm (buildDiff l r []) →
    noUndef l = true → noUndef r = true → wf l = true → wf r = true →
    (∀ e ∈ buildDiff l r [], e.status = .removed → lastIsIdx e.path = false) →
    isDeepEqual (List.foldl applyChangeLeft l es) r = true
  | l, r, es, hperm, hnl, hnr, hwl, hwr, hH => by
    by_cases heq : isDeepEqual l r = true
    · rw [buildDiff_eq_nil l r [] heq] at hperm
      rw [hperm.eq_nil]
      simpa using heq
    · have heq' : isDeepEqual l r = false := by
        cases h : isDeepEqual l r with
        | false => rfl
        | true => exact absurd h heq
      have hlu : l ≠ .undef := fun he => by rw [he] at hnl; exact Bool.noConfusion hnl
      have hru : r ≠ .undef := fun he => by rw [he] at hnr; exact Bool.noConfusion hnr
      by_cases harr : ∃ xs ys, l = JVal.arr xs ∧ r = JVal.arr ys
      · obtain ⟨xs, ys, rfl, rfl⟩ := harr
        rw [buildDiff_arr xs ys [] heq'] at hH hperm
        have hallAny : ∀ e ∈ diffElems xs ys [] 0, ∃ (i : Nat) (rest : List PathSegment),
            e.path = .idx (i : Int) :: rest ∧
            (e.status = DiffStatus.removed → rest ≠ [] ∧ i < xs.length) := by
          intro e he
          obtain ⟨j, e', hmem', hform, hb⟩ := mem_diffElems xs ys 0 e he
          subst hform
          refine ⟨j, e'.path, ?_, ?_⟩
          · show PathSegment.idx ((0 + j : Nat) : Int) :: e'.path =
              PathSegment.idx (j : Int) :: e'.path
            rw [Nat.zero_add]
          · intro hs
            constructor
            · intro hnil
              have hlast := hH _ he hs
              rw [show ({ e' with path := PathSegment.idx ((0 + j : Nat) : Int) :: e'.path }
                : DiffEntry).path = PathSegment.idx ((0 + j : Nat) : Int) :: e'.path from rfl,
                hnil] at hlast
              simp [lastIsIdx] at hlast
            · obtain ⟨-, hrem, -, hvl, -, -, -, -⟩ :=
                diffEntry_facts (xs.getIdx j) (ys.getIdx j) e' hmem'
              have h2 : e'.valueLeft ≠ .undef := (hrem hs).2.1
              rw [hvl] at h2
              have h3 : xs.getIdx j ≠ .undef := fun hu => by
                rw [hu, getAtPath_undef] at h2
                exact h2 rfl
              exact JArr.lt_length_of_getIdx_ne xs j h3
        have hall : ∀ e ∈ es, ∃ (i : Nat) (rest : List PathSegment),
            e.path = .idx (i : Int) :: rest ∧
            (e.status = DiffStatus.removed → rest ≠ [] ∧ i < xs.length) :=
          fun e he => hallAny e (hperm.subset he)
        have hle : xs.length ≤ ys.length := by
          by_contra hgt
          push_neg at hgt
          have hxu : xs.getIdx ys.length ≠ .undef := fun hu => by
            have hnn := noUndefA_getIdx xs ys.length hnl hgt
            rw [hu] at hnn
            exact Bool.noConfusion hnn
          have hyu : ys.getIdx ys.length = .undef :=
            JArr.getIdx_of_length_le ys _ (le_refl _)
          have hstrip0 : stripTopIdx ys.length (diffElems xs ys [] 0) =
              buildDiff (xs.getIdx ys.length) (ys.getIdx ys.length) [] := by
            have h := stripTopIdx_diffElems xs ys 0 ys.length
            simpa using h
          rw [hyu, buildDiff_removed _ _ hxu] at hstrip0
          have hmem : (⟨[], .removed, xs.getIdx ys.length, .undef⟩ : DiffEntry) ∈
              stripTopIdx ys.length (diffElems xs ys [] 0) := by
            rw [hstrip0]
            exact List.mem_singleton_self _
          have hmem2 := stripTopIdx_mem_elim _ _ _ hmem
          have hlast := hH _ hmem2 rfl
          simp [lastIsIdx] at hlast
        rw [applyChangeLeft_fun]
        obtain ⟨ws, hfold, hlen, hslots⟩ :=
          foldArrFactor .removed DiffEntry.valueRight (fun _ _ => rfl) es xs hall
        rw [hfold]
        obtain ⟨ws0, hfold0, hwlen0, -, -⟩ :=
          convergeArrLeft (sizeA xs + sizeA ys)
            (fun x y _ hnx hny hwx hwy hHc => convergeLeft x y hnx hny hwx hwy hHc)
            xs ys 0 xs le_rfl hnl hnr hwl hwr (by omega) (fun j => by simp) hH
        rw [applyChangeLeft_fun] at hfold0
        obtain ⟨ws0f, hfold0f, hlen0f, -⟩ :=
          foldArrFactor .removed DiffEntry.valueRight (fun _ _ => rfl)
            (diffElems xs ys [] 0) xs hallAny
        have hws0 : ws0f = ws0 := JVal.arr.inj (hfold0f.symm.trans hfold0)
        have hformula : List.foldl (fun n e => max n (idxBound e)) xs.length
            (diffElems xs ys [] 0) = ys.length := by
          rw [← hlen0f, hws0, hwlen0]
          omega
        have hwslen : ws.length = ys.length := by
          rw [hlen, perm_foldl_max idxBound hperm, hformula]
        rw [isDeepEqual_arr_iff]
        refine ⟨hwslen, fun i hi => ?_⟩
        have hiy : i < ys.length := by omega
        have hspa : (stripTopIdx i es).Perm (stripTopIdx i (diffElems xs ys [] 0)) := by
          simp only [stripTopIdx]
          exact hperm.filterMap _
        have hstrip0 : stripTopIdx i (diffElems xs ys [] 0) =
            buildDiff (xs.getIdx i) (ys.getIdx i) [] := by
          have h := stripTopIdx_diffElems xs ys 0 i
          simpa using h
        by_cases hix : i < xs.length
        · have hHc : ∀ e' ∈ buildDiff (xs.getIdx i) (ys.getIdx i) [],
              e'.status = DiffStatus.removed → lastIsIdx e'.path = false := by
            intro e' he' hs'
            cases hp : e'.path with
            | nil => rfl
            | cons s t =>
                have hmemS : e' ∈ stripTopIdx i (diffElems xs ys [] 0) := by
                  rw [hstrip0]
                  exact he'
                have hmem2 := stripTopIdx_mem_elim _ _ _ hmemS
                have hlast := hH _ hmem2 hs'
                rw [show ({ e' with path := PathSegment.idx (i : Int) :: e'.path }
                  : DiffEntry).path = PathSegment.idx (i : Int) :: e'.path from rfl, hp,
                  lastIsIdx_cons _ _ (by simp)] at hlast
                exact hlast
          have hchild := convergeLeftPerm (xs.getIdx i) (ys.getIdx i) (stripTopIdx i es)
            (hstrip0 ▸ hspa) (noUndefA_getIdx xs i hnl hix) (noUndefA_getIdx ys i hnr hiy)
            (wf_getIdx xs i hwl) (wf_getIdx ys i hwr) hHc
          rw [applyChangeLeft_fun] at hchild
          rw [hslots i]
          exact hchild
        · have hge : xs.length ≤ i := by omega
          have hxu : xs.getIdx i = .undef := JArr.getIdx_of_length_le xs i hge
          have hyu : ys.getIdx i ≠ .undef := fun hu => by
            have hnn := noUndefA_getIdx ys i hnr hiy
            rw [hu] at hnn
            exact Bool.noConfusion hnn
          have hsing : stripTopIdx i (diffElems xs ys [] 0) =
              [⟨[], .added, .undef, ys.getIdx i⟩] := by
            rw [hstrip0, hxu, buildDiff_added _ _ hyu]
          have h0 : stripTopIdx i es = [⟨[], .added, .undef, ys.getIdx i⟩] :=
            List.Perm.eq_singleton (hsing ▸ hspa)
          rw [hslots i, h0, hxu, List.foldl_cons, List.foldl_nil]
          rw [show applyDir .removed DiffEntry.valueRight JVal.undef
            ⟨[], .added, .undef, ys.getIdx i⟩ = ys.getIdx i from rfl]
          exact isDeepEqual_refl _ (wf_getIdx ys i hwr)
      · by_cases hobj : ∃ fs gs, l = JVal.obj fs ∧ r = JVal.obj gs
        · obtain ⟨fs, gs, rfl, rfl⟩ := hobj
          rw [buildDiff_objs fs gs [] heq'] at hH hperm
          have hndf : fs.keys.Nodup := by
            have h := hwl
            simp only [wf, Bool.and_eq_true, decide_eq_true_eq] at h
            exact h.1
          have hndg : gs.keys.Nodup := by
            have h := hwr
            simp only [wf, Bool.and_eq_true, decide_eq_true_eq] at h
            exact h.1
          have hall : ∀ e ∈ es, ∃ (k : String) (rest : List PathSegment),
              e.path = .key k :: rest ∧
              (e.status = DiffStatus.removed → fs.containsKey k = true) ∧
              (e.status = DiffStatus.removed → rest = [] →
                stripTopKey k es = [{ e with path := rest }]) := by
            intro e he
            have heL0 : e ∈ diffProps (keysUnion fs.keys gs.keys) fs gs [] := hperm.subset he
            obtain ⟨k, e', hk, hmem', hform⟩ := mem_diffProps _ fs gs e heL0
            subst hform
            obtain ⟨-, hrem, -, hvl, hvr, -, -, -⟩ :=
              diffEntry_facts (fs.getProp k) (gs.getProp k) e' hmem'
            refine ⟨k, e'.path, rfl, ?_, ?_⟩
            · intro hs
              have h2 : e'.valueLeft ≠ .undef := (hrem hs).2.1
              rw [hvl] at h2
              have h3 : fs.getProp k ≠ .undef := fun hu => by
                rw [hu, getAtPath_undef] at h2
                exact h2 rfl
              exact JObj.containsKey_of_getProp_ne fs k h3
            · intro hs hr
              have h1 : e'.valueRight = .undef := (hrem hs).1
              rw [hvr, hr] at h1
              rw [getAtPath_nil] at h1
              have h2 : e'.valueLeft ≠ .undef := (hrem hs).2.1
              rw [hvl] at h2
              have h3 : fs.getProp k ≠ .undef := fun hu => by
                rw [hu, getAtPath_undef] at h2
                exact h2 rfl
              have hstrip0 : stripTopKey k (diffProps (keysUnion fs.keys gs.keys) fs gs []) =
                  buildDiff (fs.getProp k) (gs.getProp k) [] :=
                stripTopKey_diffProps_mem _ fs gs k (keysUnion_nodup _ _) hk
              rw [h1, buildDiff_removed _ _ h3] at hstrip0
              have hspa : (stripTopKey k es).Perm
                  (stripTopKey k (diffProps (keysUnion fs.keys gs.keys) fs gs [])) := by
                simp only [stripTopKey]
                exact hperm.filterMap _
              have hsing := List.Perm.eq_singleton (hstrip0 ▸ hspa)
              rw [hsing]
              have hvleq : e'.valueLeft = fs.getProp k := by
                rw [hvl, hr, getAtPath_nil]
              have he' : e' = ⟨[], .removed, fs.getProp k, .undef⟩ :=
                DiffEntry.eq_of_fields _ _ hr hs hvleq (hrem hs).1
              rw [← he']
          rw [applyChangeLeft_fun]
          obtain ⟨ws, hfold, hwnd, hcl⟩ :=
            foldObjFactor .removed DiffEntry.valueRight (fun _ _ => rfl) es fs hndf hall
          rw [hfold]
          have hkey : ∀ a : String, ws.containsKey a = gs.containsKey a ∧
              (gs.getProp a ≠ .undef →
                isDeepEqual (ws.getProp a) (gs.getProp a) = true) := by
            intro a
            have hspa : (stripTopKey a es).Perm
                (stripTopKey a (diffProps (keysUnion fs.keys gs.keys) fs gs [])) := by
              simp only [stripTopKey]
              exact hperm.filterMap _
            by_cases hmem : a ∈ keysUnion fs.keys gs.keys
            · have hstrip0a :
                  stripTopKey a (diffProps (keysUnion fs.keys gs.keys) fs gs []) =
                  buildDiff (fs.getProp a) (gs.getProp a) [] :=
                stripTopKey_diffProps_mem _ fs gs a (keysUnion_nodup _ _) hmem
              by_cases hgu : gs.getProp a = .undef
              · have hg : gs.containsKey a = false := by
                  rcases hc : gs.containsKey a with _ | _
                  · rfl
                  · exact absurd hgu (JObj.getProp_ne_undef_of_contains gs a hnr hc)
                by_cases hfu : fs.getProp a = .undef
                · have hL0a :
                      stripTopKey a (diffProps (keysUnion fs.keys gs.keys) fs gs []) = [] := by
                    rw [hstrip0a, hfu, hgu, buildDiff_eq_nil _ _ _ (by decide)]
                  have h0 : stripTopKey a es = [] := List.Perm.eq_nil (hL0a ▸ hspa)
                  obtain ⟨hgp, hct⟩ := (hcl a).2 (by
                    rw [h0]
                    intro e2 he2
                    exact absurd he2 (List.not_mem_nil _))
                  rw [h0] at hgp hct
                  simp only [List.foldl_nil, List.isEmpty_nil, Bool.not_true,
                    Bool.or_false] at hgp hct
                  have hf : fs.containsKey a = false := by
                    rcases hc : fs.containsKey a with _ | _
                    · rfl
                    · exact absurd hfu (JObj.getProp_ne_undef_of_contains fs a hnl hc)
                  exact ⟨by rw [hct, hf, hg], fun hne => absurd hgu hne⟩
                · have hL0a :
                      stripTopKey a (diffProps (keysUnion fs.keys gs.keys) fs gs []) =
                      [⟨[], .removed, fs.getProp a, .undef⟩] := by
                    rw [hstrip0a, hgu, buildDiff_removed _ _ hfu]
                  have h0 : stripTopKey a es = [⟨[], .removed, fs.getProp a, .undef⟩] :=
                    List.Perm.eq_singleton (hL0a ▸ hspa)
                  obtain ⟨hgp, hct⟩ := (hcl a).1 (by
                    rw [h0]
                    exact ⟨_, List.mem_singleton_self _, rfl, rfl⟩)
                  exact ⟨by rw [hct, hg], fun hne => absurd hgu hne⟩
              · have hnoroot : ∀ e2 ∈ stripTopKey a es,
                    ¬ (e2.status = DiffStatus.removed ∧ e2.path = []) := by
                  rintro e2 he2 ⟨hs2, hp2⟩
                  have hmm : e2 ∈ buildDiff (fs.getProp a) (gs.getProp a) [] := by
                    rw [← hstrip0a]
                    exact hspa.subset he2
                  exact no_root_removed _ _ hgu e2 hmm ⟨hs2, hp2⟩
                obtain ⟨hgp, hct⟩ := (hcl a).2 hnoroot
                have hg : gs.containsKey a = true :=
                  JObj.containsKey_of_getProp_ne gs a hgu
                constructor
                · rw [hct, hg]
                  by_cases hfu : fs.getProp a = .undef
                  · have hf : fs.containsKey a = false := by
                      rcases hc : fs.containsKey a with _ | _
                      · rfl
                      · exact absurd hfu (JObj.getProp_ne_undef_of_contains fs a hnl hc)
                    have hL0a :
                        stripTopKey a (diffProps (keysUnion fs.keys gs.keys) fs gs []) =
                        [⟨[], .added, .undef, gs.getProp a⟩] := by
                      rw [hstrip0a, hfu, buildDiff_added _ _ hgu]
                    have h0 : stripTopKey a es = [⟨[], .added, .undef, gs.getProp a⟩] :=
                      List.Perm.eq_singleton (hL0a ▸ hspa)
                    rw [hf, h0]
                    rfl
                  · have hf : fs.containsKey a = true :=
                      JObj.containsKey_of_getProp_ne fs a hfu
                    rw [hf]
                    rfl
                · intro _
                  rw [hgp]
                  by_cases hfu : fs.getProp a = .undef
                  · have hL0a :
                        stripTopKey a (diffProps (keysUnion fs.keys gs.keys) fs gs []) =
                        [⟨[], .added, .undef, gs.getProp a⟩] := by
                      rw [hstrip0a, hfu, buildDiff_added _ _ hgu]
                    have h0 : stripTopKey a es = [⟨[], .added, .undef, gs.getProp a⟩] :=
                      List.Perm.eq_singleton (hL0a ▸ hspa)
                    rw [h0, hfu, List.foldl_cons, List.foldl_nil]
                    rw [show applyDir .removed DiffEntry.valueRight JVal.undef
                      ⟨[], .added, .undef, gs.getProp a⟩ = gs.getProp a from rfl]
                    exact isDeepEqual_refl _ (wf_getProp gs a hwr)
                  · have hHc : ∀ e' ∈ buildDiff (fs.getProp a) (gs.getProp a) [],
                        e'.status = DiffStatus.removed → lastIsIdx e'.path = false := by
                      intro e' he' hs'
                      cases hp : e'.path with
                      | nil => rfl
                      | cons s t =>
                          have hmemS : e' ∈ stripTopKey a
                              (diffProps (keysUnion fs.keys gs.keys) fs gs []) := by
                            rw [hstrip0a]
                            exact he'
                          have hmem2 := stripTopKey_mem_elim _ _ _ hmemS
                          have hlast := hH _ hmem2 hs'
                          rw [show ({ e' with path := PathSegment.key a :: e'.path }
                            : DiffEntry).path = PathSegment.key a :: e'.path from rfl, hp,
                            lastIsIdx_cons _ _ (by simp)] at hlast
                          exact hlast
                    have hnfk : noUndef (fs.getProp a) = true :=
                      noUndefO_mem fs a _ hnl (JObj.mem_toListO_getProp fs a
                        (JObj.containsKey_of_getProp_ne fs a hfu))
                    have hngk : noUndef (gs.getProp a) = true :=
                      noUndefO_mem gs a _ hnr (JObj.mem_toListO_getProp gs a
                        (JObj.containsKey_of_getProp_ne gs a hgu))
                    have hchild := convergeLeftPerm (fs.getProp a) (gs.getProp a)
                      (stripTopKey a es) (hstrip0a ▸ hspa) hnfk hngk
                      (wf_getProp fs a hwl) (wf_getProp gs a hwr) hHc
                    rw [applyChangeLeft_fun] at hchild
                    exact hchild
            · have hL0a :
                  stripTopKey a (diffProps (keysUnion fs.keys gs.keys) fs gs []) = [] :=
                stripTopKey_diffProps_not_mem _ fs gs a hmem
              have h0 : stripTopKey a es = [] := List.Perm.eq_nil (hL0a ▸ hspa)
              obtain ⟨hgp, hct⟩ := (hcl a).2 (by
                rw [h0]
                intro e2 he2
                exact absurd he2 (List.not_mem_nil _))
              rw [h0] at hgp hct
              simp only [List.foldl_nil, List.isEmpty_nil, Bool.not_true,
                Bool.or_false] at hgp hct
              have hfm : a ∉ fs.keys := fun hm => hmem ((keysUnion_mem _ _ a).mpr (Or.inl hm))
              have hgm : a ∉ gs.keys := fun hm => hmem ((keysUnion_mem _ _ a).mpr (Or.inr hm))
              have hf : fs.containsKey a = false := by
                rcases hc : fs.containsKey a with _ | _
                · rfl
                · exact absurd ((JObj.containsKey_iff_mem_keys fs a).mp hc) hfm
              have hg : gs.containsKey a = false := by
                rcases hc : gs.containsKey a with _ | _
                · rfl
                · exact absurd ((JObj.containsKey_iff_mem_keys gs a).mp hc) hgm
              refine ⟨by rw [hct, hf, hg], fun hne => ?_⟩
              exact absurd (JObj.getProp_eq_undef_of_not_contains gs a hg) hne
          rw [isDeepEqual_obj_iff ws gs hwnd hndg]
          constructor
          · ext a
            simp only [List.mem_toFinset]
            constructor
            · intro hmw
              have h := (JObj.containsKey_iff_mem_keys ws a).mpr hmw
              rw [(hkey a).1] at h
              exact (JObj.containsKey_iff_mem_keys gs a).mp h
            · intro hmg
              have h := (JObj.containsKey_iff_mem_keys gs a).mpr hmg
              rw [← (hkey a).1] at h
              exact (JObj.containsKey_iff_mem_keys ws a).mp h
          · intro a hma
            have hcw := (JObj.containsKey_iff_mem_keys ws a).mpr hma
            have hcg : gs.containsKey a = true := by
              rw [← (hkey a).1]
              exact hcw
            exact (hkey a).2 (JObj.getProp_ne_undef_of_contains gs a hnr hcg)
        · have hone := buildDiff_modified l r [] hlu hru heq'
            (fun xs ys hc => harr ⟨xs, ys, hc⟩) (fun fs gs hc => hobj ⟨fs, gs, hc⟩)
          rw [hone] at hperm
          rw [List.Perm.eq_singleton hperm]
          simp only [List.foldl_cons, List.foldl_nil]
          rw [show applyChangeLeft l ⟨[], .modified, l, r⟩ = r from rfl]
          exact isDeepEqual_refl r hwr
termination_by l r es _ _ _ _ _ _ => sizeJ l + sizeJ r
decreasing_by
  · subst_vars
    have h1 : sizeJ (JVal.arr xs) = sizeA xs + 1 := rfl
    have h2 : sizeJ (JVal.arr ys) = sizeA ys + 1 := rfl
    have h3 := sizeJ_getIdx_lt xs i
    have h4 := sizeJ_getIdx_lt ys i
    omega
  · subst_vars
    have h1 : sizeJ (JVal.obj fs) = sizeO fs + 1 := rfl
    have h2 : sizeJ (JVal.obj gs) = sizeO gs + 1 := rfl
    have h3 := sizeJ_getProp_lt fs a
    have h4 := sizeJ_getProp_lt gs a
    omega

/-- Mirror of `convergeLeftPerm`: applying the entries of `buildDiff l r []`
to the right side, in ANY order, produces a tree deep-equal to the left
side — provided no added entry's path ends in an array index. -/
theorem convergeRightPerm : ∀ (l r : JVal) (es : List DiffEntry),
    es.Perm (buildDiff l r []) →
    noUndef l = true → noUndef r = true → wf l = true → wf r = true →
    (∀ e ∈ buildDiff l r [], e.status = .added → lastIsIdx e.path = false) →
    isDeepEqual l (List.foldl applyChangeRight r es) = true
  | l, r, es, hperm, hnl, hnr, hwl, hwr, hH => by
    by_cases heq : isDeepEqual l r = true
    · rw [buildDiff_eq_nil l r [] heq] at hperm
      rw [hperm.eq_nil]
      simpa using heq
    · have heq' : isDeepEqual l r = false := by
        cases h : isDeepEqual l r with
        | false => rfl
        | true => exact absurd h heq
      have hlu : l ≠ .undef := fun he => by rw [he] at hnl; exact Bool.noConfusion hnl
      have hru : r ≠ .undef := fun he => by rw [he] at hnr; exact Bool.noConfusion hnr
      by_cases harr : ∃ xs ys, l = JVal.arr xs ∧ r = JVal.arr ys
      · obtain ⟨xs, ys, rfl, rfl⟩ := harr
        rw [buildDiff_arr xs ys [] heq'] at hH hperm
        have hallAny : ∀ e ∈ diffElems xs ys [] 0, ∃ (i : Nat) (rest : List PathSegment),
            e.path = .idx (i : Int) :: rest ∧
            (e.status = DiffStatus.added → rest ≠ [] ∧ i < ys.length) := by
          intro e he
          obtain ⟨j, e', hmem', hform, hb⟩ := mem_diffElems xs ys 0 e he
          subst hform
          refine ⟨j, e'.path, ?_, ?_⟩
          · show PathSegment.idx ((0 + j : Nat) : Int) :: e'.path =
              PathSegment.idx (j : Int) :: e'.path
            rw [Nat.zero_add]
          · intro hs
            constructor
            · intro hnil
              have hlast := hH _ he hs
              rw [show ({ e' with path := PathSegment.idx ((0 + j : Nat) : Int) :: e'.path }
                : DiffEntry).path = PathSegment.idx ((0 + j : Nat) : Int) :: e'.path from rfl,
                hnil] at hlast
              simp [lastIsIdx] at hlast
            · obtain ⟨hadd, -, -, -, hvr, -, -, -⟩ :=
                diffEntry_facts (xs.getIdx j) (ys.getIdx j) e' hmem'
              have h2 : e'.valueRight ≠ .undef := (hadd hs).2.1
              rw [hvr] at h2
              have h3 : ys.getIdx j ≠ .undef := fun hu => by
                rw [hu, getAtPath_undef] at h2
                exact h2 rfl
              exact JArr.lt_length_of_getIdx_ne ys j h3
        have hall : ∀ e ∈ es, ∃ (i : Nat) (rest : List PathSegment),
            e.path = .idx (i : Int) :: rest ∧
            (e.status = DiffStatus.added → rest ≠ [] ∧ i < ys.length) :=
          fun e he => hallAny e (hperm.subset he)
        have hle : ys.length ≤ xs.length := by
          by_contra hgt
          push_neg at hgt
          have hyu : ys.getIdx xs.length ≠ .undef := fun hu => by
            have hnn := noUndefA_getIdx ys xs.length hnr hgt
            rw [hu] at hnn
            exact Bool.noConfusion hnn
          have hxu : xs.getIdx xs.length = .undef :=
            JArr.getIdx_of_length_le xs _ (le_refl _)
          have hstrip0 : stripTopIdx xs.length (diffElems xs ys [] 0) =
              buildDiff (xs.getIdx xs.length) (ys.getIdx xs.length) [] := by
            have h := stripTopIdx_diffElems xs ys 0 xs.length
            simpa using h
          rw [hxu, buildDiff_added _ _ hyu] at hstrip0
          have hmem : (⟨[], .added, .undef, ys.getIdx xs.length⟩ : DiffEntry) ∈
              stripTopIdx xs.length (diffElems xs ys [] 0) := by
            rw [hstrip0]
            exact List.mem_singleton_self _
          have hmem2 := stripTopIdx_mem_elim _ _ _ hmem
          have hlast := hH _ hmem2 rfl
          simp [lastIsIdx] at hlast
        rw [applyChangeRight_fun]
        obtain ⟨ws, hfold, hlen, hslots⟩ :=
          foldArrFactor .added DiffEntry.valueLeft (fun _ _ => rfl) es ys hall
        rw [hfold]
        obtain ⟨ws0, hfold0, hwlen0, -, -⟩ :=
          convergeArrRight (sizeA xs + sizeA ys)
            (fun x y _ hnx hny hwx hwy hHc => convergeRight x y hnx hny hwx hwy hHc)
            xs ys 0 ys le_rfl hnl hnr hwl hwr (by omega) (fun j => by simp) hH
        rw [applyChangeRight_fun] at hfold0
        obtain ⟨ws0f, hfold0f, hlen0f, -⟩ :=
          foldArrFactor .added DiffEntry.valueLeft (fun _ _ => rfl)
            (diffElems xs ys [] 0) ys hallAny
        have hws0 : ws0f = ws0 := JVal.arr.inj (hfold0f.symm.trans hfold0)
        have hformula : List.foldl (fun n e => max n (idxBound e)) ys.length
            (diffElems xs ys [] 0) = xs.length := by
          rw [← hlen0f, hws0, hwlen0]
          omega
        have hwslen : ws.length = xs.length := by
          rw [hlen, perm_foldl_max idxBound hperm, hformula]
        rw [isDeepEqual_arr_iff]
        refine ⟨hwslen.symm, fun i hi => ?_⟩
        have hspa : (stripTopIdx i es).Perm (stripTopIdx i (diffElems xs ys [] 0)) := by
          simp only [stripTopIdx]
          exact hperm.filterMap _
        have hstrip0 : stripTopIdx i (diffElems xs ys [] 0) =
            buildDiff (xs.getIdx i) (ys.getIdx i) [] := by
          have h := stripTopIdx_diffElems xs ys 0 i
          simpa using h
        by_cases hiys : i < ys.length
        · have hHc : ∀ e' ∈ buildDiff (xs.getIdx i) (ys.getIdx i) [],
              e'.status = DiffStatus.added → lastIsIdx e'.path = false := by
            intro e' he' hs'
            cases hp : e'.path with
            | nil => rfl
            | cons s t =>
                have hmemS : e' ∈ stripTopIdx i (diffElems xs ys [] 0) := by
                  rw [hstrip0]
                  exact he'
                have hmem2 := stripTopIdx_mem_elim _ _ _ hmemS
                have hlast := hH _ hmem2 hs'
                rw [show ({ e' with path := PathSegment.idx (i : Int) :: e'.path }
                  : DiffEntry).path = PathSegment.idx (i : Int) :: e'.path from rfl, hp,
                  lastIsIdx_cons _ _ (by simp)] at hlast
                exact hlast
          have hchild := convergeRightPerm (xs.getIdx i) (ys.getIdx i) (stripTopIdx i es)
            (hstrip0 ▸ hspa) (noUndefA_getIdx xs i hnl hi) (noUndefA_getIdx ys i hnr hiys)
            (wf_getIdx xs i hwl) (wf_getIdx ys i hwr) hHc
          rw [applyChangeRight_fun] at hchild
          rw [hslots i]
          exact hchild
        · have hge : ys.length ≤ i := by omega
          have hyu : ys.getIdx i = .undef := JArr.getIdx_of_length_le ys i hge
          have hxu : xs.getIdx i ≠ .undef := fun hu => by
            have hnn := noUndefA_getIdx xs i hnl hi
            rw [hu] at hnn
            exact Bool.noConfusion hnn
          have hsing : stripTopIdx i (diffElems xs ys [] 0) =
              [⟨[], .removed, xs.getIdx i, .undef⟩] := by
            rw [hstrip0, hyu, buildDiff_removed _ _ hxu]
          have h0 : stripTopIdx i es = [⟨[], .removed, xs.getIdx i, .undef⟩] :=
            List.Perm.eq_singleton (hsing ▸ hspa)
          rw [hslots i, h0, hyu, List.foldl_cons, List.foldl_nil]
          rw [show applyDir .added DiffEntry.valueLeft JVal.undef
            ⟨[], .removed, xs.getIdx i, .undef⟩ = xs.getIdx i from rfl]
          exact isDeepEqual_refl _ (wf_getIdx xs i hwl)
      · by_cases hobj : ∃ fs gs, l = JVal.obj fs ∧ r = JVal.obj gs
        · obtain ⟨fs, gs, rfl, rfl⟩ := hobj
          rw [buildDiff_objs fs gs [] heq'] at hH hperm
          have hndf : fs.keys.Nodup := by
            have h := hwl
            simp only [wf, Bool.and_eq_true, decide_eq_true_eq] at h
            exact h.1
          have hndg : gs.keys.Nodup := by
            have h := hwr
            simp only [wf, Bool.and_eq_true, decide_eq_true_eq] at h
            exact h.1
          have hall : ∀ e ∈ es, ∃ (k : String) (rest : List PathSegment),
              e.path = .key k :: rest ∧
              (e.status = DiffStatus.added → gs.containsKey k = true) ∧
              (e.status = DiffStatus.added → rest = [] →
                stripTopKey k es = [{ e with path := rest }]) := by
            intro e he
            have heL0 : e ∈ diffProps (keysUnion fs.keys gs.keys) fs gs [] := hperm.subset he
            obtain ⟨k, e', hk, hmem', hform⟩ := mem_diffProps _ fs gs e heL0
            subst hform
            obtain ⟨hadd, -, -, hvl, hvr, -, -, -⟩ :=
              diffEntry_facts (fs.getProp k) (gs.getProp k) e' hmem'
            refine ⟨k, e'.path, rfl, ?_, ?_⟩
            · intro hs
              have h2 : e'.valueRight ≠ .undef := (hadd hs).2.1
              rw [hvr] at h2
              have h3 : gs.getProp k ≠ .undef := fun hu => by
                rw [hu, getAtPath_undef] at h2
                exact h2 rfl
              exact JObj.containsKey_of_getProp_ne gs k h3
            · intro hs hr
              have h1 : e'.valueLeft = .undef := (hadd hs).1
              rw [hvl, hr] at h1
              rw [getAtPath_nil] at h1
              have h2 : e'.valueRight ≠ .undef := (hadd hs).2.1
              rw [hvr] at h2
              have h3 : gs.getProp k ≠ .undef := fun hu => by
                rw [hu, getAtPath_undef] at h2
                exact h2 rfl
              have hstrip0 : stripTopKey k (diffProps (keysUnion fs.keys gs.keys) fs gs []) =
                  buildDiff (fs.getProp k) (gs.getProp k) [] :=
                stripTopKey_diffProps_mem _ fs gs k (keysUnion_nodup _ _) hk
              rw [h1, buildDiff_added _ _ h3] at hstrip0
              have hspa : (stripTopKey k es).Perm
                  (stripTopKey k (diffProps (keysUnion fs.keys gs.keys) fs gs [])) := by
                simp only [stripTopKey]
                exact hperm.filterMap _
              have hsing := List.Perm.eq_singleton (hstrip0 ▸ hspa)
              rw [hsing]
              have hvreq : e'.valueRight = gs.getProp k := by
                rw [hvr, hr, getAtPath_nil]
              have he' : e' = ⟨[], .added, .undef, gs.getProp k⟩ :=
                DiffEntry.eq_of_fields _ _ hr hs (hadd hs).1 hvreq
              rw [← he']
          rw [applyChangeRight_fun]
          obtain ⟨ws, hfold, hwnd, hcl⟩ :=
            foldObjFactor .added DiffEntry.valueLeft (fun _ _ => rfl) es gs hndg hall
          rw [hfold]
          have hkey : ∀ a : String, ws.containsKey a = fs.containsKey a ∧
              (fs.getProp a ≠ .undef →
                isDeepEqual (fs.getProp a) (ws.getProp a) = true) := by
            intro a
            have hspa : (stripTopKey a es).Perm
                (stripTopKey a (diffProps (keysUnion fs.keys gs.keys) fs gs [])) := by
              simp only [stripTopKey]
              exact hperm.filterMap _
            by_cases hmem : a ∈ keysUnion fs.keys gs.keys
            · have hstrip0a :
                  stripTopKey a (diffProps (keysUnion fs.keys gs.keys) fs gs []) =
                  buildDiff (fs.getProp a) (gs.getProp a) [] :=
                stripTopKey_diffProps_mem _ fs gs a (keysUnion_nodup _ _) hmem
              by_cases hfu : fs.getProp a = .undef
              · have hf : fs.containsKey a = false := by
                  rcases hc : fs.containsKey a with _ | _
                  · rfl
                  · exact absurd hfu (JObj.getProp_ne_undef_of_contains fs a hnl hc)
                by_cases hgu : gs.getProp a = .undef
                · have hL0a :
                      stripTopKey a (diffProps (keysUnion fs.keys gs.keys) fs gs []) = [] := by
                    rw [hstrip0a, hfu, hgu, buildDiff_eq_nil _ _ _ (by decide)]
                  have h0 : stripTopKey a es = [] := List.Perm.eq_nil (hL0a ▸ hspa)
                  obtain ⟨hgp, hct⟩ := (hcl a).2 (by
                    rw [h0]
                    intro e2 he2
                    exact absurd he2 (List.not_mem_nil _))
                  rw [h0] at hgp hct
                  simp only [List.foldl_nil, List.isEmpty_nil, Bool.not_true,
                    Bool.or_false] at hgp hct
                  have hg : gs.containsKey a = false := by
                    rcases hc : gs.containsKey a with _ | _
                    · rfl
                    · exact absurd hgu (JObj.getProp_ne_undef_of_contains gs a hnr hc)
                  exact ⟨by rw [hct, hg, hf], fun hne => absurd hfu hne⟩
                · have hL0a :
                      stripTopKey a (diffProps (keysUnion fs.keys gs.keys) fs gs []) =
                      [⟨[], .added, .undef, gs.getProp a⟩] := by
                    rw [hstrip0a, hfu, buildDiff_added _ _ hgu]
                  have h0 : stripTopKey a es = [⟨[], .added, .undef, gs.getProp a⟩] :=
                    List.Perm.eq_singleton (hL0a ▸ hspa)
                  obtain ⟨hgp, hct⟩ := (hcl a).1 (by
                    rw [h0]
                    exact ⟨_, List.mem_singleton_self _, rfl, rfl⟩)
                  exact ⟨by rw [hct, hf], fun hne => absurd hfu hne⟩
              · have hf : fs.containsKey a = true :=
                  JObj.containsKey_of_getProp_ne fs a hfu
                have hnoroot : ∀ e2 ∈ stripTopKey a es,
                    ¬ (e2.status = DiffStatus.added ∧ e2.path = []) := by
                  rintro e2 he2 ⟨hs2, hp2⟩
                  have hmm : e2 ∈ buildDiff (fs.getProp a) (gs.getProp a) [] := by
                    rw [← hstrip0a]
                    exact hspa.subset he2
                  exact no_root_added _ _ hfu e2 hmm ⟨hs2, hp2⟩
                obtain ⟨hgp, hct⟩ := (hcl a).2 hnoroot
                by_cases hgu : gs.getProp a = .undef
                · have hg : gs.containsKey a = false := by
                    rcases hc : gs.containsKey a with _ | _
                    · rfl
                    · exact absurd hgu (JObj.getProp_ne_undef_of_contains gs a hnr hc)
                  have hL0a :
                      stripTopKey a (diffProps (keysUnion fs.keys gs.keys) fs gs []) =
                      [⟨[], .removed, fs.getProp a, .undef⟩] := by
                    rw [hstrip0a, hgu, buildDiff_removed _ _ hfu]
                  have h0 : stripTopKey a es = [⟨[], .removed, fs.getProp a, .undef⟩] :=
                    List.Perm.eq_singleton (hL0a ▸ hspa)
                  constructor
                  · rw [hct, hg, h0, hf]
                    rfl
                  · intro _
                    rw [hgp, h0, hgu, List.foldl_cons, List.foldl_nil]
                    rw [show applyDir .added DiffEntry.valueLeft JVal.undef
                      ⟨[], .removed, fs.getProp a, .undef⟩ = fs.getProp a from rfl]
                    exact isDeepEqual_refl _ (wf_getProp fs a hwl)
                · have hg : gs.containsKey a = true :=
                    JObj.containsKey_of_getProp_ne gs a hgu
                  constructor
                  · rw [hct, hg, hf]
                    rfl
                  · intro _
                    rw [hgp]
                    have hHc : ∀ e' ∈ buildDiff (fs.getProp a) (gs.getProp a) [],
                        e'.status = DiffStatus.added → lastIsIdx e'.path = false := by
                      intro e' he' hs'
                      cases hp : e'.path with
                      | nil => rfl
                      | cons s t =>
                          have hmemS : e' ∈ stripTopKey a
                              (diffProps (keysUnion fs.keys gs.keys) fs gs []) := by
                            rw [hstrip0a]
                            exact he'
                          have hmem2 := stripTopKey_mem_elim _ _ _ hmemS
                          have hlast := hH _ hmem2 hs'
                          rw [show ({ e' with path := PathSegment.key a :: e'.path }
                            : DiffEntry).path = PathSegment.key a :: e'.path from rfl, hp,
                            lastIsIdx_cons _ _ (by simp)] at hlast
                          exact hlast
                    have hnfk : noUndef (fs.getProp a) = true :=
                      noUndefO_mem fs a _ hnl (JObj.mem_toListO_getProp fs a hf)
                    have hngk : noUndef (gs.getProp a) = true :=
                      noUndefO_mem gs a _ hnr (JObj.mem_toListO_getProp gs a hg)
                    have hchild := convergeRightPerm (fs.getProp a) (gs.getProp a)
                      (stripTopKey a es) (hstrip0a ▸ hspa) hnfk hngk
                      (wf_getProp fs a hwl) (wf_getProp gs a hwr) hHc
                    rw [applyChangeRight_fun] at hchild
                    exact hchild
            · have hL0a :
                  stripTopKey a (diffProps (keysUnion fs.keys gs.keys) fs gs []) = [] :=
                stripTopKey_diffProps_not_mem _ fs gs a hmem
              have h0 : stripTopKey a es = [] := List.Perm.eq_nil (hL0a ▸ hspa)
              obtain ⟨hgp, hct⟩ := (hcl a).2 (by
                rw [h0]
                intro e2 he2
                exact absurd he2 (List.not_mem_nil _))
              rw [h0] at hgp hct
              simp only [List.foldl_nil, List.isEmpty_nil, Bool.not_true,
                Bool.or_false] at hgp hct
              have hfm : a ∉ fs.keys := fun hm => hmem ((keysUnion_mem _ _ a).mpr (Or.inl hm))
              have hgm : a ∉ gs.keys := fun hm => hmem ((keysUnion_mem _ _ a).mpr (Or.inr hm))
              have hf : fs.containsKey a = false := by
                rcases hc : fs.containsKey a with _ | _
                · rfl
                · exact absurd ((JObj.containsKey_iff_mem_keys fs a).mp hc) hfm
              have hg : gs.containsKey a = false := by
                rcases hc : gs.containsKey a with _ | _
                · rfl
                · exact absurd ((JObj.containsKey_iff_mem_keys gs a).mp hc) hgm
              refine ⟨by rw [hct, hg, hf], fun hne => ?_⟩
              exact absurd (JObj.getProp_eq_undef_of_not_contains fs a hf) hne
          rw [isDeepEqual_obj_iff fs ws hndf hwnd]
          constructor
          · ext a
            simp only [List.mem_toFinset]
            constructor
            · intro hmf
              have h := (JObj.containsKey_iff_mem_keys fs a).mpr hmf
              rw [← (hkey a).1] at h
              exact (JObj.containsKey_iff_mem_keys ws a).mp h
            · intro hmw
              have h := (JObj.containsKey_iff_mem_keys ws a).mpr hmw
              rw [(hkey a).1] at h
              exact (JObj.containsKey_iff_mem_keys fs a).mp h
          · intro a hma
            have hcf := (JObj.containsKey_iff_mem_keys fs a).mpr hma
            exact (hkey a).2 (JObj.getProp_ne_undef_of_contains fs a hnl hcf)
        · have hone := buildDiff_modified l r [] hlu hru heq'
            (fun xs ys hc => harr ⟨xs, ys, hc⟩) (fun fs gs hc => hobj ⟨fs, gs, hc⟩)
          rw [hone] at hperm
          rw [List.Perm.eq_singleton hperm]
          simp only [List.foldl_cons, List.foldl_nil]
          rw [show applyChangeRight r ⟨[], .modified, l, r⟩ = l from rfl]
          exact isDeepEqual_refl l hwl
termination_by l r es _ _ _ _ _ _ => sizeJ l + sizeJ r
decreasing_by
  · subst_vars
    have h1 : sizeJ (JVal.arr xs) = sizeA xs + 1 := rfl
    have h2 : sizeJ (JVal.arr ys) = sizeA ys + 1 := rfl
    have h3 := sizeJ_getIdx_lt xs i
    have h4 := sizeJ_getIdx_lt ys i
    omega
  · subst_vars
    have h1 : sizeJ (JVal.obj fs) = sizeO fs + 1 := rfl
    have h2 : sizeJ (JVal.obj gs) = sizeO gs + 1 := rfl
    have h3 := sizeJ_getProp_lt fs a
    have h4 := sizeJ_getProp_lt gs a
    omega

/-- Claim C2 (corrected): for every pair of well-formed, undefined-free
values A and B, applying the toLeft merge to every entry of diff(A, B) — in
any order — and then recomputing diff of the resulting left tree against
the unchanged B yields the empty sequence, provided no removed entry's path
ends in an array index; symmetrically, applying toRight to every entry in
any order and re-diffing A against the resulting right tree yields the
empty sequence provided no added entry's path ends in an array index.
(Without the proviso the claim fails even in the diff's own order: a
removal addressed at an array element splices it out and shifts the later
elements — see the counterexample.) -/
theorem claim_C2 (A B : JVal) (es : List DiffEntry)
    (hperm : es.Perm (buildDiff A B []))
    (hnA : noUndef A = true) (hnB : noUndef B = true)
    (hwA : wf A = true) (hwB : wf B = true) :
    ((∀ e ∈ buildDiff A B [], e.status = .removed → lastIsIdx e.path = false) →
      buildDiff (List.foldl applyChangeLeft A es) B [] = []) ∧
    ((∀ e ∈ buildDiff A B [], e.status = .added → lastIsIdx e.path = false) →
      buildDiff A (List.foldl applyChangeRight B es) [] = []) := by
  constructor
  · intro hH
    exact buildDiff_eq_nil _ _ _ (convergeLeftPerm A B es hperm hnA hnB hwA hwB hH)
  · intro hH
    exact buildDiff_eq_nil _ _ _ (convergeRightPerm A B es hperm hnA hnB hwA hwB hH)

theorem claim_C2_witness :
    buildDiff
      (List.foldl applyChangeLeft (.arr (.cons (.num 1) (.cons (.num 2) .nil)))
        [⟨[.idx 1], .modified, .num 2, .num 4⟩, ⟨[.idx 0], .modified, .num 1, .num 3⟩])
      (.arr (.cons (.num 3) (.cons (.num 4) .nil))) [] = [] ∧
    buildDiff (.arr (.cons (.num 1) (.cons (.num 2) .nil)))
      (List.foldl applyChangeRight (.arr (.cons (.num 3) (.cons (.num 4) .nil)))
        [⟨[.idx 1], .modified, .num 2, .num 4⟩, ⟨[.idx 0], .modified, .num 1, .num 3⟩])
      [] = [] := by
  have hd : buildDiff (JVal.arr (.cons (.num 1) (.cons (.num 2) .nil)))
      (.arr (.cons (.num 3) (.cons (.num 4) .nil))) [] =
      [⟨[.idx 0], .modified, .num 1, .num 3⟩, ⟨[.idx 1], .modified, .num 2, .num 4⟩] := by
    rw [buildDiff_arr _ _ _ (by decide)]
    have h2 : diffElems (.cons (.num 1) (.cons (.num 2) .nil))
        (.cons (.num 3) (.cons (.num 4) .nil)) [] 0 =
        buildDiff (.num 1) (.num 3) [.idx (0 : Int)] ++
          diffElems (.cons (.num 2) .nil) (.cons (.num 4) .nil) [] 1 := by
      rw [diffElems.eq_def]; rfl
    have h3 : diffElems (.cons (.num 2) .nil) (.cons (.num 4) .nil) [] 1 =
        buildDiff (.num 2) (.num 4) [.idx (1 : Int)] ++ diffElems .nil .nil [] 2 := by
      rw [diffElems.eq_def]; rfl
    have h4 : diffElems JArr.nil .nil [] 2 = [] := by rw [diffElems.eq_def]
    rw [h2, h3, h4,
      buildDiff_modified _ _ _ (by decide) (by decide) (by decide)
        (fun xs ys hc => JVal.noConfusion hc.1) (fun fs gs hc => JVal.noConfusion hc.1),
      buildDiff_modified _ _ _ (by decide) (by decide) (by decide)
        (fun xs ys hc => JVal.noConfusion hc.1) (fun fs gs hc => JVal.noConfusion hc.1)]
    rfl
  have hperm : ([⟨[.idx 1], .modified, .num 2, .num 4⟩,
      ⟨[.idx 0], .modified, .num 1, .num 3⟩] : List DiffEntry).Perm
      (buildDiff (JVal.arr (.cons (.num 1) (.cons (.num 2) .nil)))
        (.arr (.cons (.num 3) (.cons (.num 4) .nil))) []) := by
    rw [hd]
    exact List.Perm.swap _ _ _
  have hprem1 : ∀ e ∈ buildDiff (JVal.arr (.cons (.num 1) (.cons (.num 2) .nil)))
      (.arr (.cons (.num 3) (.cons (.num 4) .nil))) [],
      e.status = DiffStatus.removed → lastIsIdx e.path = false := by
    intro e he hs
    rw [hd] at he
    rcases List.mem_cons.mp he with rfl | he2
    · exact absurd hs (by decide)
    · rcases List.mem_cons.mp he2 with rfl | he3
      · exact absurd hs (by decide)
      · exact absurd he3 (List.not_mem_nil _)
  have hprem2 : ∀ e ∈ buildDiff (JVal.arr (.cons (.num 1) (.cons (.num 2) .nil)))
      (.arr (.cons (.num 3) (.cons (.num 4) .nil))) [],
      e.status = DiffStatus.added → lastIsIdx e.path = false := by
    intro e he hs
    rw [hd] at he
    rcases List.mem_cons.mp he with rfl | he2
    · exact absurd hs (by decide)
    · rcases List.mem_cons.mp he2 with rfl | he3
      · exact absurd hs (by decide)
      · exact absurd he3 (List.not_mem_nil _)
  exact ⟨(claim_C2 _ _ _ hperm (by decide) (by decide) (by decide) (by decide)).1 hprem1,
    (claim_C2 _ _ _ hperm (by decide) (by decide) (by decide) (by decide)).2 hprem2⟩

end Jsonic
